import Mathlib

/-! # Boot-image construction of the M3 loader (gem5-dtu)

A shallow embedding of `src/sim/m3_loader.cc` (class `M3Loader`) and of
`src/arch/x86/m3/system.cc` (class `M3X86System`).

Conventions of the embedding.

* A `std::string` is a `List Char`; `c_str` gives the characters a C loop
  `while (*cmd)` visits, i.e. the ones before the first NUL.
* A pair of pointers `begin`, `cmd` into the command line is the list `tok` of
  the characters between them, so `cmd - begin` is `tok.length` and
  `cmd > begin` is `tok ≠ []`.
* `Addr` and `uint64_t` are `Nat`, reduced modulo `2 ^ 64` where the source
  computes with them.
* A `panic` or a failed `assert` is `none`; `initState` as a whole returns an
  outcome that names the abort and holds the memories at that point.
-/

/-! ## C library and `std::string` primitives -/

/-- The predicate `isspace` of the C locale: space, `\t`, `\n`, `\v`, `\f`, `\r`. -/
def isspace (c : Char) : Bool :=
  c == ' ' || c == '\t' || c == '\n' || c == '\x0b' || c == '\x0c' || c == '\r'

/-- The characters of `std::string::c_str()` seen by a loop that stops at the
first NUL character. -/
def c_str (s : List Char) : List Char :=
  s.takeWhile (fun c => c != '\x00')

/-- The test `strncmp(s1, s2, n) == 0` on two C strings (the end of a list is
the terminating NUL). -/
def strncmpEq : List Char → List Char → Nat → Bool
  | _, _, 0 => true
  | [], [], _ + 1 => true
  | [], _ :: _, _ + 1 => false
  | _ :: _, [], _ + 1 => false
  | a :: s1, b :: s2, n + 1 => a == b && strncmpEq s1 s2 n

/-- The member `std::string::find(pat)`: the position of the first occurrence
of `pat`, `none` for `npos`. -/
def find : List Char → List Char → Option Nat
  | [], pat => if pat.isPrefixOf [] then some 0 else none
  | c :: s, pat =>
    if pat.isPrefixOf (c :: s) then some 0 else (find s pat).map (fun k => k + 1)

/-- Removes the trailing `/` characters of a path. -/
def stripSlashes (p : List Char) : List Char :=
  (p.reverse.dropWhile (fun c => c == '/')).reverse

/-- The position of the last `/` of a path (`strrchr(path, '/')`), when there
is one. -/
def lastSlash (p : List Char) : Option Nat :=
  let r := p.reverse.dropWhile (fun c => c != '/')
  if r = [] then none else some (r.length - 1)

/-- The libc function `dirname(3)`, as glibc computes it: the path up to the
slashes before its last component; `"."` when there is no directory part,
`"/"` when only leading slashes are left, and `"//"` when these are exactly
two. -/
def dirname (p : List Char) : List Char :=
  match lastSlash p with
  | none => ['.']
  | some l0 =>
    let l1 : Option Nat :=
      if l0 ≠ 0 ∧ l0 + 1 = p.length then
        if stripSlashes p ≠ [] then lastSlash (stripSlashes p) else some l0
      else some l0
    match l1 with
    | none => ['.']
    | some l =>
      let r := stripSlashes (p.take (l + 1))
      if r = [] then (if l = 1 then p.take 2 else p.take 1) else r

/-! ## Specification-side vocabulary for command lines -/

/-- The non-empty whitespace-separated tokens of a string, in order. -/
def tokens (s : List Char) : List (List Char) :=
  (s.splitOnP isspace).filter (fun t => !t.isEmpty)

/-- The number of maximal runs of non-whitespace characters: the positions
holding a non-whitespace character whose predecessor is whitespace or
missing. -/
def countRuns (s : List Char) : Nat :=
  ((' ' :: s).zip s).countP (fun p => isspace p.1 && !isspace p.2)

/-- The words of an argument string: its pieces between single spaces. -/
def words (s : List Char) : List (List Char) :=
  (s.splitOnP (fun c => c == ' ')).filter (fun t => !t.isEmpty)

namespace M3Loader

/-- The loop of `M3Loader::getArgc` over the remaining characters, with the
locals `argc` and `len`. -/
def getArgcLoop : List Char → Nat → Nat → Nat
  | [], argc, len => if len > 0 then argc + 1 else argc
  | c :: cmd, argc, len =>
    if isspace c then
      getArgcLoop cmd (if len > 0 then argc + 1 else argc) 0
    else
      getArgcLoop cmd argc (len + 1)

/-- `M3Loader::getArgc`. -/
def getArgc (commandLine : List Char) : Nat :=
  getArgcLoop (c_str commandLine) 0 0

/-- `M3Loader::isKernelArg`. -/
def isKernelArg (arg : List Char) : Bool :=
  if arg = "daemon".toList then true
  else if arg = "muxable".toList then true
  else if find arg "requires=".toList = some 0 then true
  else if find arg "core=".toList = some 0 then true
  else false

end M3Loader

namespace M3X86System

/-- The loop of `M3X86System::getArgc`. -/
def getArgcLoop : List Char → Nat → Nat → Nat
  | [], argc, len => if len > 0 then argc + 1 else argc
  | c :: cmd, argc, len =>
    if isspace c then
      getArgcLoop cmd (if len > 0 then argc + 1 else argc) 0
    else
      getArgcLoop cmd argc (len + 1)

/-- `M3X86System::getArgc`. -/
def getArgc (commandLine : List Char) : Nat :=
  getArgcLoop (c_str commandLine) 0 0

end M3X86System

/-- The tokens of `tok ++ rest` when `tok` is the whitespace-free text scanned
so far: the scanning view of `tokens`. -/
def tokensFrom (tok : List Char) : List Char → List (List Char)
  | [] => if tok = [] then [] else [tok]
  | c :: rest =>
    if isspace c then
      if tok = [] then tokensFrom [] rest else tok :: tokensFrom [] rest
    else tokensFrom (tok ++ [c]) rest

/-! ## Simulated memory -/

/-- Simulated physical memory, one byte per address. -/
abbrev Mem := Nat → Nat

/-- The call `writeBlob(addr, data, size)`: the bytes `data` stored from `addr` on. -/
def writeBlob (mem : Mem) (addr : Nat) (data : List Nat) : Mem :=
  fun a => if addr ≤ a ∧ a < addr + data.length then data.getD (a - addr) 0 else mem a

/-- The eight bytes of a `uint64_t` in host (little-endian) order. -/
def u64Bytes (v : Nat) : List Nat :=
  (List.range 8).map (fun k => v / 256 ^ k % 256)

/-- Reads a `uint64_t` stored at `addr` in little-endian order. -/
def readU64 (mem : Mem) (addr : Nat) : Nat :=
  ((List.range 8).map (fun k => mem (addr + k) * 256 ^ k)).sum

/-- The bytes of a character string. -/
def strBytes (s : List Char) : List Nat :=
  s.map Char.toNat

/-- The bound of `Addr` and `uint64_t` arithmetic. -/
def WORD : Nat := 2 ^ 64

namespace M3Loader

/-- `M3Loader::writeArg`, on the memory and the reference parameters `args`
and `i`; `tok` is the text between `begin` and `cmd`. -/
def writeArg (mem : Mem) (args i argv : Nat) (tok : List Char) : Mem × Nat × Nat :=
  let argvPtr := args
  let mem1 := writeBlob mem ((argv + i * 8) % WORD) (u64Bytes argvPtr)
  let mem2 := writeBlob mem1 args (strBytes tok)
  let args1 := (args + tok.length) % WORD
  let mem3 := writeBlob mem2 args1 [0]
  (mem3, (args1 + 1) % WORD, i + 1)

/-- The locals of `M3Loader::initState` that the command-line pass updates. -/
structure ParseState where
  kernelPath : List Char
  prog : List Char
  argstr : List Char
  mods : List (List Char × List Char)
  seen_dashes : Bool
  i : Nat
  args : Nat
  mem : Mem

/-- The statement `argstr += ' '` (when `argstr` is not empty) followed by
`argstr += arg`, guarded by `!isKernelArg(arg)`. -/
def appendArg (st : ParseState) (arg : List Char) : ParseState :=
  if !isKernelArg arg then
    { st with argstr := (if st.argstr ≠ [] then st.argstr ++ [' '] else st.argstr) ++ arg }
  else st

/-- The body of `if (cmd > begin)` inside the loop, before `writeArg`
(lines 236-268): `buf` is the C string at `begin`, `tok` its part up to `cmd`. -/
def parseToken (modOffset : Nat) (buf tok : List Char) (st : ParseState) : ParseState :=
  if st.i = 0 then
    { st with kernelPath := dirname tok }
  else if modOffset ≠ 0 then
    if !st.seen_dashes then
      if strncmpEq buf "--".toList 2 then { st with seen_dashes := true } else st
    else if strncmpEq buf "--".toList 2 then
      { st with mods := st.mods ++ [(st.prog, st.argstr)], prog := [], argstr := [] }
    else if st.prog = [] then
      { st with prog := tok }
    else appendArg st tok
  else st

/-- The call of `writeArg` on the state. -/
def doWriteArg (argv : Nat) (tok : List Char) (st : ParseState) : ParseState :=
  let r := writeArg st.mem st.args st.i argv tok
  { st with mem := r.1, args := r.2.1, i := r.2.2 }

/-- The loop `while (*cmd)` of `initState` (lines 229-275) over the remaining
characters; returns the state and the text between `begin` and the end. -/
def parseLoop (modOffset argv : Nat) : List Char → List Char → ParseState → ParseState × List Char
  | [], tok, st => (st, tok)
  | c :: cmd, tok, st =>
    if isspace c then
      if tok ≠ [] then
        parseLoop modOffset argv cmd []
          (doWriteArg argv tok (parseToken modOffset (tok ++ c :: cmd) tok st))
      else parseLoop modOffset argv cmd [] st
    else parseLoop modOffset argv cmd (tok ++ [c]) st

/-- The block `if (cmd > begin)` after the loop (lines 277-295). -/
def parseLast (argv : Nat) (tok : List Char) (st : ParseState) : ParseState :=
  if tok ≠ [] then
    let st1 := if st.prog = [] then { st with prog := tok } else appendArg st tok
    let st2 := { st1 with mods := st1.mods ++ [(st1.prog, st1.argstr)] }
    doWriteArg argv tok st2
  else st

/-- The command-line pass of `initState` (lines 219-295), started with the
memory `mem`, the argv table at `argv` and the argument text at `args`. -/
def parseCmdline (modOffset argv args : Nat) (mem : Mem) (commandLine : List Char) : ParseState :=
  let st0 : ParseState :=
    { kernelPath := [], prog := [], argstr := [], mods := [], seen_dashes := false,
      i := 0, args := args, mem := mem }
  let r := parseLoop modOffset argv (c_str commandLine) [] st0
  parseLast argv r.2 r.1

/-- The command-line pass as `initState` starts it: `env.argc = getArgc()` and
`args = argv + sizeof(uint64_t) * env.argc` (lines 191-196). -/
def cmdlinePass (modOffset argv : Nat) (mem : Mem) (commandLine : List Char) : ParseState :=
  parseCmdline modOffset argv ((argv + 8 * getArgc commandLine) % WORD) mem commandLine

/-- The module list that `initState` packs when `modOffset` is set: the parsed
groups followed by `rctmux` (line 303). -/
def moduleList (modOffset argv : Nat) (mem : Mem) (commandLine : List Char) :
    List (List Char × List Char) :=
  (cmdlinePass modOffset argv mem commandLine).mods ++ [("rctmux".toList, [])]

end M3Loader

/-! ## Vocabulary for the argv table and the argument text -/

/-- The bytes `mem[addr], ..., mem[addr + n - 1]`. -/
def readBytes (mem : Mem) (addr n : Nat) : List Nat :=
  (List.range n).map (fun k => mem (addr + k))

/-- The number of bytes the tokens `ts` take as NUL-terminated strings. -/
def textLen (ts : List (List Char)) : Nat :=
  (ts.map (fun t => t.length + 1)).sum

/-- The successive calls of `writeArg` for the tokens `ts`. -/
def argFold (argv : Nat) (ts : List (List Char)) (s : Mem × Nat × Nat) : Mem × Nat × Nat :=
  ts.foldl (fun s t => M3Loader.writeArg s.1 s.2.1 s.2.2 argv t) s

/-- The argv entries `i, i + 1, ...` point to the NUL-terminated strings `ts`
laid out back to back from `args` on. -/
def ArgvHolds (mem : Mem) (argv : Nat) : Nat → Nat → List (List Char) → Prop
  | _, _, [] => True
  | i, args, t :: ts =>
    readU64 mem (argv + 8 * i) = args ∧
    readBytes mem args (t.length + 1) = strBytes t ++ [0] ∧
    ArgvHolds mem argv (i + 1) (args + t.length + 1) ts

/-! ## Invariant of the module parser -/

/-- No word of the argument string under construction, and of no module
recorded so far, is a kernel argument. -/
def M3Loader.ArgsClean (st : M3Loader.ParseState) : Prop :=
  (∀ w ∈ words st.argstr, M3Loader.isKernelArg w = false) ∧
  (∀ md ∈ st.mods, ∀ w ∈ words md.2, M3Loader.isKernelArg w = false)

/-- The names of a module are C strings and the program holds no space. -/
def NameOk (md : List Char × List Char) : Prop :=
  (∀ c ∈ md.1, c ≠ '\x00' ∧ c ≠ ' ') ∧ (∀ c ∈ md.2, c ≠ '\x00')

/-- The program and the argument string under construction and the modules
recorded so far are made of token characters. -/
def M3Loader.NamesOk (st : M3Loader.ParseState) : Prop :=
  (∀ c ∈ st.prog, c ≠ '\x00' ∧ c ≠ ' ') ∧ (∀ c ∈ st.argstr, c ≠ '\x00') ∧
  (∀ md ∈ st.mods, NameOk md)

/-! ## Packing the boot modules -/

/-- The complement `~x` of a 64-bit value. -/
def notAddr (x : Nat) : Nat :=
  WORD - 1 - x

/-- Modelled from the spec: `roundUp(val, align)` of `base/intmath.hh`, which is
not among the sources ("rounded up to an 8-byte boundary"): with
`mask = align - 1` it is `(val + mask) & ~mask`, computed on `Addr`. -/
def roundUp (val align : Nat) : Nat :=
  ((val + (align - 1)) % WORD) &&& notAddr (align - 1)

/-- Modelled from the spec: the record `BootModule` ("fixed-capacity name+argument
string, destination address, size"), whose declaration is not among the
sources: the array `name`, then the 64-bit fields `addr` and `size`. -/
structure BootModule where
  name : List Nat
  addr : Nat
  size : Nat

/-- The bytes of a `BootModule` as `writeRemote` and `writeBlob` copy them. -/
def BootModule.bytes (b : BootModule) : List Nat :=
  b.name ++ u64Bytes b.addr ++ u64Bytes b.size

/-- The constants the packing code takes from headers that are not among the
sources: `MAX_MODS`, `sizeof(bmod.name)` and `DtuTlb::PAGE_BITS`, with
`DtuTlb::PAGE_SIZE = 1 << PAGE_BITS`. -/
structure PackConsts where
  MAX_MODS : Nat
  MAX_MODNAME_LEN : Nat
  PAGE_BITS : Nat

/-- `DtuTlb::PAGE_SIZE`. -/
def PackConsts.PAGE_SIZE (k : PackConsts) : Nat :=
  1 <<< k.PAGE_BITS

/-- `sizeof(bmod)`: the name array and two 64-bit fields. -/
def PackConsts.sizeofBootModule (k : PackConsts) : Nat :=
  k.MAX_MODNAME_LEN + 16

/-- The C string held by a character array: its bytes before the first NUL. -/
def cstrOf (buf : List Nat) : List Nat :=
  buf.takeWhile (fun b => b != 0)

/-- `strcpy(buf, s)`: the characters of the C string `s` and a NUL, over the
start of `buf`. -/
def strcpy (buf : List Nat) (s : List Char) : List Nat :=
  strBytes (c_str s) ++ [0] ++ buf.drop ((c_str s).length + 1)

/-- `strcat(buf, s)`: the characters of `s` and a NUL, from the first NUL of
`buf` on. -/
def strcat (buf : List Nat) (s : List Char) : List Nat :=
  cstrOf buf ++ strBytes (c_str s) ++ [0] ++
    buf.drop ((cstrOf buf).length + (c_str s).length + 1)

/-- The host file system: the contents of the file of a given name, `none`
when `fopen` fails. -/
abbrev FileSystem := List Char → Option (List Nat)

/-- `M3Loader::loadModule` and `M3X86System::loadModule`: the file
`path + "/" + name` is copied to `addr`; the result is the memory and the
file size, `none` for the `panic` on a file that cannot be opened. -/
def loadModule (fs : FileSystem) (mem : Mem) (path name : List Char) (addr : Nat) :
    Option (Mem × Nat) :=
  match fs (path ++ "/".toList ++ name) with
  | none => none
  | some data => some (writeBlob mem addr data, data.length)

/-- The state of the packing loop: memory, the cursor `addr`, and for each
module packed so far the pointer `mods[i]` with the record written there. -/
structure PackState where
  mem : Mem
  addr : Nat
  recs : List (Nat × BootModule)

/-- The loop over `mods` of `M3Loader::initState` (lines 310-341) and of
`M3X86System::initState` (lines 324-355), which differ only in the name of
the memory write. `junk` is the content of the uninitialised local `bmod.name`. -/
def packLoop (k : PackConsts) (fs : FileSystem) (kernelPath : List Char) (junk : Nat → Nat) :
    List (List Char × List Char) → PackState → Option PackState
  | [], st => some st
  | md :: mods, st =>
    match loadModule fs st.mem kernelPath md.1 st.addr with
    | none => none
    | some (mem1, size) =>
      let cmdlen := md.1.length + md.2.length + 1
      if cmdlen ≥ k.MAX_MODNAME_LEN then none
      else
        let name0 := strcpy ((List.range k.MAX_MODNAME_LEN).map junk) md.1
        let name1 := if md.2 ≠ [] then strcat (strcat name0 " ".toList) md.2 else name0
        let bmod : BootModule := { name := name1, addr := st.addr, size := size }
        let rec_i := roundUp ((st.addr + size) % WORD) 8
        let mem2 := writeBlob mem1 rec_i bmod.bytes
        let addr1 := (rec_i + k.sizeofBootModule) % WORD
        let addr2 := (addr1 + (k.PAGE_SIZE - 1)) % WORD
        let addr3 := addr2 &&& notAddr (k.PAGE_SIZE - 1)
        packLoop k fs kernelPath junk mods
          { mem := mem2, addr := addr3, recs := st.recs ++ [(rec_i, bmod)] }

namespace M3Loader

/-- Lines 297-341 of `M3Loader::initState` for a set `modOffset`: `rctmux` is
appended, the module count is checked, and the modules are packed from
`base = NocAddr(memPe, modOffset).getAddr()`. -/
def packModules (k : PackConsts) (fs : FileSystem) (kernelPath : List Char) (junk : Nat → Nat)
    (mods : List (List Char × List Char)) (base : Nat) (mem : Mem) : Option PackState :=
  let mods1 := mods ++ [("rctmux".toList, [])]
  if mods1.length > k.MAX_MODS then none
  else packLoop k fs kernelPath junk mods1 { mem := mem, addr := base, recs := [] }

end M3Loader

namespace M3X86System

/-- Lines 314-355 of `M3X86System::initState`: when `modOffset` is set and a
module was parsed, `idle` is appended, the module count is checked, and the
modules are packed from `base = NocAddr(memPe, 0, modOffset).getAddr()`. -/
def packModules (k : PackConsts) (fs : FileSystem) (kernelPath : List Char) (junk : Nat → Nat)
    (modOffset : Nat) (mods : List (List Char × List Char)) (base : Nat) (mem : Mem) :
    Option PackState :=
  if modOffset ≠ 0 ∧ mods.length > 0 then
    let mods1 := mods ++ [("idle".toList, [])]
    if mods1.length > k.MAX_MODS then none
    else packLoop k fs kernelPath junk mods1 { mem := mem, addr := base, recs := [] }
  else some { mem := mem, addr := base, recs := [] }

end M3X86System

/-- The name a module's record holds: the program, and after one space the
argument string when there is one. -/
def modName (md : List Char × List Char) : List Char :=
  if md.2 = [] then md.1 else md.1 ++ ' ' :: md.2

/-- Splits a record name at its first space. -/
def splitFirstSpace (s : List Char) : List Char × List Char :=
  (s.takeWhile (fun c => c != ' '), (s.dropWhile (fun c => c != ' ')).drop 1)

/-- The size of the image of module `md`: the length of its file. -/
def imageSize (fs : FileSystem) (kernelPath : List Char) (md : List Char × List Char) : Nat :=
  match fs (kernelPath ++ "/".toList ++ md.1) with
  | none => 0
  | some data => data.length

/-- An upper bound of the address space that packing `mods` takes. -/
def packBound (k : PackConsts) (fs : FileSystem) (kernelPath : List Char)
    (mods : List (List Char × List Char)) : Nat :=
  (mods.map (fun md => imageSize fs kernelPath md + k.sizeofBootModule + k.PAGE_SIZE + 8)).sum

/-- The name `strcpy` and `strcat` build for module `md`. -/
def recordName (md : List Char × List Char) : List Char :=
  c_str md.1 ++ (if md.2 ≠ [] then ' ' :: c_str md.2 else [])

/-- The memory `mem` holds the modules `mods` packed from `a` up to the cursor
`f`, with the records `recs`: each image is the file's content at the record's
`addr`, its record lies behind the image, and the next module starts behind
the record. -/
def Packed (k : PackConsts) (fs : FileSystem) (kernelPath : List Char) (mem : Mem) :
    Nat → List (List Char × List Char) → List (Nat × BootModule) → Nat → Prop
  | a, [], [], f => f = a
  | a, md :: mods, r :: recs, f =>
    r.2.addr = a ∧ r.2.addr < WORD ∧ r.2.size < WORD ∧
    fs (kernelPath ++ "/".toList ++ md.1) = some (readBytes mem a r.2.size) ∧
    a + r.2.size ≤ r.1 ∧
    readBytes mem r.1 k.sizeofBootModule = r.2.bytes ∧
    r.2.name.length = k.MAX_MODNAME_LEN ∧
    cstrOf r.2.name = strBytes (recordName md) ∧
    ∃ a', r.1 + k.sizeofBootModule ≤ a' ∧ Packed k fs kernelPath mem a' mods recs f
  | _, _, _, _ => False

/-! ## A small configuration for concrete instances -/

/-- A file system with the images `bin/a` (3 bytes) and `bin/rctmux` (5 bytes). -/
def exampleFs : FileSystem := fun n =>
  if n = "bin/a".toList then some [1, 2, 3]
  else if n = "bin/rctmux".toList then some [9, 9, 9, 9, 9]
  else none

/-- Packing constants with 16-byte names and 16-byte pages. -/
def exampleConsts : PackConsts :=
  { MAX_MODS := 8, MAX_MODNAME_LEN := 16, PAGE_BITS := 4 }

/-! ## Page tables of `M3X86System` -/

/-- Modelled from the spec: the type `PtUnit::PageTableEntry`, whose declaration
is not among the sources ("base frame number + a permission/flag field"): the
bit fields `base` and `ixwr`. An entry with `ixwr = 0` is unset. -/
structure PageTableEntry where
  base : Nat
  ixwr : Nat
deriving DecidableEq

/-- The memory that holds page tables. The code reads and writes it one entry
at a time (`physProxy.read<pte_t>`, `physProxy.write`), always at addresses
that are multiples of the entry size, so it is a map from the address of an
entry to the entry. -/
abbrev PtMem := Nat → PageTableEntry

/-- The segments of the kernel image (`kernel->textBase()`, ...). -/
structure KernelImage where
  textBase : Nat
  textSize : Nat
  dataBase : Nat
  dataSize : Nat
  bssBase : Nat
  bssSize : Nat

/-- The members of an `M3X86System` and the constants it takes from headers
that are not among the sources: the page geometry and the flags of `DtuTlb`,
the width of the bit field `ixwr` and `sizeof(PageTableEntry)`, the address
`getRootPt().getAddr()`, the map `offset ↦ NocAddr(memPe, 0, offset).getAddr()`,
and the reserved regions. -/
structure M3X86System where
  PAGE_BITS : Nat
  LEVEL_CNT : Nat
  LEVEL_BITS : Nat
  PTE_BITS : Nat
  IXWR_BITS : Nat
  PTE_SIZE : Nat
  INTERN : Nat
  RX : Nat
  RW : Nat
  RWX : Nat
  IRWX : Nat
  memOffset : Nat
  memSize : Nat
  modOffset : Nat
  rootPt : Nat
  nocAddr : Nat → Nat
  HEAP_SIZE : Nat
  RT_START : Nat
  RT_SIZE : Nat
  STACK_AREA : Nat
  STACK_SIZE : Nat
  kernel : KernelImage

/-- The page tables and the frame counter `nextFrame` of an `M3X86System`. -/
structure PtState where
  mem : PtMem
  nextFrame : Nat

/-- Modelled from the spec: `divCeil(a, b)` of `base/intmath.hh`, which is not
among the sources ("maps ceil(size/P) consecutive pages"). -/
def divCeil (a b : Nat) : Nat :=
  (a + b - 1) / b

/-- The call `memsetBlob(addr, 0, size)` on the page-table memory. -/
def memsetBlob (mem : PtMem) (addr size : Nat) : PtMem :=
  fun a => if addr ≤ a ∧ a < addr + size then { base := 0, ixwr := 0 } else mem a

/-- The call `physProxy.write(addr, entry)`. -/
def writeEntry (mem : PtMem) (addr : Nat) (entry : PageTableEntry) : PtMem :=
  fun a => if a = addr then entry else mem a

namespace M3X86System

/-- `DtuTlb::PAGE_SIZE`, that is `1 << PAGE_BITS`. -/
def PAGE_SIZE (sys : M3X86System) : Nat :=
  1 <<< sys.PAGE_BITS

/-- `DtuTlb::LEVEL_MASK`, that is `(1 << LEVEL_BITS) - 1`. -/
def LEVEL_MASK (sys : M3X86System) : Nat :=
  (1 <<< sys.LEVEL_BITS) - 1

/-- `M3X86System::RES_PAGES` (lines 49-50). -/
def RES_PAGES (sys : M3X86System) : Nat :=
  (sys.STACK_AREA + sys.STACK_SIZE) >>> sys.PAGE_BITS

/-- The frame counter as the constructor leaves it: `nextFrame(RES_PAGES)`. -/
def initial (sys : M3X86System) (mem : PtMem) : PtState :=
  { mem := mem, nextFrame := sys.RES_PAGES }

/-- The assignment to the bit field `ixwr`, which keeps `IXWR_BITS` bits. -/
def toIxwr (sys : M3X86System) (flags : Nat) : Nat :=
  flags % 2 ^ sys.IXWR_BITS

/-- The address `pteAddr` of the entry that level `i` uses for `virt` in the
table at `ptAddr` (lines 137-140). -/
def pteAddr (sys : M3X86System) (ptAddr virt i : Nat) : Nat :=
  ptAddr + (((virt >>> (sys.PAGE_BITS + i * sys.LEVEL_BITS)) &&& sys.LEVEL_MASK) <<< sys.PTE_BITS)

/-- The loop of `M3X86System::mapPage` with `n` levels left: the iteration for
level `i = n - 1` and the ones below it. A failed `assert` gives `none`. The
frame number is not reduced: the type of `nextFrame` is not in the sources. -/
def mapPageLoop (sys : M3X86System) (virt phys access : Nat) :
    Nat → Nat → PtState → Option PtState
  | 0, _, s => some s
  | i + 1, ptAddr, s =>
    let entry := s.mem (sys.pteAddr ptAddr virt i)
    if ¬(i > 0 ∨ entry.ixwr = 0) then none
    else if entry.ixwr = 0 then
      let offset :=
        if i = 0 then (sys.memOffset + phys) % WORD
        else sys.memOffset + (s.nextFrame <<< sys.PAGE_BITS)
      let nextFrame1 := if i = 0 then s.nextFrame else s.nextFrame + 1
      let addr := sys.nocAddr offset
      let mem1 := if i > 0 then memsetBlob s.mem addr sys.PAGE_SIZE else s.mem
      let entry1 : PageTableEntry :=
        { base := addr >>> sys.PAGE_BITS,
          ixwr := sys.toIxwr (if i = 0 then access else sys.RWX) }
      let mem2 := writeEntry mem1 (sys.pteAddr ptAddr virt i) entry1
      mapPageLoop sys virt phys access i (entry1.base <<< sys.PAGE_BITS)
        { mem := mem2, nextFrame := nextFrame1 }
    else
      mapPageLoop sys virt phys access i (entry.base <<< sys.PAGE_BITS) s

/-- `M3X86System::mapPage`. -/
def mapPage (sys : M3X86System) (virt phys access : Nat) (s : PtState) : Option PtState :=
  sys.mapPageLoop virt phys access sys.LEVEL_CNT sys.rootPt s

/-- The loop of `M3X86System::mapSegment` with `n` pages left. -/
def mapSegmentLoop (sys : M3X86System) (perm : Nat) : Nat → Nat → PtState → Option PtState
  | 0, _, s => some s
  | n + 1, virt, s =>
    match sys.mapPage virt virt perm s with
    | none => none
    | some s1 => mapSegmentLoop sys perm n ((virt + sys.PAGE_SIZE) % WORD) s1

/-- `M3X86System::mapSegment`. -/
def mapSegment (sys : M3X86System) (start size perm : Nat) (s : PtState) : Option PtState :=
  sys.mapSegmentLoop perm (divCeil size sys.PAGE_SIZE) start s

/-- The address of the last entry of the root table,
`getRootPt().getAddr() + PAGE_SIZE - sizeof(entry)`. -/
def recSlot (sys : M3X86System) : Nat :=
  sys.rootPt + (sys.PAGE_SIZE - sys.PTE_SIZE)

/-- The start of `M3X86System::mapMemory` (lines 186-198): the root table is
cleared and its last entry made to point to the root table. -/
def initRootPt (sys : M3X86System) (s : PtState) : PtState :=
  let mem1 := memsetBlob s.mem sys.rootPt sys.PAGE_SIZE
  let entry : PageTableEntry :=
    { base := sys.rootPt >>> sys.PAGE_BITS, ixwr := sys.toIxwr sys.RWX }
  { s with mem := writeEntry mem1 sys.recSlot entry }

/-- `M3X86System::mapMemory`. -/
def mapMemory (sys : M3X86System) (s : PtState) : Option PtState :=
  (sys.mapSegment sys.kernel.textBase sys.kernel.textSize (sys.INTERN ||| sys.RX)
      (sys.initRootPt s)).bind fun s1 =>
  (sys.mapSegment sys.kernel.dataBase sys.kernel.dataSize (sys.INTERN ||| sys.RW) s1).bind
    fun s2 =>
  (sys.mapSegment sys.kernel.bssBase sys.kernel.bssSize (sys.INTERN ||| sys.RW) s2).bind
    fun s3 =>
  if sys.modOffset ≠ 0 then
    let bssEnd := roundUp ((sys.kernel.bssBase + sys.kernel.bssSize) % WORD) sys.PAGE_SIZE
    (sys.mapSegment bssEnd sys.HEAP_SIZE (sys.INTERN ||| sys.RW) s3).bind fun s4 =>
    (sys.mapSegment sys.RT_START sys.RT_SIZE (sys.INTERN ||| sys.RW) s4).bind fun s5 =>
    sys.mapSegment sys.STACK_AREA sys.STACK_SIZE (sys.INTERN ||| sys.RW) s5
  else
    sys.mapSegment 0 sys.memSize sys.IRWX s3

end M3X86System

/-- A call of `mapPage` or of `mapSegment`. -/
inductive PtOp where
  | page (virt phys access : Nat)
  | segment (start size perm : Nat)

/-- Runs one call on an address space. -/
def PtOp.run (sys : M3X86System) : PtOp → PtState → Option PtState
  | .page virt phys access, s => sys.mapPage virt phys access s
  | .segment start size perm, s => sys.mapSegment start size perm s

/-- Runs a sequence of calls, stopping at the first failed `assert`. -/
def runOps (sys : M3X86System) : List PtOp → PtState → Option PtState
  | [], s => some s
  | op :: ops, s =>
    match op.run sys s with
    | none => none
    | some s1 => runOps sys ops s1

/-- A two-level configuration with 4 KiB pages, 9 index bits per level and
8-byte entries; the root table lies at NoC offset 0 and the frame counter
starts at 16. -/
def exampleSys : M3X86System :=
  { PAGE_BITS := 12, LEVEL_CNT := 2, LEVEL_BITS := 9, PTE_BITS := 3, IXWR_BITS := 4,
    PTE_SIZE := 8, INTERN := 8, RX := 5, RW := 3, RWX := 7, IRWX := 15,
    memOffset := 0, memSize := 0x100000, modOffset := 0, rootPt := 0x8000000000000000,
    nocAddr := fun off => 0x8000000000000000 + off,
    HEAP_SIZE := 0x4000, RT_START := 0x6000, RT_SIZE := 0x2000,
    STACK_AREA := 0xe000, STACK_SIZE := 0x2000,
    kernel := { textBase := 0x200000, textSize := 0x1800, dataBase := 0x203000,
                dataSize := 0x10, bssBase := 0x204000, bssSize := 0x100 } }

/-! ## Vocabulary for address spaces -/

namespace M3X86System

/-- The address of the frame with number `f`, as `mapPage` computes it for a
new table (lines 150-151). -/
def frameAddr (sys : M3X86System) (f : Nat) : Nat :=
  sys.nocAddr (sys.memOffset + (f <<< sys.PAGE_BITS))

end M3X86System

namespace M3X86System

/-- The index that level `i` takes from `virt` (lines 137-138). -/
def levelIdx (sys : M3X86System) (virt i : Nat) : Nat :=
  (virt >>> (sys.PAGE_BITS + i * sys.LEVEL_BITS)) &&& sys.LEVEL_MASK

/-- The table a walk for `virt` uses after descending `k` levels from the root
table: level `LEVEL_CNT - 1 - k` reads its entry there. `none` when an entry on
the way is unset. -/
def tableAt (sys : M3X86System) (mem : PtMem) (virt : Nat) : Nat → Option Nat
  | 0 => some sys.rootPt
  | k + 1 =>
    match tableAt sys mem virt k with
    | none => none
    | some t =>
      if (mem (sys.pteAddr t virt (sys.LEVEL_CNT - 1 - k))).ixwr = 0 then none
      else some ((mem (sys.pteAddr t virt (sys.LEVEL_CNT - 1 - k))).base <<< sys.PAGE_BITS)

/-- The address of the level-0 entry of `virt`, when the walk reaches level 0. -/
def leafSlot (sys : M3X86System) (mem : PtMem) (virt : Nat) : Option Nat :=
  (sys.tableAt mem virt (sys.LEVEL_CNT - 1)).map (fun t => sys.pteAddr t virt 0)

/-- The level-0 entry of `virt`, set or not, when the walk reaches level 0. -/
def leafEntry (sys : M3X86System) (mem : PtMem) (virt : Nat) : Option PageTableEntry :=
  (sys.leafSlot mem virt).map mem

/-- The level-0 entry of `virt` when the page is mapped: the walk reaches
level 0 and the entry there is set. -/
def translate (sys : M3X86System) (mem : PtMem) (virt : Nat) : Option PageTableEntry :=
  (sys.leafEntry mem virt).bind (fun e => if e.ixwr = 0 then none else some e)

/-- `v` and `w` use the same indices at the first `k` levels of a walk. -/
def SamePrefix (sys : M3X86System) (v w k : Nat) : Prop :=
  ∀ m, m < k → sys.levelIdx v (sys.LEVEL_CNT - 1 - m) = sys.levelIdx w (sys.LEVEL_CNT - 1 - m)

/-- `v` and `w` use the same indices at every level: they lie in the same page
as far as the tables can tell. -/
def SamePage (sys : M3X86System) (v w : Nat) : Prop :=
  ∀ i, i < sys.LEVEL_CNT → sys.levelIdx v i = sys.levelIdx w i

/-- The walk for `v` does not start at the last entry of the root table, which
`mapMemory` points back to the root table. -/
def Regular (sys : M3X86System) (v : Nat) : Prop :=
  sys.pteAddr sys.rootPt v (sys.LEVEL_CNT - 1) ≠ sys.recSlot

/-- What the proofs need of the constants: at least one level, a table fits
into a page, a virtual address has at most 64 translated bits, the root table
and all frames are page-aligned, distinct frame numbers give distinct frames,
and the flags `RWX` set the field `ixwr`. -/
structure Geometry (sys : M3X86System) : Prop where
  levels : 1 ≤ sys.LEVEL_CNT
  fits : sys.LEVEL_BITS + sys.PTE_BITS ≤ sys.PAGE_BITS
  vaBits : sys.PAGE_BITS + sys.LEVEL_CNT * sys.LEVEL_BITS ≤ 64
  rootAligned : sys.rootPt % 2 ^ sys.PAGE_BITS = 0
  frameAligned : ∀ f, sys.frameAddr f % 2 ^ sys.PAGE_BITS = 0
  frameInj : ∀ f g, sys.frameAddr f = sys.frameAddr g → f = g
  rwx : sys.toIxwr sys.RWX ≠ 0

/-- A well-formed address space: no frame still to be handed out is the root
table; the tables that walks outside the recursive window reach form a tree
(a table is reached at one depth and along one index path only); and every
table below the root lies in a frame already handed out. -/
structure WF (sys : M3X86System) (s : PtState) : Prop where
  rootFresh : ∀ f, s.nextFrame ≤ f → sys.frameAddr f ≠ sys.rootPt
  inj : ∀ v w k j t, sys.Regular v → sys.Regular w → k < sys.LEVEL_CNT → j < sys.LEVEL_CNT →
    sys.tableAt s.mem v k = some t → sys.tableAt s.mem w j = some t →
    k = j ∧ sys.SamePrefix v w k
  alloc : ∀ v k t, sys.Regular v → 1 ≤ k → k < sys.LEVEL_CNT →
    sys.tableAt s.mem v k = some t → ∃ f, f < s.nextFrame ∧ t = sys.frameAddr f

end M3X86System

namespace M3X86System

/-- The state after the iteration of `mapPage` that finds the entry of `v` at
depth `k`, in table `t`, unset and fills it with a new table (level
`LEVEL_CNT - 1 - k > 0`). -/
def linkFresh (sys : M3X86System) (s : PtState) (v k t : Nat) : PtState :=
  { mem := writeEntry (memsetBlob s.mem (sys.frameAddr s.nextFrame) sys.PAGE_SIZE)
      (sys.pteAddr t v (sys.LEVEL_CNT - 1 - k))
      { base := sys.frameAddr s.nextFrame >>> sys.PAGE_BITS, ixwr := sys.toIxwr sys.RWX },
    nextFrame := s.nextFrame + 1 }

/-- The situation of `linkFresh`: in a well-formed address space the walk for
`v` has reached table `t` at depth `k`, above level 0, and the entry there is
unset. -/
structure FreshLink (sys : M3X86System) (s : PtState) (v k t : Nat) : Prop where
  geom : sys.Geometry
  wf : sys.WF s
  reg : sys.Regular v
  depth : k + 1 < sys.LEVEL_CNT
  table : sys.tableAt s.mem v k = some t
  unset : (s.mem (sys.pteAddr t v (sys.LEVEL_CNT - 1 - k))).ixwr = 0

end M3X86System

namespace M3X86System

/-- The state after the level-0 iteration of `mapPage` that writes entry `e`
for `v` into the level-0 table `t`. -/
def leafWrite (sys : M3X86System) (s : PtState) (v t : Nat) (e : PageTableEntry) : PtState :=
  { mem := writeEntry s.mem (sys.pteAddr t v 0) e, nextFrame := s.nextFrame }

/-- The situation of `leafWrite`: in a well-formed address space the walk for
`v` has reached the level-0 table `t`. -/
structure LeafReady (sys : M3X86System) (s : PtState) (v t : Nat) : Prop where
  geom : sys.Geometry
  wf : sys.WF s
  reg : sys.Regular v
  table : sys.tableAt s.mem v (sys.LEVEL_CNT - 1) = some t

end M3X86System

/-! ## The command-line pass of `M3X86System::initState` -/

namespace M3X86System

/-- `M3X86System::writeArg`, on the memory and the reference parameters `args`
and `i`; `tok` is the text between `begin` and `cmd`. -/
def writeArg (mem : Mem) (args i argv : Nat) (tok : List Char) : Mem × Nat × Nat :=
  let argvPtr := args
  let mem1 := writeBlob mem ((argv + i * 8) % WORD) (u64Bytes argvPtr)
  let mem2 := writeBlob mem1 args (strBytes tok)
  let args1 := (args + tok.length) % WORD
  let mem3 := writeBlob mem2 args1 [0]
  (mem3, (args1 + 1) % WORD, i + 1)

/-- The locals of `M3X86System::initState` that the command-line pass updates. -/
structure ParseState where
  kernelPath : List Char
  prog : List Char
  argstr : List Char
  mods : List (List Char × List Char)
  i : Nat
  args : Nat
  mem : Mem

/-- The statement `argstr += ' '` (when `argstr` is not empty) followed by
`argstr += std::string(begin, cmd - begin)` (lines 285-287 and 304-306). -/
def appendArg (st : ParseState) (arg : List Char) : ParseState :=
  { st with argstr := (if st.argstr ≠ [] then st.argstr ++ [' '] else st.argstr) ++ arg }

/-- The body of `if (cmd > begin)` inside the loop, before `writeArg`
(lines 266-289): `buf` is the C string at `begin`, `tok` its part up to `cmd`. -/
def parseToken (modOffset : Nat) (buf tok : List Char) (st : ParseState) : ParseState :=
  if st.i = 0 then
    { st with kernelPath := dirname tok }
  else if modOffset ≠ 0 then
    if strncmpEq buf "--".toList 2 then
      { st with mods := st.mods ++ [(st.prog, st.argstr)], prog := [], argstr := [] }
    else if st.prog = [] then
      { st with prog := tok }
    else appendArg st tok
  else st

/-- The call of `writeArg` on the state. -/
def doWriteArg (argv : Nat) (tok : List Char) (st : ParseState) : ParseState :=
  let r := writeArg st.mem st.args st.i argv tok
  { st with mem := r.1, args := r.2.1, i := r.2.2 }

/-- The loop `while (*cmd)` of `initState` (lines 259-296) over the remaining
characters; returns the state and the text between `begin` and the end. -/
def parseLoop (modOffset argv : Nat) : List Char → List Char → ParseState → ParseState × List Char
  | [], tok, st => (st, tok)
  | c :: cmd, tok, st =>
    if isspace c then
      if tok ≠ [] then
        parseLoop modOffset argv cmd []
          (doWriteArg argv tok (parseToken modOffset (tok ++ c :: cmd) tok st))
      else parseLoop modOffset argv cmd [] st
    else parseLoop modOffset argv cmd (tok ++ [c]) st

/-- The block `if (cmd > begin)` after the loop (lines 298-312). -/
def parseLast (argv : Nat) (tok : List Char) (st : ParseState) : ParseState :=
  if tok ≠ [] then
    let st1 := if st.prog = [] then { st with prog := tok } else appendArg st tok
    let st2 := { st1 with mods := st1.mods ++ [(st1.prog, st1.argstr)] }
    doWriteArg argv tok st2
  else st

/-- The command-line pass of `initState` (lines 250-312), started with the
memory `mem`, the argv table at `argv` and the argument text at `args`. -/
def parseCmdline (modOffset argv args : Nat) (mem : Mem) (commandLine : List Char) : ParseState :=
  let st0 : ParseState :=
    { kernelPath := [], prog := [], argstr := [], mods := [], i := 0, args := args, mem := mem }
  let r := parseLoop modOffset argv (c_str commandLine) [] st0
  parseLast argv r.2 r.1

/-- The command-line pass as `initState` starts it: `env.argc = getArgc()` and
`args = argv + sizeof(void*) * env.argc` (lines 238-240). -/
def cmdlinePass (modOffset argv : Nat) (mem : Mem) (commandLine : List Char) : ParseState :=
  parseCmdline modOffset argv ((argv + 8 * getArgc commandLine) % WORD) mem commandLine

/-- The module list that `initState` packs (lines 314-317): when `modOffset` is
set and a group was parsed, the parsed groups followed by `idle`; otherwise
nothing is packed. -/
def moduleList (modOffset argv : Nat) (mem : Mem) (commandLine : List Char) :
    Option (List (List Char × List Char)) :=
  if modOffset ≠ 0 ∧ (cmdlinePass modOffset argv mem commandLine).mods.length > 0 then
    some ((cmdlinePass modOffset argv mem commandLine).mods ++ [("idle".toList, [])])
  else none

end M3X86System
/-! ## `M3Loader::initState` -/

/-- The fields of `StartEnv` that `M3Loader::initState` assigns; the declaration
of the type is not among the sources, and every other byte of the structure is
zero (`memset`). -/
structure StartEnv where
  coreid : Nat
  argc : Nat
  argv : Nat
  heapsize : Nat
  pe : Nat
  kenv : Nat

/-- The local `KernelEnv kenv` of `M3Loader::initState` (the declaration of the
type is not among the sources): the fields that are assigned, which are the
entries of `mods` up to the terminating zero, `pe_count` and the array `pes`;
and `rest`, the bytes the local held before, by their offset in the structure.
The local is not initialised, so the bytes that no assignment reaches, such as
the entries of `mods` behind the terminating zero, keep that content when the
structure is written out as a whole (line 357). -/
structure KernelEnv where
  mods : List Nat
  pe_count : Nat
  pes : List Nat
  rest : Nat → Nat

/-- The `DTUMemory` object that `M3Loader::initState` is given. Its class is not
among the sources: the operations `initMemory` and `mapSegment` (on its page
tables, `none` for a failed `assert`) and the map
`offset ↦ NocAddr(dtumem.memPe, offset).getAddr()` are parameters. -/
structure DTUMemory where
  initMemory : PtState → Option PtState
  mapSegment : Nat → Nat → Nat → PtState → Option PtState
  nocAddr : Nat → Nat

/-- The members of an `M3Loader` (`pes`, `commandLine`, `coreId`, `modOffset`,
`modSize`) and what it takes from headers that are not among the sources: the
reserved regions, `HEAP_SIZE`, `MAX_PES`, the sizes and the byte layouts of
`StartEnv` and `KernelEnv`, the flags of `DtuTlb`, and the constants of the
packing loop. -/
structure M3Loader where
  pes : List Nat
  commandLine : List Char
  coreId : Nat
  modOffset : Nat
  modSize : Nat
  RT_START : Nat
  RT_SIZE : Nat
  STACK_AREA : Nat
  STACK_SIZE : Nat
  HEAP_SIZE : Nat
  MAX_PES : Nat
  sizeofStartEnv : Nat
  sizeofKernelEnv : Nat
  envBytes : StartEnv → List Nat
  kenvBytes : KernelEnv → List Nat
  INTERN : Nat
  RX : Nat
  RW : Nat
  consts : PackConsts

/-- The memories `M3Loader::initState` writes: the one behind `sys.physProxy`,
the one behind the NoC port (`writeRemote`), and the page tables of `dtumem`. -/
structure Machine where
  phys : Mem
  remote : Mem
  pt : PtState

/-- The ways `initState` aborts: a failed `assert` while mapping, and its calls
of `panic`; `moduleLoad` stands for the two panics of the module loop (a file
that cannot be opened, a module name that is too long). -/
inductive Panic where
  | assertion
  | cmdlineTooLong
  | tooManyPEs
  | tooManyModules
  | moduleLoad
  | modulesTooLarge
deriving DecidableEq

/-- What `M3Loader::initState` leaves behind when it returns: the `StartEnv`
written at `RT_START`; for a set `modOffset` the `KernelEnv` written at
`env.kenv`; the pointers `kenv.mods[i]` with the records written there; the
last value of the cursor `addr` (0 when `modOffset` is not set and there is
no cursor); and the memories. -/
structure InitDone where
  env : StartEnv
  kenv : Option KernelEnv
  recs : List (Nat × BootModule)
  cursor : Nat
  m : Machine

/-- The outcome of `M3Loader::initState`: it aborts, with the memories as they
are at that point (for `moduleLoad`: as they are before the module loop, whose
writes up to the abort `packLoop` does not return), or it returns. -/
inductive InitResult where
  | panic (p : Panic) (m : Machine)
  | done (d : InitDone)

namespace M3Loader

/-- The value `pes[coreId]`. -/
def peDesc (ld : M3Loader) : Nat :=
  ld.pes.getD ld.coreId 0

/-- `M3Loader::mapMemory` (lines 153-179). -/
def mapMemory (ld : M3Loader) (kernel : KernelImage) (dtumem : DTUMemory) (s : PtState) :
    Option PtState :=
  (dtumem.initMemory s).bind fun s0 =>
  (dtumem.mapSegment kernel.textBase kernel.textSize (ld.INTERN ||| ld.RX) s0).bind fun s1 =>
  (dtumem.mapSegment kernel.dataBase kernel.dataSize (ld.INTERN ||| ld.RW) s1).bind fun s2 =>
  (dtumem.mapSegment kernel.bssBase kernel.bssSize (ld.INTERN ||| ld.RW) s2).bind fun s3 =>
  if ld.modOffset ≠ 0 then
    let bssEnd := roundUp ((kernel.bssBase + kernel.bssSize) % WORD) ld.consts.PAGE_SIZE
    (dtumem.mapSegment bssEnd ld.HEAP_SIZE (ld.INTERN ||| ld.RW) s3).bind fun s4 =>
    (dtumem.mapSegment ld.RT_START ld.RT_SIZE (ld.INTERN ||| ld.RW) s4).bind fun s5 =>
    dtumem.mapSegment ld.STACK_AREA ld.STACK_SIZE (ld.INTERN ||| ld.RW) s5
  else some s3

/-- The address `argv` of the argv table (lines 192-195): behind the `StartEnv`,
and for a set `modOffset` behind room for a `KernelEnv`. -/
def argvAddr (ld : M3Loader) : Nat :=
  if ld.modOffset ≠ 0 then ((ld.RT_START + ld.sizeofStartEnv) % WORD + ld.sizeofKernelEnv) % WORD
  else (ld.RT_START + ld.sizeofStartEnv) % WORD

/-- The address `args` of the argument text (line 196). -/
def argsAddr (ld : M3Loader) : Nat :=
  (ld.argvAddr + 8 * getArgc ld.commandLine) % WORD

/-- The value `RT_START + RT_SIZE - args` of the check in line 207, computed on
`Addr`: the subtraction wraps when `args` is the larger one. -/
def spaceLeft (ld : M3Loader) : Nat :=
  ((ld.RT_START + ld.RT_SIZE) % WORD + WORD - ld.argsAddr) % WORD

/-- The `StartEnv` before the modules are handled (lines 188-204). -/
def env0 (ld : M3Loader) : StartEnv :=
  { coreid := ld.coreId, argc := getArgc ld.commandLine, argv := ld.argvAddr,
    heapsize := if ld.peDesc &&& 0x7 = 1 ∨ ld.peDesc &&& 0x7 = 2 then ld.HEAP_SIZE else 0,
    pe := 0, kenv := 0 }

/-- The array `kenv.pes` (lines 347-350): `MAX_PES` zeros, and on them the
entries of `pes`. -/
def kenvPes (ld : M3Loader) : List Nat :=
  ld.pes ++ List.replicate (ld.MAX_PES - ld.pes.length) 0

/-- The `KernelEnv` built in lines 300-350 from the pointers `kenv.mods[i]`.
`junk` is the content of the stack that the uninitialised locals start with:
`bmod.name` takes the entries below `sizeof(bmod.name)` (see `packLoop`), the
local `kenv` the entries from there on. -/
def kenvOf (ld : M3Loader) (junk : Nat → Nat) (recs : List (Nat × BootModule)) : KernelEnv :=
  { mods := recs.map (fun r => r.1) ++ [0], pe_count := ld.pes.length, pes := ld.kenvPes,
    rest := fun j => junk (ld.consts.MAX_MODNAME_LEN + j) }

/-- `M3Loader::initState`. -/
def initState (ld : M3Loader) (kernel : KernelImage) (dtumem : DTUMemory) (fs : FileSystem)
    (junk : Nat → Nat) (m : Machine) : InitResult :=
  match (if ld.peDesc &&& 0x7 = 1 then ld.mapMemory kernel dtumem m.pt else some m.pt) with
  | none => .panic .assertion m
  | some pt1 =>
    let m1 : Machine := { m with pt := pt1 }
    if ld.commandLine.length + 1 > ld.spaceLeft then .panic .cmdlineTooLong m1
    else if ld.pes.length > ld.MAX_PES then .panic .tooManyPEs m1
    else
      let st := cmdlinePass ld.modOffset ld.argvAddr m1.phys ld.commandLine
      let m2 : Machine := { m1 with phys := st.mem }
      if ld.modOffset ≠ 0 then
        let mods := st.mods ++ [("rctmux".toList, [])]
        if mods.length > ld.consts.MAX_MODS then .panic .tooManyModules m2
        else
          match packLoop ld.consts fs st.kernelPath junk mods
              { mem := m2.remote, addr := dtumem.nocAddr ld.modOffset, recs := [] } with
          | none => .panic .moduleLoad m2
          | some ps =>
            let kenv := ld.kenvOf junk ps.recs
            let env : StartEnv := { ld.env0 with pe := kenv.pes.getD ld.coreId 0, kenv := ps.addr }
            let m3 : Machine := { m2 with remote := writeBlob ps.mem env.kenv (ld.kenvBytes kenv) }
            let addr := (ps.addr + ld.sizeofKernelEnv) % WORD
            let end_ := dtumem.nocAddr ((ld.modOffset + ld.modSize) % WORD)
            if addr > end_ then .panic .modulesTooLarge m3
            else
              .done { env := env, kenv := some kenv, recs := ps.recs, cursor := addr,
                      m := { m3 with phys := writeBlob m3.phys ld.RT_START (ld.envBytes env) } }
      else
        .done { env := ld.env0, kenv := none, recs := [], cursor := 0,
                m := { m2 with phys := writeBlob m2.phys ld.RT_START (ld.envBytes ld.env0) } }

end M3Loader

/-! ## `M3X86System::initState` -/

namespace M3X86System

/-- The fields of `StartEnv` that `M3X86System::initState` assigns; `mods`
holds the entries up to the terminating zero, when they are assigned. -/
structure StartEnv where
  coreid : Nat
  argc : Nat
  argv : Nat
  mods : List Nat

/-- What `M3X86System::initState` takes besides the members and constants of
the page tables: `commandLine`, `coreId`, and from headers that are not among
the sources `sizeof(StartEnv)` with the byte layout, `MAX_MODS` and
`sizeof(bmod.name)`. -/
structure Boot where
  commandLine : List Char
  coreId : Nat
  sizeofStartEnv : Nat
  envBytes : StartEnv → List Nat
  MAX_MODS : Nat
  MAX_MODNAME_LEN : Nat

/-- The outcome of `M3X86System::initState`: it aborts, or it returns with the
`StartEnv` written at `RT_START`, the records, the memory and the page tables. -/
inductive Result where
  | panic (p : Panic)
  | done (env : StartEnv) (recs : List (Nat × BootModule)) (mem : Mem) (pt : PtState)

/-- The address `argv` of the argv table (line 239). -/
def argvAddr (sys : M3X86System) (b : Boot) : Nat :=
  (sys.RT_START + b.sizeofStartEnv) % WORD

/-- The value `RT_START + RT_SIZE - args` of the check in line 244, computed on
`Addr`. -/
def spaceLeft (sys : M3X86System) (b : Boot) : Nat :=
  ((sys.RT_START + sys.RT_SIZE) % WORD + WORD -
    (sys.argvAddr b + 8 * getArgc b.commandLine) % WORD) % WORD

/-- `M3X86System::initState` (lines 228-363) behind the call of
`X86System::initState`, which is not among the sources. -/
def initState (sys : M3X86System) (b : Boot) (fs : FileSystem) (junk : Nat → Nat)
    (mem : Mem) (pt : PtState) : Result :=
  match sys.mapMemory pt with
  | none => .panic .assertion
  | some pt1 =>
    let env : StartEnv :=
      { coreid := b.coreId, argc := getArgc b.commandLine, argv := sys.argvAddr b, mods := [] }
    if b.commandLine.length + 1 > sys.spaceLeft b then .panic .cmdlineTooLong
    else
      let st := cmdlinePass sys.modOffset (sys.argvAddr b) mem b.commandLine
      if sys.modOffset ≠ 0 ∧ st.mods.length > 0 then
        let mods := st.mods ++ [("idle".toList, [])]
        if mods.length > b.MAX_MODS then .panic .tooManyModules
        else
          match packLoop { MAX_MODS := b.MAX_MODS, MAX_MODNAME_LEN := b.MAX_MODNAME_LEN,
                           PAGE_BITS := sys.PAGE_BITS } fs st.kernelPath junk mods
              { mem := st.mem, addr := sys.nocAddr sys.modOffset, recs := [] } with
          | none => .panic .moduleLoad
          | some ps =>
            let env1 : StartEnv := { env with mods := ps.recs.map (fun r => r.1) ++ [0] }
            .done env1 ps.recs (writeBlob ps.mem sys.RT_START (b.envBytes env1)) pt1
      else
        .done env [] (writeBlob st.mem sys.RT_START (b.envBytes env)) pt1

end M3X86System
/-! ## Vocabulary for the group delimiters -/

/-- The string begins with the two characters `--`. -/
def startsDashes (t : List Char) : Bool :=
  "--".toList.isPrefixOf t

/-- Neither the program of a module nor a word of its argument string begins
with `--`. -/
def DashFree (md : List Char × List Char) : Prop :=
  startsDashes md.1 = false ∧ ∀ w ∈ words md.2, startsDashes w = false

/-- Neither the group under construction nor a recorded module of the
`M3Loader` parser holds a token that begins with `--`. -/
def M3Loader.NoDashes (st : M3Loader.ParseState) : Prop :=
  DashFree (st.prog, st.argstr) ∧ ∀ md ∈ st.mods, DashFree md

/-- Neither the group under construction nor a recorded module of the
`M3X86System` parser holds a token that begins with `--`. -/
def M3X86System.NoDashes (st : M3X86System.ParseState) : Prop :=
  DashFree (st.prog, st.argstr) ∧ ∀ md ∈ st.mods, DashFree md

/-- The text between `begin` and the end of the command line when the loop
`while (*cmd)` ends: the characters behind the last whitespace character, with
`tok` the text scanned since the last whitespace character. -/
def pending (tok : List Char) : List Char → List Char
  | [] => tok
  | c :: cmd => if isspace c then pending [] cmd else pending (tok ++ [c]) cmd
/-! ## Reading an outcome, and a small loader for concrete instances -/

/-- What `initState` left behind, when it returned. -/
def InitResult.done? : InitResult → Option InitDone
  | .done d => some d
  | .panic _ _ => none

/-- The way `initState` aborted, when it did. -/
def InitResult.panic? : InitResult → Option Panic
  | .done _ => none
  | .panic p _ => some p

/-- A `DTUMemory` whose mapping operations always succeed and change nothing,
with NoC addresses in the upper half of the address space. -/
def exampleDtu : DTUMemory :=
  { initMemory := fun s => some s, mapSegment := fun _ _ _ s => some s,
    nocAddr := fun off => 0x8000000000000000 + off }

/-- A layout of `StartEnv` for the example: the six fields as 64-bit words. -/
def exampleEnvBytes (e : StartEnv) : List Nat :=
  u64Bytes e.coreid ++ u64Bytes e.argc ++ u64Bytes e.argv ++ u64Bytes e.heapsize ++
    u64Bytes e.pe ++ u64Bytes e.kenv

/-- A layout of `KernelEnv` for the example, with room for four module
pointers and four PEs: the pointers, the count and the PEs as 64-bit words.
The entries of `mods` that are not assigned hold the bytes of `rest`. -/
def exampleKenvBytes (k : KernelEnv) : List Nat :=
  (k.mods.map u64Bytes).flatten ++
    (List.range (8 * (4 - k.mods.length))).map (fun j => k.rest (8 * k.mods.length + j)) ++
    u64Bytes k.pe_count ++ (k.pes.map u64Bytes).flatten

/-- The loader of PE `coreId` among the PEs `pes` for the command line `cmd`,
with a runtime region of 256 bytes at `0x6000`, 16-byte pages, 16-byte module
names and at most 3 modules and 4 PEs. -/
def exampleLoader (pes : List Nat) (coreId modOffset : Nat) (cmd : List Char) : M3Loader :=
  { pes := pes, commandLine := cmd, coreId := coreId, modOffset := modOffset, modSize := 0x100,
    RT_START := 0x6000, RT_SIZE := 0x100, STACK_AREA := 0x6100, STACK_SIZE := 0x100,
    HEAP_SIZE := 0x4000, MAX_PES := 4, sizeofStartEnv := 48, sizeofKernelEnv := 72,
    envBytes := exampleEnvBytes, kenvBytes := exampleKenvBytes,
    INTERN := 8, RX := 5, RW := 3,
    consts := { MAX_MODS := 3, MAX_MODNAME_LEN := 16, PAGE_BITS := 4 } }

/-- Memories that hold zeros, and no page tables. -/
def exampleMachine : Machine :=
  { phys := fun _ => 0, remote := fun _ => 0,
    pt := { mem := fun _ => { base := 0, ixwr := 0 }, nextFrame := 0 } }

/-- The outcome of `initState` for the example loader, with the kernel image of
`exampleSys` and the files of `exampleFs`. -/
def exampleInit (pes : List Nat) (coreId modOffset : Nat) (cmd : List Char) : InitResult :=
  (exampleLoader pes coreId modOffset cmd).initState exampleSys.kernel exampleDtu exampleFs
    (fun _ => 255) exampleMachine
/-! ## Vocabulary for the path of a page and the frame counter -/

namespace M3X86System

end M3X86System
/-! ## Vocabulary for the first token -/

/-- Two states of the `M3Loader` parser agree on the groups: on the group under
construction, on the recorded modules and on `seen_dashes`, and both are past
the first token. -/
def M3Loader.SameGroups (a b : M3Loader.ParseState) : Prop :=
  a.prog = b.prog ∧ a.argstr = b.argstr ∧ a.mods = b.mods ∧
  a.seen_dashes = b.seen_dashes ∧ a.i ≠ 0 ∧ b.i ≠ 0

/-- Two states of the `M3X86System` parser agree on the groups, and both are
past the first token. -/
def M3X86System.SameGroups (a b : M3X86System.ParseState) : Prop :=
  a.prog = b.prog ∧ a.argstr = b.argstr ∧ a.mods = b.mods ∧ a.i ≠ 0 ∧ b.i ≠ 0
/-! ## Vocabulary for the history of an address space, and `mapPage` without `assert` -/

namespace M3X86System

/-- The `n` pages that the loop of `mapSegment` maps from `virt` on all lie
outside the recursive window. -/
def RegularFrom (sys : M3X86System) : Nat → Nat → Prop
  | 0, _ => True
  | n + 1, virt => sys.Regular virt ∧ RegularFrom sys n ((virt + sys.PAGE_SIZE) % WORD)

/-- The loop of `M3X86System::mapPage` with `n` levels left as a build with
`NDEBUG` has it, where the `assert` of line 142 expands to nothing: a set
level-0 entry is skipped like a set entry of a higher level. -/
def mapPageLoopNdebug (sys : M3X86System) (virt phys access : Nat) :
    Nat → Nat → PtState → PtState
  | 0, _, s => s
  | i + 1, ptAddr, s =>
    let entry := s.mem (sys.pteAddr ptAddr virt i)
    if entry.ixwr = 0 then
      let offset :=
        if i = 0 then (sys.memOffset + phys) % WORD
        else sys.memOffset + (s.nextFrame <<< sys.PAGE_BITS)
      let nextFrame1 := if i = 0 then s.nextFrame else s.nextFrame + 1
      let addr := sys.nocAddr offset
      let mem1 := if i > 0 then memsetBlob s.mem addr sys.PAGE_SIZE else s.mem
      let entry1 : PageTableEntry :=
        { base := addr >>> sys.PAGE_BITS,
          ixwr := sys.toIxwr (if i = 0 then access else sys.RWX) }
      let mem2 := writeEntry mem1 (sys.pteAddr ptAddr virt i) entry1
      mapPageLoopNdebug sys virt phys access i (entry1.base <<< sys.PAGE_BITS)
        { mem := mem2, nextFrame := nextFrame1 }
    else
      mapPageLoopNdebug sys virt phys access i (entry.base <<< sys.PAGE_BITS) s

/-- `M3X86System::mapPage` in a build with `NDEBUG`. -/
def mapPageNdebug (sys : M3X86System) (virt phys access : Nat) (s : PtState) : PtState :=
  sys.mapPageLoopNdebug virt phys access sys.LEVEL_CNT sys.rootPt s

end M3X86System

/-- The pages that a call maps all lie outside the recursive window. -/
def PtOp.Regular (sys : M3X86System) : PtOp → Prop
  | .page virt _ _ => sys.Regular virt
  | .segment start size _ => sys.RegularFrom (divCeil size sys.PAGE_SIZE) start

/-- The example system as an application PE (`modOffset` is 0) whose image lies
in the memory that `mapMemory` maps as a whole: `0x8000` bytes of memory, text
at `0x2000`, data at `0x3000`, bss at `0x4000`. -/
def exampleApp : M3X86System :=
  { exampleSys with
    memSize := 0x8000,
    kernel := { textBase := 0x2000, textSize := 0x1000, dataBase := 0x3000,
                dataSize := 0x10, bssBase := 0x4000, bssSize := 0x100 } }

theorem c_str_eq_self {s : List Char} (h : ∀ c ∈ s, c ≠ '\x00') : c_str s = s := by
  unfold c_str
  rw [List.takeWhile_eq_self_iff]
  intro c hc
  simpa using h c hc

theorem find_eq_zero_iff (s pat : List Char) : find s pat = some 0 ↔ pat <+: s := by
  cases s with
  | nil =>
    simp only [find]
    split
    · rename_i h; simpa using List.isPrefixOf_iff_prefix.mp h
    · rename_i h
      constructor
      · intro h'; cases h'
      · intro h'; exact absurd (List.isPrefixOf_iff_prefix.mpr h') h
  | cons c s =>
    simp only [find]
    split
    · rename_i h; simpa using List.isPrefixOf_iff_prefix.mp h
    · rename_i h
      constructor
      · intro h'
        cases hf : find s pat with
        | none => rw [hf] at h'; cases h'
        | some k => rw [hf] at h'; simp at h'
      · intro h'; exact absurd (List.isPrefixOf_iff_prefix.mpr h') h

theorem tokensFrom_eq (rest : List Char) :
    ∀ tok : List Char, tokensFrom tok rest =
      ((rest.splitOnP isspace).modifyHead (fun t => tok ++ t)).filter (fun t => !t.isEmpty) := by
  induction rest with
  | nil =>
    intro tok
    cases tok <;> simp [tokensFrom, List.splitOnP_nil, List.modifyHead]
  | cons c rest ih =>
    intro tok
    rw [tokensFrom, List.splitOnP_cons]
    by_cases hc : isspace c = true
    · simp only [hc, if_true]
      have h0 := ih []
      simp only [List.nil_append] at h0
      have hid : (List.splitOnP isspace rest).modifyHead (fun t => t) =
          List.splitOnP isspace rest := by
        cases List.splitOnP isspace rest <;> rfl
      rw [hid] at h0
      cases tok with
      | nil => simp [List.modifyHead, h0]
      | cons a tok => simp [List.modifyHead, h0]
    · simp only [hc, if_false, Bool.false_eq_true]
      rw [ih (tok ++ [c])]
      cases hsp : List.splitOnP isspace rest with
      | nil => simp [List.modifyHead]
      | cons t ts => simp [List.modifyHead]

theorem tokensFrom_nil (s : List Char) : tokensFrom [] s = tokens s := by
  rw [tokensFrom_eq, tokens]
  congr 1
  cases List.splitOnP isspace s <;> rfl

/-! ## Lemmas on the byte memory -/

theorem writeBlob_in (mem : Mem) (addr : Nat) (data : List Nat) (k : Nat) (hk : k < data.length) :
    writeBlob mem addr data (addr + k) = data.getD k 0 := by
  unfold writeBlob
  have h1 : addr ≤ addr + k ∧ addr + k < addr + data.length := ⟨by omega, by omega⟩
  rw [if_pos h1]
  congr 1
  omega

theorem writeBlob_out (mem : Mem) (addr : Nat) (data : List Nat) (a : Nat)
    (h : a < addr ∨ addr + data.length ≤ a) : writeBlob mem addr data a = mem a := by
  unfold writeBlob
  rw [if_neg]
  omega

theorem u64Bytes_length (v : Nat) : (u64Bytes v).length = 8 := by
  simp [u64Bytes]

theorem readU64_congr (m1 m2 : Mem) (a : Nat) (h : ∀ k, k < 8 → m1 (a + k) = m2 (a + k)) :
    readU64 m1 a = readU64 m2 a := by
  unfold readU64
  congr 1
  apply List.map_congr_left
  intro k hk
  rw [h k (by simpa using hk)]

theorem readU64_writeBlob (mem : Mem) (a v : Nat) (hv : v < WORD) :
    readU64 (writeBlob mem a (u64Bytes v)) a = v := by
  have h : ∀ k, k < 8 → writeBlob mem a (u64Bytes v) (a + k) = v / 256 ^ k % 256 := by
    intro k hk
    rw [writeBlob_in _ _ _ _ (by rw [u64Bytes_length]; exact hk)]
    simp [u64Bytes, List.getD_eq_getElem?_getD, List.getElem?_map, List.getElem?_range hk]
  unfold readU64
  simp only [List.range_succ, List.range_zero, List.nil_append, List.map_append, List.map_cons,
    List.map_nil, List.sum_append, List.sum_cons, List.sum_nil, List.cons_append]
  rw [h 0 (by omega), h 1 (by omega), h 2 (by omega), h 3 (by omega), h 4 (by omega),
    h 5 (by omega), h 6 (by omega), h 7 (by omega)]
  unfold WORD at hv
  norm_num at hv ⊢
  omega

/-! ## Lemmas on `getArgc` -/

theorem M3Loader.getArgcLoop_tokens (cmd : List Char) :
    ∀ (tok : List Char) (argc : Nat),
      M3Loader.getArgcLoop cmd argc tok.length = argc + (tokensFrom tok cmd).length := by
  induction cmd with
  | nil =>
    intro tok argc
    cases tok <;> simp [M3Loader.getArgcLoop, tokensFrom]
  | cons c cmd ih =>
    intro tok argc
    rw [M3Loader.getArgcLoop, tokensFrom]
    by_cases hc : isspace c = true
    · simp only [hc, if_true]
      have h := ih [] (if tok.length > 0 then argc + 1 else argc)
      simp only [List.length_nil] at h
      rw [h]
      cases tok with
      | nil => simp
      | cons a tok => simp; omega
    · simp only [hc, if_false, Bool.false_eq_true]
      have h := ih (tok ++ [c]) argc
      simp only [List.length_append, List.length_singleton] at h
      exact h

theorem M3Loader.getArgcLoop_runs (cmd : List Char) :
    ∀ (prev : Char) (argc len : Nat), (isspace prev = true ↔ len = 0) →
      M3Loader.getArgcLoop cmd argc len = argc + (if len > 0 then 1 else 0) +
        (((prev :: cmd).zip cmd).countP (fun p => isspace p.1 && !isspace p.2)) := by
  induction cmd with
  | nil =>
    intro prev argc len _
    simp [M3Loader.getArgcLoop]
    split <;> simp
  | cons c cmd ih =>
    intro prev argc len hp
    rw [M3Loader.getArgcLoop]
    by_cases hc : isspace c = true
    · simp only [hc, if_true]
      rw [ih c _ 0 (by simp [hc])]
      simp [List.countP_cons, hc]
      split <;> rfl
    · simp only [hc, if_false, Bool.false_eq_true]
      rw [ih c argc (len + 1) (by simp [hc])]
      simp only [List.zip_cons_cons, List.countP_cons]
      by_cases hl : len = 0
      · have := hp.mpr hl
        simp [hl, this, hc]; omega
      · have : isspace prev = false := by
          cases h : isspace prev
          · rfl
          · exact absurd (hp.mp h) hl
        have hl' : len > 0 := Nat.pos_of_ne_zero hl
        simp [this, hl']

theorem M3X86System.getArgcLoop_eq (cmd : List Char) :
    ∀ argc len : Nat, M3X86System.getArgcLoop cmd argc len = M3Loader.getArgcLoop cmd argc len := by
  induction cmd with
  | nil => intro argc len; rfl
  | cons c cmd ih =>
    intro argc len
    rw [M3X86System.getArgcLoop, M3Loader.getArgcLoop, ih, ih]

theorem M3X86System.getArgc_eq (cmd : List Char) :
    M3X86System.getArgc cmd = M3Loader.getArgc cmd :=
  M3X86System.getArgcLoop_eq _ 0 0

theorem M3Loader.getArgc_eq_tokens (cmd : List Char) :
    M3Loader.getArgc cmd = (tokens (c_str cmd)).length := by
  have h := M3Loader.getArgcLoop_tokens (c_str cmd) [] 0
  rw [tokensFrom_nil] at h
  simpa [M3Loader.getArgc] using h

theorem M3Loader.getArgc_eq_runs (cmd : List Char) :
    M3Loader.getArgc cmd = countRuns (c_str cmd) := by
  have h := M3Loader.getArgcLoop_runs (c_str cmd) ' ' 0 0 (by decide)
  simpa [M3Loader.getArgc, countRuns] using h

theorem tokens_eq_nil_of_isspace (s : List Char) (h : ∀ c ∈ s, isspace c = true) :
    tokens s = [] := by
  rw [← tokensFrom_nil]
  induction s with
  | nil => rfl
  | cons c s ih =>
    rw [tokensFrom, if_pos (h c (List.mem_cons_self _ _)), if_pos rfl]
    exact ih (fun d hd => h d (List.mem_cons_of_mem _ hd))

/-! ## Claims on `isKernelArg` and `getArgc` -/

/-- C4: `isKernelArg(arg)` holds exactly when `arg` is `daemon` or `muxable`, or
starts with `requires=` or with `core=`; it holds for `daemon` and
`requires=foo` and fails for `other`. -/
theorem isKernelArg_iff (arg : List Char) :
    (M3Loader.isKernelArg arg = true ↔
      (arg = "daemon".toList ∨ arg = "muxable".toList ∨
        "requires=".toList <+: arg ∨ "core=".toList <+: arg)) ∧
    M3Loader.isKernelArg "daemon".toList = true ∧
    M3Loader.isKernelArg "requires=foo".toList = true ∧
    M3Loader.isKernelArg "other".toList = false := by
  refine ⟨?_, by decide, by decide, by decide⟩
  unfold M3Loader.isKernelArg
  by_cases h1 : arg = "daemon".toList
  · simp only [h1, if_true, true_or]
  by_cases h2 : arg = "muxable".toList
  · rw [if_neg h1, if_pos h2]
    simp only [h2, true_or, or_true]
  rw [if_neg h1, if_neg h2]
  by_cases h3 : "requires=".toList <+: arg
  · rw [if_pos ((find_eq_zero_iff _ _).mpr h3)]
    simp only [h3, true_or, or_true]
  rw [if_neg (fun h => h3 ((find_eq_zero_iff _ _).mp h))]
  by_cases h4 : "core=".toList <+: arg
  · rw [if_pos ((find_eq_zero_iff _ _).mpr h4)]
    simp only [h4, or_true]
  rw [if_neg (fun h => h4 ((find_eq_zero_iff _ _).mp h))]
  simp only [h1, h2, h3, h4, or_self]
  decide

/-- C5: for a command line (a C string, free of NUL characters) both `getArgc`
functions return the number of non-empty whitespace-separated tokens, which is
the number of maximal runs of non-whitespace characters, and 0 when every
character is whitespace. -/
theorem getArgc_counts_tokens (cmd : List Char) (h : ∀ c ∈ cmd, c ≠ '\x00') :
    M3Loader.getArgc cmd = (tokens cmd).length ∧
    M3Loader.getArgc cmd = countRuns cmd ∧
    M3X86System.getArgc cmd = (tokens cmd).length ∧
    M3X86System.getArgc cmd = countRuns cmd ∧
    ((∀ c ∈ cmd, isspace c = true) →
      M3Loader.getArgc cmd = 0 ∧ M3X86System.getArgc cmd = 0) := by
  have e1 := M3Loader.getArgc_eq_tokens cmd
  have e2 := M3Loader.getArgc_eq_runs cmd
  rw [c_str_eq_self h] at e1 e2
  refine ⟨e1, e2, ?_, ?_, ?_⟩
  · rw [M3X86System.getArgc_eq, e1]
  · rw [M3X86System.getArgc_eq, e2]
  · intro hs
    rw [M3X86System.getArgc_eq, e1, tokens_eq_nil_of_isspace cmd hs]
    exact ⟨rfl, rfl⟩

/-- C5 at the command line `"  a\tbc   d "`, which has three tokens. -/
theorem getArgc_counts_tokens_witness :
    (∀ c ∈ "  a\tbc   d ".toList, c ≠ '\x00') ∧
    M3Loader.getArgc "  a\tbc   d ".toList = 3 ∧
    M3X86System.getArgc "  a\tbc   d ".toList = 3 ∧
    tokens "  a\tbc   d ".toList = ["a".toList, "bc".toList, "d".toList] ∧
    countRuns "  a\tbc   d ".toList = 3 :=
  have h := getArgc_counts_tokens "  a\tbc   d ".toList (by decide)
  ⟨by decide, by rw [h.1]; decide, by rw [h.2.2.1]; decide, by decide, by decide⟩

/-! ## The argument-writing pass -/

theorem readBytes_congr (m1 m2 : Mem) (a n : Nat) (h : ∀ k, k < n → m1 (a + k) = m2 (a + k)) :
    readBytes m1 a n = readBytes m2 a n := by
  unfold readBytes
  apply List.map_congr_left
  intro k hk
  exact h k (by simpa using hk)

theorem readBytes_writeBlob (mem : Mem) (a : Nat) (data : List Nat) :
    readBytes (writeBlob mem a data) a data.length = data := by
  apply List.ext_getElem
  · simp [readBytes]
  · intro k h1 h2
    simp only [readBytes, List.getElem_map, List.getElem_range]
    rw [writeBlob_in _ _ _ _ h2, List.getD_eq_getElem?_getD, List.getElem?_eq_getElem h2]
    rfl

theorem readBytes_append (mem : Mem) (a n m : Nat) :
    readBytes mem a (n + m) = readBytes mem a n ++ readBytes mem (a + n) m := by
  apply List.ext_getElem
  · simp [readBytes]
  · intro k h1 h2
    simp only [readBytes, List.length_map, List.length_range] at h1
    by_cases hk : k < n
    · rw [List.getElem_append_left (by simpa [readBytes] using hk)]
      simp [readBytes]
    · rw [List.getElem_append_right (by simpa [readBytes] using hk)]
      simp only [readBytes, List.getElem_map, List.getElem_range, List.length_map,
        List.length_range]
      congr 1
      omega

theorem M3Loader.writeArg_spec (mem : Mem) (args i argv : Nat) (tok : List Char)
    (h1 : argv + 8 * i + 8 ≤ args) (h2 : args + tok.length + 1 < WORD) :
    (M3Loader.writeArg mem args i argv tok).2.1 = args + tok.length + 1 ∧
    (M3Loader.writeArg mem args i argv tok).2.2 = i + 1 ∧
    readU64 (M3Loader.writeArg mem args i argv tok).1 (argv + 8 * i) = args ∧
    readBytes (M3Loader.writeArg mem args i argv tok).1 args (tok.length + 1) =
      strBytes tok ++ [0] ∧
    (∀ a, (a < argv + 8 * i ∨ (argv + 8 * i + 8 ≤ a ∧ a < args) ∨ args + tok.length + 1 ≤ a) →
      (M3Loader.writeArg mem args i argv tok).1 a = mem a) := by
  have e1 : (argv + i * 8) % WORD = argv + 8 * i := by
    rw [Nat.mod_eq_of_lt (by omega)]; omega
  have e2 : (args + tok.length) % WORD = args + tok.length := Nat.mod_eq_of_lt (by omega)
  have e3 : (args + tok.length + 1) % WORD = args + tok.length + 1 := Nat.mod_eq_of_lt h2
  have hl : (strBytes tok).length = tok.length := by simp [strBytes]
  simp only [M3Loader.writeArg, e1, e2, e3]
  refine ⟨trivial, trivial, ?_, ?_, ?_⟩
  · rw [readU64_congr _ (writeBlob mem (argv + 8 * i) (u64Bytes args))]
    · exact readU64_writeBlob _ _ _ (by omega)
    · intro k hk
      rw [writeBlob_out _ _ _ _ (by simp; omega), writeBlob_out _ _ _ _ (by rw [hl]; omega)]
  · rw [readBytes_append]
    congr 1
    · rw [readBytes_congr _ (writeBlob (writeBlob mem (argv + 8 * i) (u64Bytes args)) args
        (strBytes tok))]
      · rw [← hl]; exact readBytes_writeBlob _ _ _
      · intro k hk
        rw [writeBlob_out _ _ _ _ (by simp; omega)]
    · exact readBytes_writeBlob _ _ [0]
  · intro a ha
    rw [writeBlob_out _ _ _ _ (by simp; omega), writeBlob_out _ _ _ _ (by rw [hl]; omega),
      writeBlob_out _ _ _ _ (by rw [u64Bytes_length]; omega)]

theorem textLen_cons (t : List Char) (ts : List (List Char)) :
    textLen (t :: ts) = t.length + 1 + textLen ts := by
  simp [textLen]

theorem argFold_spec (argv : Nat) (ts : List (List Char)) :
    ∀ (mem : Mem) (args i : Nat), argv + 8 * (i + ts.length) ≤ args →
      args + textLen ts < WORD →
      (argFold argv ts (mem, args, i)).2.1 = args + textLen ts ∧
      (argFold argv ts (mem, args, i)).2.2 = i + ts.length ∧
      ArgvHolds (argFold argv ts (mem, args, i)).1 argv i args ts ∧
      (∀ a, (a < argv + 8 * i ∨ (argv + 8 * (i + ts.length) ≤ a ∧ a < args) ∨
          args + textLen ts ≤ a) → (argFold argv ts (mem, args, i)).1 a = mem a) := by
  induction ts with
  | nil =>
    intro mem args i _ _
    simp [argFold, textLen, ArgvHolds]
  | cons t ts ih =>
    intro mem args i h1 h2
    rw [textLen_cons] at h2
    simp only [List.length_cons] at h1
    obtain ⟨w1, w2, w3, w4, w5⟩ :=
      M3Loader.writeArg_spec mem args i argv t (by omega) (by omega)
    have hstep : argFold argv (t :: ts) (mem, args, i) =
        argFold argv ts ((M3Loader.writeArg mem args i argv t).1, args + t.length + 1, i + 1) := by
      simp only [argFold, List.foldl_cons]
      rw [← w1, ← w2]
    rw [hstep]
    obtain ⟨r1, r2, r3, r4⟩ := ih (M3Loader.writeArg mem args i argv t).1 (args + t.length + 1)
      (i + 1) (by omega) (by omega)
    refine ⟨by rw [r1, textLen_cons]; omega, by rw [r2, List.length_cons]; omega, ?_, ?_⟩
    · refine ⟨?_, ?_, r3⟩
      · refine (readU64_congr _ _ _ ?_).trans w3
        intro k hk
        exact r4 (argv + 8 * i + k) (Or.inl (by omega))
      · refine (readBytes_congr _ _ _ _ ?_).trans w4
        intro k hk
        exact r4 (args + k) (Or.inr (Or.inl ⟨by omega, by omega⟩))
    · intro a ha
      rw [r4 a (by rw [textLen_cons, List.length_cons] at ha; omega)]
      exact w5 a (by rw [textLen_cons, List.length_cons] at ha; omega)

theorem ArgvHolds_get (mem : Mem) (argv : Nat) (ts : List (List Char)) :
    ∀ (i args : Nat), ArgvHolds mem argv i args ts → ∀ (j : Nat) (hj : j < ts.length),
      args ≤ readU64 mem (argv + 8 * (i + j)) ∧
      readU64 mem (argv + 8 * (i + j)) + (ts[j]).length + 1 ≤ args + textLen ts ∧
      readBytes mem (readU64 mem (argv + 8 * (i + j))) ((ts[j]).length + 1) =
        strBytes ts[j] ++ [0] := by
  induction ts with
  | nil => intro i args _ j hj; simp at hj
  | cons t ts ih =>
    intro i args h j hj
    obtain ⟨h1, h2, h3⟩ := h
    cases j with
    | zero =>
      simp only [Nat.add_zero, List.getElem_cons_zero, h1, textLen_cons]
      exact ⟨le_refl _, by omega, h2⟩
    | succ j =>
      have hj' : j < ts.length := by simpa using hj
      obtain ⟨a1, a2, a3⟩ := ih (i + 1) (args + t.length + 1) h3 j hj'
      have e : i + (j + 1) = i + 1 + j := by omega
      simp only [List.getElem_cons_succ, e, textLen_cons]
      exact ⟨by omega, by omega, a3⟩

theorem textLen_tokensFrom (cmd : List Char) :
    ∀ tok : List Char, textLen (tokensFrom tok cmd) ≤ tok.length + cmd.length + 1 := by
  induction cmd with
  | nil =>
    intro tok
    cases tok <;> simp [tokensFrom, textLen]
  | cons c cmd ih =>
    intro tok
    rw [tokensFrom]
    by_cases hc : isspace c = true
    · simp only [hc, if_true]
      have := ih []
      by_cases ht : tok = []
      · simp only [ht, if_true, List.length_nil, List.length_cons] at this ⊢; omega
      · simp only [ht, if_false, textLen_cons, List.length_cons, List.length_nil] at this ⊢
        omega
    · simp only [hc, if_false, Bool.false_eq_true]
      have := ih (tok ++ [c])
      simp only [List.length_append, List.length_singleton, List.length_cons,
        List.length_nil] at this ⊢
      omega

theorem M3Loader.appendArg_args (st : M3Loader.ParseState) (arg : List Char) :
    (M3Loader.appendArg st arg).mem = st.mem ∧ (M3Loader.appendArg st arg).args = st.args ∧
    (M3Loader.appendArg st arg).i = st.i := by
  unfold M3Loader.appendArg
  split <;> simp

theorem M3Loader.parseToken_args (m : Nat) (buf tok : List Char) (st : M3Loader.ParseState) :
    (M3Loader.parseToken m buf tok st).mem = st.mem ∧
    (M3Loader.parseToken m buf tok st).args = st.args ∧
    (M3Loader.parseToken m buf tok st).i = st.i := by
  unfold M3Loader.parseToken
  have := M3Loader.appendArg_args st tok
  split_ifs <;> simp [this]

/-- The memory, `args` and `i` after the command-line pass are those of the
calls of `writeArg` on the tokens, in order. -/
theorem M3Loader.parse_args (m argv : Nat) (cmd : List Char) :
    ∀ (tok : List Char) (st : M3Loader.ParseState),
      ((M3Loader.parseLast argv (M3Loader.parseLoop m argv cmd tok st).2
          (M3Loader.parseLoop m argv cmd tok st).1).mem,
        (M3Loader.parseLast argv (M3Loader.parseLoop m argv cmd tok st).2
          (M3Loader.parseLoop m argv cmd tok st).1).args,
        (M3Loader.parseLast argv (M3Loader.parseLoop m argv cmd tok st).2
          (M3Loader.parseLoop m argv cmd tok st).1).i) =
      argFold argv (tokensFrom tok cmd) (st.mem, st.args, st.i) := by
  induction cmd with
  | nil =>
    intro tok st
    simp only [M3Loader.parseLoop, M3Loader.parseLast, tokensFrom]
    by_cases ht : tok = []
    · simp [ht, argFold]
    · simp only [ne_eq, ht, not_false_eq_true, if_true, if_false, argFold, List.foldl_cons,
        List.foldl_nil, M3Loader.doWriteArg]
      by_cases hp : st.prog = []
      · simp [hp]
      · simp [hp, M3Loader.appendArg_args]
  | cons c cmd ih =>
    intro tok st
    rw [M3Loader.parseLoop, tokensFrom]
    by_cases hc : isspace c = true
    · simp only [hc, if_true]
      by_cases ht : tok = []
      · simp only [ht, ne_eq, not_true_eq_false, if_false, if_true]
        exact ih [] st
      · simp only [ne_eq, ht, not_false_eq_true, if_true, if_false]
        rw [ih]
        simp [argFold, M3Loader.doWriteArg, M3Loader.parseToken_args]
    · simp only [hc, if_false, Bool.false_eq_true]
      exact ih (tok ++ [c]) st
theorem char_toNat_ne_zero (c : Char) (h : c ≠ '\x00') : c.toNat ≠ 0 := by
  intro h0
  apply h
  have := Char.ofNat_toNat c
  rw [h0] at this
  exact this.symm

/-- Every token is non-empty, free of whitespace, and made of characters of
the scanned text. -/
theorem tokensFrom_mem (cmd : List Char) :
    ∀ tok : List Char, (∀ c ∈ tok, isspace c = false) →
      ∀ t ∈ tokensFrom tok cmd, t ≠ [] ∧ ∀ c ∈ t, isspace c = false ∧ (c ∈ tok ∨ c ∈ cmd) := by
  induction cmd with
  | nil =>
    intro tok htok t ht
    rw [tokensFrom] at ht
    by_cases h : tok = []
    · simp [h] at ht
    · simp only [h, if_false, List.mem_singleton] at ht
      subst ht
      exact ⟨h, fun c hc => ⟨htok c hc, Or.inl hc⟩⟩
  | cons c cmd ih =>
    intro tok htok t ht
    rw [tokensFrom] at ht
    by_cases hc : isspace c = true
    · simp only [hc, if_true] at ht
      have hrest : ∀ t ∈ tokensFrom [] cmd,
          t ≠ [] ∧ ∀ d ∈ t, isspace d = false ∧ (d ∈ tok ∨ d ∈ c :: cmd) := by
        intro t ht
        obtain ⟨a, b⟩ := ih [] (by simp) t ht
        refine ⟨a, fun d hd => ⟨(b d hd).1, ?_⟩⟩
        rcases (b d hd).2 with h | h
        · simp at h
        · exact Or.inr (List.mem_cons_of_mem _ h)
      by_cases h : tok = []
      · simp only [h, if_true] at ht
        exact hrest t ht
      · simp only [h, if_false, List.mem_cons] at ht
        rcases ht with ht | ht
        · subst ht
          exact ⟨h, fun d hd => ⟨htok d hd, Or.inl hd⟩⟩
        · exact hrest t ht
    · simp only [hc, if_false, Bool.false_eq_true] at ht
      have hc' : isspace c = false := by simpa using hc
      obtain ⟨a, b⟩ := ih (tok ++ [c]) (by
        intro d hd
        rcases List.mem_append.mp hd with h | h
        · exact htok d h
        · simp at h; rw [h]; exact hc') t ht
      refine ⟨a, fun d hd => ⟨(b d hd).1, ?_⟩⟩
      rcases (b d hd).2 with h | h
      · rcases List.mem_append.mp h with h | h
        · exact Or.inl h
        · simp at h; rw [h]; exact Or.inr (List.mem_cons_self _ _)
      · exact Or.inr (List.mem_cons_of_mem _ h)

theorem tokens_mem (cmd : List Char) (t : List Char) (ht : t ∈ tokens cmd) :
    t ≠ [] ∧ ∀ c ∈ t, isspace c = false ∧ c ∈ cmd := by
  rw [← tokensFrom_nil] at ht
  obtain ⟨a, b⟩ := tokensFrom_mem cmd [] (by simp) t ht
  refine ⟨a, fun c hc => ⟨(b c hc).1, ?_⟩⟩
  rcases (b c hc).2 with h | h
  · simp at h
  · exact h

theorem textLen_tokens (cmd : List Char) : textLen (tokens cmd) ≤ cmd.length + 1 := by
  have := textLen_tokensFrom cmd []
  rw [tokensFrom_nil] at this
  simpa using this

/-! ## The argv table -/

/-- The memory, `args` and `i` after the command-line pass of a C string are
those of `writeArg` called on its tokens, starting behind the argv table. -/
theorem M3Loader.cmdlinePass_fold (modOffset argv : Nat) (mem : Mem) (cmd : List Char)
    (hnul : ∀ c ∈ cmd, c ≠ '\x00')
    (hfit : argv + 8 * M3Loader.getArgc cmd + cmd.length + 1 < WORD) :
    ((M3Loader.cmdlinePass modOffset argv mem cmd).mem,
      (M3Loader.cmdlinePass modOffset argv mem cmd).args,
      (M3Loader.cmdlinePass modOffset argv mem cmd).i) =
    argFold argv (tokens cmd) (mem, argv + 8 * M3Loader.getArgc cmd, 0) := by
  have hmod : (argv + 8 * M3Loader.getArgc cmd) % WORD = argv + 8 * M3Loader.getArgc cmd :=
    Nat.mod_eq_of_lt (by omega)
  have hpass := M3Loader.parse_args modOffset argv (c_str cmd) []
    { kernelPath := [], prog := [], argstr := [], mods := [], seen_dashes := false,
      i := 0, args := argv + 8 * M3Loader.getArgc cmd, mem := mem }
  rw [tokensFrom_nil, c_str_eq_self hnul] at hpass
  simp only at hpass
  rw [← hpass]
  simp only [M3Loader.cmdlinePass, M3Loader.parseCmdline, hmod, c_str_eq_self hnul]

theorem M3Loader.getArgc_cstring (cmd : List Char) (hnul : ∀ c ∈ cmd, c ≠ '\x00') :
    M3Loader.getArgc cmd = (tokens cmd).length := by
  rw [M3Loader.getArgc_eq_tokens, c_str_eq_self hnul]

/-! ## Claim C1 -/

/-- C1: after the command-line pass of `initState`, `i` equals `getArgc()`, the
number of tokens; for every `j` below it the pointer stored at `argv + 8 * j`
lies in the argument text area and addresses the bytes of token `j` (none of
them zero) followed by a NUL byte; and no byte outside the argv table and the
argument text is written. The command line is a C string, and the table and
the text end below `2 ^ 64`. -/
theorem argv_table_correct (modOffset argv : Nat) (mem : Mem) (cmd : List Char)
    (hnul : ∀ c ∈ cmd, c ≠ '\x00')
    (hfit : argv + 8 * M3Loader.getArgc cmd + cmd.length + 1 < WORD) :
    (M3Loader.cmdlinePass modOffset argv mem cmd).i = M3Loader.getArgc cmd ∧
    M3Loader.getArgc cmd = (tokens cmd).length ∧
    (∀ (j : Nat) (hj : j < (tokens cmd).length),
      argv + 8 * M3Loader.getArgc cmd ≤
        readU64 (M3Loader.cmdlinePass modOffset argv mem cmd).mem (argv + 8 * j) ∧
      readU64 (M3Loader.cmdlinePass modOffset argv mem cmd).mem (argv + 8 * j) +
        ((tokens cmd)[j]).length + 1 ≤ argv + 8 * M3Loader.getArgc cmd + cmd.length + 1 ∧
      readBytes (M3Loader.cmdlinePass modOffset argv mem cmd).mem
          (readU64 (M3Loader.cmdlinePass modOffset argv mem cmd).mem (argv + 8 * j))
          (((tokens cmd)[j]).length + 1) = strBytes (tokens cmd)[j] ++ [0] ∧
      (∀ b ∈ strBytes (tokens cmd)[j], b ≠ 0)) ∧
    (∀ a, (a < argv ∨ argv + 8 * M3Loader.getArgc cmd + cmd.length + 1 ≤ a) →
      (M3Loader.cmdlinePass modOffset argv mem cmd).mem a = mem a) := by
  have hargc := M3Loader.getArgc_cstring cmd hnul
  have hlen := textLen_tokens cmd
  have hpass := M3Loader.cmdlinePass_fold modOffset argv mem cmd hnul hfit
  obtain ⟨r1, r2, r3, r4⟩ := argFold_spec argv (tokens cmd) mem
    (argv + 8 * M3Loader.getArgc cmd) 0 (by omega) (by omega)
  rw [← hpass] at r1 r2 r3 r4
  simp only at r1 r2 r3 r4
  refine ⟨by rw [r2, hargc]; omega, hargc, ?_, ?_⟩
  · intro j hj
    obtain ⟨a1, a2, a3⟩ := ArgvHolds_get _ argv (tokens cmd) 0 _ r3 j hj
    rw [Nat.zero_add] at a1 a2 a3
    refine ⟨a1, by omega, a3, ?_⟩
    intro b hb
    obtain ⟨c, hc, rfl⟩ := List.mem_map.mp hb
    exact char_toNat_ne_zero c
      (hnul c ((tokens_mem cmd _ (List.getElem_mem hj)).2 c hc).2)
  · intro a ha
    exact r4 a (by omega)

/-- C1 at the command line `"k ab"` with the argv table at 4096: two pointers
are written, to the strings `"k"` at 4112 and `"ab"` at 4114. -/
theorem argv_table_correct_witness :
    (M3Loader.cmdlinePass 1 4096 (fun _ => 0) "k ab".toList).i = 2 ∧
    readU64 (M3Loader.cmdlinePass 1 4096 (fun _ => 0) "k ab".toList).mem 4096 = 4112 ∧
    readU64 (M3Loader.cmdlinePass 1 4096 (fun _ => 0) "k ab".toList).mem 4104 = 4114 ∧
    readBytes (M3Loader.cmdlinePass 1 4096 (fun _ => 0) "k ab".toList).mem
      (readU64 (M3Loader.cmdlinePass 1 4096 (fun _ => 0) "k ab".toList).mem (4096 + 8 * 1))
      (((tokens "k ab".toList)[1]).length + 1) = strBytes "ab".toList ++ [0] := by
  have h := argv_table_correct 1 4096 (fun _ => 0) "k ab".toList (by decide) (by decide)
  exact ⟨h.1.trans (by decide), by decide, by decide, (h.2.2.1 1 (by decide)).2.2.1⟩
/-! ## Claims C2 and C3: the parsed module list -/

theorem splitOnP_append_sep {α : Type} (p : α → Bool) (x : α) (hx : p x = true) (b : List α) :
    ∀ a : List α, List.splitOnP p (a ++ x :: b) = List.splitOnP p a ++ List.splitOnP p b := by
  intro a
  induction a with
  | nil => simp [List.splitOnP_cons, hx, List.splitOnP_nil]
  | cons y a ih =>
    rw [List.cons_append, List.splitOnP_cons, List.splitOnP_cons, ih]
    by_cases hy : p y = true
    · simp [hy]
    · simp only [hy, if_false, Bool.false_eq_true]
      cases h : List.splitOnP p a with
      | nil => exact absurd h (List.splitOnP_ne_nil p a)
      | cons t ts => rfl

theorem words_append_sep (a b : List Char) : words (a ++ ' ' :: b) = words a ++ words b := by
  unfold words
  rw [splitOnP_append_sep _ ' ' (by decide), List.filter_append]

theorem words_nil : words [] = [] := by
  decide

theorem words_single (t : List Char) (h0 : t ≠ []) (h : ∀ c ∈ t, isspace c = false) :
    words t = [t] := by
  unfold words
  rw [List.splitOnP_eq_single]
  · cases t with
    | nil => exact absurd rfl h0
    | cons a t => rfl
  · intro c hc hsp
    have : c = ' ' := by simpa using hsp
    have h1 := h c hc
    rw [this] at h1
    exact absurd h1 (by decide)

theorem M3Loader.appendArg_clean (st : M3Loader.ParseState) (tok : List Char)
    (h0 : tok ≠ []) (h : ∀ c ∈ tok, isspace c = false) (hst : M3Loader.ArgsClean st) :
    M3Loader.ArgsClean (M3Loader.appendArg st tok) := by
  unfold M3Loader.appendArg
  by_cases hk : M3Loader.isKernelArg tok = true
  · simp only [hk, Bool.not_true, Bool.false_eq_true, if_false]
    exact hst
  · have hk' : M3Loader.isKernelArg tok = false := by simpa using hk
    simp only [hk', Bool.not_false, if_true]
    refine ⟨?_, hst.2⟩
    intro w hw
    simp only at hw
    by_cases ha : st.argstr = []
    · simp only [ha, ne_eq, not_true_eq_false, if_false, List.nil_append] at hw
      rw [words_single tok h0 h] at hw
      simp only [List.mem_singleton] at hw
      rw [hw]; exact hk'
    · simp only [ne_eq, ha, not_false_eq_true, if_true, List.append_assoc,
        List.singleton_append] at hw
      rw [words_append_sep, words_single tok h0 h, List.mem_append] at hw
      rcases hw with hw | hw
      · exact hst.1 w hw
      · simp only [List.mem_singleton] at hw
        rw [hw]; exact hk'

theorem M3Loader.push_clean (st : M3Loader.ParseState) (hst : M3Loader.ArgsClean st) :
    ∀ md ∈ st.mods ++ [(st.prog, st.argstr)], ∀ w ∈ words md.2,
      M3Loader.isKernelArg w = false := by
  intro md hmd w hw
  rcases List.mem_append.mp hmd with h | h
  · exact hst.2 md h w hw
  · simp only [List.mem_singleton] at h
    rw [h] at hw
    exact hst.1 w hw

theorem M3Loader.parseToken_clean (m : Nat) (buf tok : List Char) (st : M3Loader.ParseState)
    (h0 : tok ≠ []) (h : ∀ c ∈ tok, isspace c = false) (hst : M3Loader.ArgsClean st) :
    M3Loader.ArgsClean (M3Loader.parseToken m buf tok st) := by
  unfold M3Loader.parseToken
  split_ifs
  · exact hst
  · exact hst
  · exact hst
  · exact ⟨by simp [words_nil], M3Loader.push_clean st hst⟩
  · exact hst
  · exact M3Loader.appendArg_clean st tok h0 h hst
  · exact hst

theorem M3Loader.doWriteArg_clean (argv : Nat) (tok : List Char) (st : M3Loader.ParseState)
    (hst : M3Loader.ArgsClean st) : M3Loader.ArgsClean (M3Loader.doWriteArg argv tok st) :=
  hst

theorem M3Loader.parseLast_clean (argv : Nat) (tok : List Char) (st : M3Loader.ParseState)
    (h : ∀ c ∈ tok, isspace c = false) (hst : M3Loader.ArgsClean st) :
    M3Loader.ArgsClean (M3Loader.parseLast argv tok st) := by
  unfold M3Loader.parseLast
  by_cases h0 : tok = []
  · simp only [h0, ne_eq, not_true_eq_false, if_false]; exact hst
  · simp only [ne_eq, h0, not_false_eq_true, if_true]
    apply M3Loader.doWriteArg_clean
    by_cases hp : st.prog = []
    · simp only [hp, if_true]
      exact ⟨hst.1, M3Loader.push_clean { st with prog := tok } hst⟩
    · simp only [hp, if_false]
      have := M3Loader.appendArg_clean st tok h0 h hst
      exact ⟨this.1, M3Loader.push_clean _ this⟩

theorem M3Loader.parseLoop_clean (m argv : Nat) (cmd : List Char) :
    ∀ (tok : List Char) (st : M3Loader.ParseState), (∀ c ∈ tok, isspace c = false) →
      M3Loader.ArgsClean st →
      M3Loader.ArgsClean (M3Loader.parseLoop m argv cmd tok st).1 ∧
      (∀ c ∈ (M3Loader.parseLoop m argv cmd tok st).2, isspace c = false) := by
  induction cmd with
  | nil => intro tok st h hst; exact ⟨hst, h⟩
  | cons c cmd ih =>
    intro tok st h hst
    rw [M3Loader.parseLoop]
    by_cases hc : isspace c = true
    · simp only [hc, if_true]
      by_cases h0 : tok = []
      · simp only [h0, ne_eq, not_true_eq_false, if_false]
        exact ih [] st (by simp) hst
      · simp only [ne_eq, h0, not_false_eq_true, if_true]
        exact ih [] _ (by simp)
          (M3Loader.doWriteArg_clean _ _ _ (M3Loader.parseToken_clean _ _ _ _ h0 h hst))
    · simp only [hc, if_false, Bool.false_eq_true]
      apply ih (tok ++ [c]) st _ hst
      intro d hd
      rcases List.mem_append.mp hd with hd | hd
      · exact h d hd
      · simp only [List.mem_singleton] at hd
        rw [hd]; simpa using hc

theorem M3Loader.parseCmdline_clean (m argv args : Nat) (mem : Mem) (cmd : List Char) :
    M3Loader.ArgsClean (M3Loader.parseCmdline m argv args mem cmd) := by
  unfold M3Loader.parseCmdline
  have h := M3Loader.parseLoop_clean m argv (c_str cmd) []
    { kernelPath := [], prog := [], argstr := [], mods := [], seen_dashes := false,
      i := 0, args := args, mem := mem } (by simp) ⟨by simp [words_nil], by simp⟩
  exact M3Loader.parseLast_clean _ _ _ h.2 h.1

/-- C2 (as stated, refuted): the command line `path/img --mod1 arg1 --mod2`
does not parse to `mod1 arg1`, `mod2`, `rctmux`; the first token starting with
`--` only switches grouping on, `arg1` becomes the program and the last token
its argument. -/
theorem parse_dashed_names_counterexample :
    M3Loader.moduleList 1 0 (fun _ => 0) "path/img --mod1 arg1 --mod2".toList =
      [("arg1".toList, "--mod2".toList), ("rctmux".toList, [])] ∧
    M3Loader.moduleList 1 0 (fun _ => 0) "path/img --mod1 arg1 --mod2".toList ≠
      [("mod1".toList, "arg1".toList), ("mod2".toList, []), ("rctmux".toList, [])] := by
  decide

/-- C2 (amended): with `modOffset` set, the command line
`path/img -- mod1 arg1 -- mod2`, whose groups are introduced by tokens `--`,
parses to the modules `mod1 arg1`, `mod2`, `rctmux`, in that order. -/
theorem parse_delimited_groups (modOffset argv : Nat) (mem : Mem) (h : modOffset ≠ 0) :
    M3Loader.moduleList modOffset argv mem "path/img -- mod1 arg1 -- mod2".toList =
      [("mod1".toList, "arg1".toList), ("mod2".toList, []), ("rctmux".toList, [])] := by
  obtain ⟨n, rfl⟩ := Nat.exists_eq_succ_of_ne_zero h
  rfl

/-- C2 (amended) at `modOffset = 4096`. -/
theorem parse_delimited_groups_witness :
    M3Loader.moduleList 4096 0 (fun _ => 0) "path/img -- mod1 arg1 -- mod2".toList =
      [("mod1".toList, "arg1".toList), ("mod2".toList, []), ("rctmux".toList, [])] :=
  parse_delimited_groups 4096 0 (fun _ => 0) (by decide)

/-- C3: no word of a parsed module's argument string is a kernel argument,
while every token of the command line, kernel arguments included, is written
to the argv table as a NUL-terminated string, in order. -/
theorem kernel_args_withheld (modOffset argv : Nat) (mem : Mem) (cmd : List Char)
    (hnul : ∀ c ∈ cmd, c ≠ '\x00')
    (hfit : argv + 8 * M3Loader.getArgc cmd + cmd.length + 1 < WORD) :
    (∀ md ∈ M3Loader.moduleList modOffset argv mem cmd, ∀ w ∈ words md.2,
      M3Loader.isKernelArg w = false) ∧
    (M3Loader.cmdlinePass modOffset argv mem cmd).i = (tokens cmd).length ∧
    (∀ (j : Nat) (hj : j < (tokens cmd).length),
      readBytes (M3Loader.cmdlinePass modOffset argv mem cmd).mem
          (readU64 (M3Loader.cmdlinePass modOffset argv mem cmd).mem (argv + 8 * j))
          (((tokens cmd)[j]).length + 1) = strBytes (tokens cmd)[j] ++ [0]) := by
  have hargc := M3Loader.getArgc_cstring cmd hnul
  have hlen := textLen_tokens cmd
  have hpass := M3Loader.cmdlinePass_fold modOffset argv mem cmd hnul hfit
  obtain ⟨_, r2, r3, _⟩ := argFold_spec argv (tokens cmd) mem
    (argv + 8 * M3Loader.getArgc cmd) 0 (by omega) (by omega)
  rw [← hpass] at r2 r3
  simp only at r2 r3
  refine ⟨?_, by rw [r2]; omega, ?_⟩
  · intro md hmd w hw
    rcases List.mem_append.mp hmd with h | h
    · exact (M3Loader.parseCmdline_clean _ _ _ _ _).2 md h w hw
    · simp only [List.mem_singleton] at h
      rw [h, words_nil] at hw
      simp at hw
  · intro j hj
    have h := (ArgvHolds_get _ argv (tokens cmd) 0 _ r3 j hj).2.2
    rw [Nat.zero_add] at h
    exact h

/-- C3 at the command line `k -- prog daemon x core=1`: the module is
`prog x`, and the fourth argv entry still points to the string `daemon`. -/
theorem kernel_args_withheld_witness :
    M3Loader.moduleList 1 4096 (fun _ => 0) "k -- prog daemon x core=1".toList =
      [("prog".toList, "x".toList), ("rctmux".toList, [])] ∧
    M3Loader.isKernelArg (tokens "k -- prog daemon x core=1".toList)[3] = true ∧
    readBytes (M3Loader.cmdlinePass 1 4096 (fun _ => 0) "k -- prog daemon x core=1".toList).mem
        (readU64 (M3Loader.cmdlinePass 1 4096 (fun _ => 0)
          "k -- prog daemon x core=1".toList).mem (4096 + 8 * 3))
        (((tokens "k -- prog daemon x core=1".toList)[3]).length + 1) =
      strBytes (tokens "k -- prog daemon x core=1".toList)[3] ++ [0] := by
  have h := kernel_args_withheld 1 4096 (fun _ => 0) "k -- prog daemon x core=1".toList
    (by decide) (by decide)
  exact ⟨by decide, by decide, h.2.2 3 (by decide)⟩
/-! ## Alignment arithmetic -/

theorem and_notAddr_mask (x k : Nat) (hk : k ≤ 64) (hx : x < WORD) :
    x &&& notAddr (2 ^ k - 1) = x - x % 2 ^ k := by
  unfold notAddr
  unfold WORD at hx ⊢
  have hp : (2:Nat) ^ k ≤ 2 ^ 64 := Nat.pow_le_pow_right (by omega) hk
  have hpos : 0 < (2:Nat) ^ k := Nat.pos_pow_of_pos k (by omega)
  have e1 : 2 ^ 64 - 1 - (2 ^ k - 1) = 2 ^ k * (2 ^ (64 - k) - 1) := by
    have : (2:Nat) ^ 64 = 2 ^ k * 2 ^ (64 - k) := by
      rw [← Nat.pow_add]; congr 1; omega
    rw [Nat.mul_sub, ← this]; omega
  have e2 : x - x % 2 ^ k = 2 ^ k * (x / 2 ^ k) := by
    have := Nat.div_add_mod x (2 ^ k); omega
  rw [e1, e2]
  apply Nat.eq_of_testBit_eq
  intro i
  rw [Nat.testBit_and, Nat.testBit_mul_pow_two, Nat.testBit_mul_pow_two,
    Nat.testBit_two_pow_sub_one, ← Nat.shiftRight_eq_div_pow, Nat.testBit_shiftRight]
  by_cases hi : i ≥ k
  · have e : k + (i - k) = i := by omega
    rw [e]
    by_cases h64 : i < 64
    · have : i - k < 64 - k := by omega
      simp [hi, this]
    · have hf : x.testBit i = false := by
        apply Nat.testBit_lt_two_pow
        exact lt_of_lt_of_le hx (Nat.pow_le_pow_right (by omega) (by omega))
      simp [hf]
  · simp [hi]

/-- Rounding `v` up with the mask of `2 ^ k`: the result is the least multiple
of `2 ^ k` that is at least `v`. -/
theorem alignUp_spec (v k : Nat) (hk : k ≤ 64) (hv : v + (2 ^ k - 1) < WORD) :
    v ≤ ((v + (2 ^ k - 1)) % WORD) &&& notAddr (2 ^ k - 1) ∧
    ((v + (2 ^ k - 1)) % WORD) &&& notAddr (2 ^ k - 1) < v + 2 ^ k ∧
    (((v + (2 ^ k - 1)) % WORD) &&& notAddr (2 ^ k - 1)) % 2 ^ k = 0 := by
  have hpos : 0 < (2:Nat) ^ k := Nat.pos_pow_of_pos k (by omega)
  rw [Nat.mod_eq_of_lt hv, and_notAddr_mask _ _ hk hv]
  have h1 := Nat.mod_lt (v + (2 ^ k - 1)) hpos
  have h2 := Nat.div_add_mod (v + (2 ^ k - 1)) (2 ^ k)
  refine ⟨by omega, by omega, ?_⟩
  have e : v + (2 ^ k - 1) - (v + (2 ^ k - 1)) % 2 ^ k = 2 ^ k * ((v + (2 ^ k - 1)) / 2 ^ k) := by
    omega
  rw [e, Nat.mul_mod_right]

theorem roundUp_8 (v : Nat) (hv : v + 7 < WORD) :
    v ≤ roundUp v 8 ∧ roundUp v 8 < v + 8 ∧ roundUp v 8 % 8 = 0 := by
  have h := alignUp_spec v 3 (by omega) (by simpa using hv)
  simpa [roundUp] using h
/-! ## The name buffer of a record -/

theorem c_str_length_le (s : List Char) : (c_str s).length ≤ s.length := by
  unfold c_str
  exact (List.takeWhile_sublist _).length_le

theorem strBytes_c_str_ne_zero (s : List Char) : ∀ b ∈ strBytes (c_str s), b ≠ 0 := by
  intro b hb
  obtain ⟨c, hc, rfl⟩ := List.mem_map.mp hb
  have := List.mem_takeWhile_imp hc
  exact char_toNat_ne_zero c (by simpa using this)

theorem cstrOf_append_zero (bs rest : List Nat) (h : ∀ b ∈ bs, b ≠ 0) :
    cstrOf (bs ++ 0 :: rest) = bs := by
  induction bs with
  | nil => simp [cstrOf]
  | cons b bs ih =>
    have hb : b ≠ 0 := h b (List.mem_cons_self _ _)
    have := ih (fun x hx => h x (List.mem_cons_of_mem _ hx))
    unfold cstrOf at this ⊢
    simp [List.takeWhile_cons, hb, this]

theorem cstrOf_ne_zero (buf : List Nat) : ∀ b ∈ cstrOf buf, b ≠ 0 := by
  intro b hb
  have := List.mem_takeWhile_imp hb
  simpa using this

theorem cstrOf_strcpy (buf : List Nat) (s : List Char) :
    cstrOf (strcpy buf s) = strBytes (c_str s) := by
  unfold strcpy
  rw [List.append_assoc, List.singleton_append]
  exact cstrOf_append_zero _ _ (strBytes_c_str_ne_zero s)

theorem cstrOf_strcat (buf : List Nat) (s : List Char) :
    cstrOf (strcat buf s) = cstrOf buf ++ strBytes (c_str s) := by
  unfold strcat
  rw [List.append_assoc, List.singleton_append]
  apply cstrOf_append_zero
  intro b hb
  rcases List.mem_append.mp hb with h | h
  · exact cstrOf_ne_zero buf b h
  · exact strBytes_c_str_ne_zero s b h

theorem strcpy_length (buf : List Nat) (s : List Char) (h : (c_str s).length + 1 ≤ buf.length) :
    (strcpy buf s).length = buf.length := by
  simp [strcpy, strBytes]
  omega

theorem strcat_length (buf : List Nat) (s : List Char)
    (h : (cstrOf buf).length + (c_str s).length + 1 ≤ buf.length) :
    (strcat buf s).length = buf.length := by
  simp [strcat, strBytes]
  omega

theorem strBytes_length (s : List Char) : (strBytes s).length = s.length := by
  simp [strBytes]

theorem strBytes_append (s t : List Char) : strBytes (s ++ t) = strBytes s ++ strBytes t := by
  simp [strBytes]

/-- The name array built for a module that passed the length check: it keeps
its size and holds the record name as a C string. -/
theorem recordName_built (n : Nat) (junk : Nat → Nat) (md : List Char × List Char)
    (h : md.1.length + md.2.length + 1 < n) :
    ((if md.2 ≠ [] then
        strcat (strcat (strcpy ((List.range n).map junk) md.1) " ".toList) md.2
      else strcpy ((List.range n).map junk) md.1).length = n) ∧
    cstrOf (if md.2 ≠ [] then
        strcat (strcat (strcpy ((List.range n).map junk) md.1) " ".toList) md.2
      else strcpy ((List.range n).map junk) md.1) = strBytes (recordName md) := by
  have l1 := c_str_length_le md.1
  have l2 := c_str_length_le md.2
  have hb : ((List.range n).map junk).length = n := by simp
  have h0 : (strcpy ((List.range n).map junk) md.1).length = n := by
    rw [strcpy_length _ _ (by omega), hb]
  have c0 := cstrOf_strcpy ((List.range n).map junk) md.1
  by_cases h2 : md.2 = []
  · simp only [h2, ne_eq, not_true_eq_false, if_false, recordName, List.append_nil]
    exact ⟨h0, c0⟩
  · have hl2 : 0 < md.2.length := List.length_pos.mpr h2
    have hsp : c_str " ".toList = [' '] := by decide
    have c1 := cstrOf_strcat (strcpy ((List.range n).map junk) md.1) " ".toList
    have h1 : (strcat (strcpy ((List.range n).map junk) md.1) " ".toList).length = n := by
      rw [strcat_length, h0]
      rw [c0, strBytes_length, hsp, h0]
      simp only [List.length_singleton]
      omega
    have c2 := cstrOf_strcat (strcat (strcpy ((List.range n).map junk) md.1) " ".toList) md.2
    simp only [ne_eq, h2, not_false_eq_true, if_true, recordName]
    refine ⟨?_, ?_⟩
    · rw [strcat_length, h1]
      rw [c1, c0, h1, hsp]
      simp only [List.length_append, strBytes_length, List.length_singleton]
      omega
    · rw [c2, c1, c0, hsp, strBytes_append]
      simp [strBytes]

/-! ## The packing loop -/

theorem BootModule.bytes_length (b : BootModule) : b.bytes.length = b.name.length + 16 := by
  simp [BootModule.bytes, u64Bytes_length]

theorem PackConsts.pageSize_pow (k : PackConsts) : k.PAGE_SIZE = 2 ^ k.PAGE_BITS := by
  simp [PackConsts.PAGE_SIZE, Nat.shiftLeft_eq]

theorem packBound_cons (k : PackConsts) (fs : FileSystem) (path : List Char)
    (md : List Char × List Char) (mods : List (List Char × List Char)) :
    packBound k fs path (md :: mods) =
      imageSize fs path md + k.sizeofBootModule + k.PAGE_SIZE + 8 + packBound k fs path mods := by
  simp [packBound]

/-- One iteration of the packing loop, unfolded. -/
theorem packLoop_cons (k : PackConsts) (fs : FileSystem) (path : List Char) (junk : Nat → Nat)
    (md : List Char × List Char) (mods : List (List Char × List Char)) (st st' : PackState)
    (h : packLoop k fs path junk (md :: mods) st = some st') :
    ∃ data, fs (path ++ "/".toList ++ md.1) = some data ∧
      md.1.length + md.2.length + 1 < k.MAX_MODNAME_LEN ∧
      packLoop k fs path junk mods
        { mem := writeBlob (writeBlob st.mem st.addr data)
            (roundUp ((st.addr + data.length) % WORD) 8)
            (BootModule.bytes
              { name := if md.2 ≠ [] then
                    strcat (strcat (strcpy ((List.range k.MAX_MODNAME_LEN).map junk) md.1)
                      " ".toList) md.2
                  else strcpy ((List.range k.MAX_MODNAME_LEN).map junk) md.1,
                addr := st.addr, size := data.length }),
          addr := (((roundUp ((st.addr + data.length) % WORD) 8 + k.sizeofBootModule) % WORD +
            (k.PAGE_SIZE - 1)) % WORD) &&& notAddr (k.PAGE_SIZE - 1),
          recs := st.recs ++ [(roundUp ((st.addr + data.length) % WORD) 8,
            { name := if md.2 ≠ [] then
                  strcat (strcat (strcpy ((List.range k.MAX_MODNAME_LEN).map junk) md.1)
                    " ".toList) md.2
                else strcpy ((List.range k.MAX_MODNAME_LEN).map junk) md.1,
              addr := st.addr, size := data.length })] } = some st' := by
  rw [packLoop] at h
  unfold loadModule at h
  cases hfs : fs (path ++ "/".toList ++ md.1) with
  | none => rw [hfs] at h; simp at h
  | some data =>
    rw [hfs] at h
    simp only at h
    by_cases hc : md.1.length + md.2.length + 1 ≥ k.MAX_MODNAME_LEN
    · rw [if_pos hc] at h; cases h
    · rw [if_neg hc] at h
      exact ⟨data, rfl, by omega, h⟩

theorem Packed_le (k : PackConsts) (fs : FileSystem) (path : List Char) (mem : Mem)
    (mods : List (List Char × List Char)) :
    ∀ (a : Nat) (recs : List (Nat × BootModule)) (f : Nat),
      Packed k fs path mem a mods recs f → a ≤ f := by
  induction mods with
  | nil =>
    intro a recs f h
    cases recs with
    | nil => simp only [Packed] at h; omega
    | cons r recs => simp [Packed] at h
  | cons md mods ih =>
    intro a recs f h
    cases recs with
    | nil => simp [Packed] at h
    | cons r recs =>
      simp only [Packed] at h
      obtain ⟨_, _, _, _, h5, _, _, _, a', h9, h10⟩ := h
      have := ih a' recs f h10
      omega

/-- The packing loop, when no address wraps: the records it appends and the
memory it leaves are a packed layout from the start cursor to the final one,
and nothing below the start cursor is written. -/
theorem packLoop_spec (k : PackConsts) (fs : FileSystem) (path : List Char) (junk : Nat → Nat)
    (mods : List (List Char × List Char)) :
    ∀ (st st' : PackState), packLoop k fs path junk mods st = some st' →
      st.addr + packBound k fs path mods ≤ WORD →
      ∃ new, st'.recs = st.recs ++ new ∧
        Packed k fs path st'.mem st.addr mods new st'.addr ∧
        st'.addr ≤ st.addr + packBound k fs path mods ∧
        (∀ x, x < st.addr → st'.mem x = st.mem x) := by
  induction mods with
  | nil =>
    intro st st' h _
    simp only [packLoop, Option.some.injEq] at h
    subst h
    exact ⟨[], by simp, by simp [Packed], by omega, fun _ _ => rfl⟩
  | cons md mods ih =>
    intro st st' h hfit
    obtain ⟨data, hfs, hlen, hrest⟩ := packLoop_cons k fs path junk md mods st st' h
    rw [packBound_cons] at hfit
    have hsz : imageSize fs path md = data.length := by
      unfold imageSize; rw [hfs]
    rw [hsz] at hfit
    have hps := k.pageSize_pow
    have hpos : 0 < (2:Nat) ^ k.PAGE_BITS := Nat.pos_pow_of_pos _ (by omega)
    have hbits : k.PAGE_BITS ≤ 64 := by
      by_contra hcon
      have : (2:Nat) ^ 64 ≤ 2 ^ k.PAGE_BITS := Nat.pow_le_pow_right (by omega) (by omega)
      unfold WORD at hfit
      omega
    have e0 : (st.addr + data.length) % WORD = st.addr + data.length :=
      Nat.mod_eq_of_lt (by omega)
    obtain ⟨r1, r2, _⟩ := roundUp_8 (st.addr + data.length) (by omega)
    rw [e0] at hrest
    generalize hrec : roundUp (st.addr + data.length) 8 = rec_i at hrest r1 r2
    have e1 : (rec_i + k.sizeofBootModule) % WORD = rec_i + k.sizeofBootModule :=
      Nat.mod_eq_of_lt (by omega)
    rw [e1, hps] at hrest
    obtain ⟨p1, p2, _⟩ := alignUp_spec (rec_i + k.sizeofBootModule) k.PAGE_BITS hbits
      (by omega)
    generalize hnext : ((rec_i + k.sizeofBootModule + (2 ^ k.PAGE_BITS - 1)) % WORD) &&&
      notAddr (2 ^ k.PAGE_BITS - 1) = next at hrest p1 p2
    obtain ⟨n1, n2⟩ := recordName_built k.MAX_MODNAME_LEN junk md hlen
    generalize hname : (if md.2 ≠ [] then
        strcat (strcat (strcpy ((List.range k.MAX_MODNAME_LEN).map junk) md.1) " ".toList) md.2
      else strcpy ((List.range k.MAX_MODNAME_LEN).map junk) md.1) = name at hrest n1 n2
    obtain ⟨new, q1, q2, q3, q4⟩ := ih _ st' hrest (by simp only; omega)
    simp only at q1 q2 q3 q4
    have hblen : (BootModule.bytes { name := name, addr := st.addr, size := data.length }).length
        = k.sizeofBootModule := by
      rw [BootModule.bytes_length]; simp only [n1, PackConsts.sizeofBootModule]
    refine ⟨(rec_i, { name := name, addr := st.addr, size := data.length }) :: new,
      by rw [q1]; simp, ?_, by rw [packBound_cons, hsz]; omega, ?_⟩
    · simp only [Packed]
      refine ⟨trivial, by omega, by omega, ?_, by omega, ?_, n1, n2, next, by omega, q2⟩
      · rw [hfs]
        congr 1
        rw [readBytes_congr _ (writeBlob st.mem st.addr data)]
        · exact (readBytes_writeBlob _ _ _).symm
        · intro i hi
          rw [q4 _ (by omega), writeBlob_out _ _ _ _ (Or.inl (by omega))]
      · rw [← hblen, readBytes_congr _ (writeBlob (writeBlob st.mem st.addr data) rec_i
          (BootModule.bytes { name := name, addr := st.addr, size := data.length }))]
        · exact readBytes_writeBlob _ _ _
        · intro i hi
          rw [hblen] at hi
          exact q4 _ (by omega)
    · intro x hx
      rw [q4 x (by omega), writeBlob_out _ _ _ _ (Or.inl (by omega)),
        writeBlob_out _ _ _ _ (Or.inl (by omega))]

theorem Packed_length (k : PackConsts) (fs : FileSystem) (path : List Char) (mem : Mem)
    (mods : List (List Char × List Char)) :
    ∀ (a : Nat) (recs : List (Nat × BootModule)) (f : Nat),
      Packed k fs path mem a mods recs f → recs.length = mods.length := by
  induction mods with
  | nil =>
    intro a recs f h
    cases recs with
    | nil => rfl
    | cons r recs => simp [Packed] at h
  | cons md mods ih =>
    intro a recs f h
    cases recs with
    | nil => simp [Packed] at h
    | cons r recs =>
      simp only [Packed] at h
      obtain ⟨_, _, _, _, _, _, _, _, a', _, h10⟩ := h
      simp [ih a' recs f h10]

/-- In a packed layout every image ends before its record starts, and every
record ends before the final cursor. -/
theorem Packed_layout (k : PackConsts) (fs : FileSystem) (path : List Char) (mem : Mem)
    (mods : List (List Char × List Char)) :
    ∀ (a : Nat) (recs : List (Nat × BootModule)) (f : Nat),
      Packed k fs path mem a mods recs f → ∀ (i : Nat) (hi : i < recs.length),
        a ≤ (recs[i]).2.addr ∧ (recs[i]).2.addr + (recs[i]).2.size ≤ (recs[i]).1 ∧
        (recs[i]).1 + k.sizeofBootModule ≤ f := by
  induction mods with
  | nil =>
    intro a recs f h i hi
    cases recs with
    | nil => simp at hi
    | cons r recs => simp [Packed] at h
  | cons md mods ih =>
    intro a recs f h i hi
    cases recs with
    | nil => simp at hi
    | cons r recs =>
      simp only [Packed] at h
      obtain ⟨h1, _, _, _, h5, _, _, _, a', h9, h10⟩ := h
      have hle := Packed_le k fs path mem mods a' recs f h10
      cases i with
      | zero =>
        simp only [List.getElem_cons_zero]
        exact ⟨by omega, by omega, by omega⟩
      | succ i =>
        simp only [List.getElem_cons_succ]
        have := ih a' recs f h10 i (by simpa using hi)
        exact ⟨by omega, this.2.1, this.2.2⟩

/-- In a packed layout the record of a module ends before the image of every
later module starts. -/
theorem Packed_ordered (k : PackConsts) (fs : FileSystem) (path : List Char) (mem : Mem)
    (mods : List (List Char × List Char)) :
    ∀ (a : Nat) (recs : List (Nat × BootModule)) (f : Nat),
      Packed k fs path mem a mods recs f → ∀ (i j : Nat) (hij : i < j) (hj : j < recs.length),
        (recs[i]).1 + k.sizeofBootModule ≤ (recs[j]).2.addr := by
  induction mods with
  | nil =>
    intro a recs f h i j _ hj
    cases recs with
    | nil => simp at hj
    | cons r recs => simp [Packed] at h
  | cons md mods ih =>
    intro a recs f h i j hij hj
    cases recs with
    | nil => simp at hj
    | cons r recs =>
      simp only [Packed] at h
      obtain ⟨h1, _, _, _, h5, _, _, _, a', h9, h10⟩ := h
      cases j with
      | zero => omega
      | succ j =>
        have hj' : j < recs.length := by simpa using hj
        cases i with
        | zero =>
          simp only [List.getElem_cons_zero, List.getElem_cons_succ]
          have := (Packed_layout k fs path mem mods a' recs f h10 j hj').1
          omega
        | succ i =>
          simp only [List.getElem_cons_succ]
          exact ih a' recs f h10 i j (by omega) hj'

/-- In a packed layout the memory holds each module's image and record. -/
theorem Packed_readback (k : PackConsts) (fs : FileSystem) (path : List Char) (mem : Mem)
    (mods : List (List Char × List Char)) :
    ∀ (a : Nat) (recs : List (Nat × BootModule)) (f : Nat),
      Packed k fs path mem a mods recs f →
      ∀ (i : Nat) (hi : i < recs.length) (hm : i < mods.length),
        (recs[i]).2.addr < WORD ∧ (recs[i]).2.size < WORD ∧
        fs (path ++ "/".toList ++ (mods[i]).1) =
          some (readBytes mem (recs[i]).2.addr (recs[i]).2.size) ∧
        readBytes mem (recs[i]).1 k.sizeofBootModule = (recs[i]).2.bytes ∧
        (recs[i]).2.name.length = k.MAX_MODNAME_LEN ∧
        cstrOf (recs[i]).2.name = strBytes (recordName mods[i]) := by
  induction mods with
  | nil => intro a recs f _ i _ hm; simp at hm
  | cons md mods ih =>
    intro a recs f h i hi hm
    cases recs with
    | nil => simp at hi
    | cons r recs =>
      simp only [Packed] at h
      obtain ⟨h1, h2, h3, h4, h5, h6, h7, h8, a', h9, h10⟩ := h
      cases i with
      | zero =>
        simp only [List.getElem_cons_zero]
        rw [h1]
        exact ⟨by omega, h3, h4, h6, h7, h8⟩
      | succ i =>
        simp only [List.getElem_cons_succ]
        exact ih a' recs f h10 i (by simpa using hi) (by simpa using hm)

theorem readBytes_length (mem : Mem) (a n : Nat) : (readBytes mem a n).length = n := by
  simp [readBytes]

theorem readU64_of_readBytes (mem : Mem) (a v : Nat) (hv : v < WORD)
    (h : readBytes mem a 8 = u64Bytes v) : readU64 mem a = v := by
  rw [← readU64_writeBlob (fun _ => 0) a v hv]
  apply readU64_congr
  intro i hi
  have e1 : mem (a + i) = (readBytes mem a 8).getD i 0 := by
    simp [readBytes, List.getD_eq_getElem?_getD, List.getElem?_map, List.getElem?_range hi]
  rw [e1, h, writeBlob_in _ _ _ _ (by rw [u64Bytes_length]; exact hi)]

/-- A record read back field by field from the bytes written for it. -/
theorem record_fields (mem : Mem) (r n : Nat) (b : BootModule) (hn : b.name.length = n)
    (ha : b.addr < WORD) (hs : b.size < WORD) (h : readBytes mem r (n + 16) = b.bytes) :
    readBytes mem r n = b.name ∧ readU64 mem (r + n) = b.addr ∧
    readU64 mem (r + n + 8) = b.size := by
  have e : n + 16 = n + (8 + 8) := by omega
  rw [e, readBytes_append, readBytes_append, BootModule.bytes, List.append_assoc] at h
  have h1 := List.append_inj h (by rw [readBytes_length, hn])
  have h2 := List.append_inj h1.2 (by rw [readBytes_length, u64Bytes_length])
  exact ⟨h1.1, readU64_of_readBytes _ _ _ ha h2.1, readU64_of_readBytes _ _ _ hs h2.2⟩

theorem splitFirstSpace_modName (md : List Char × List Char) (h : ∀ c ∈ md.1, c ≠ ' ') :
    splitFirstSpace (modName md) = md := by
  have ht : ∀ rest : List Char, (md.1 ++ rest).takeWhile (fun c => c != ' ') =
      md.1 ++ rest.takeWhile (fun c => c != ' ') := by
    intro rest
    rw [List.takeWhile_append_of_pos]
    intro c hc
    simpa using h c hc
  have hd : ∀ rest : List Char, (md.1 ++ rest).dropWhile (fun c => c != ' ') =
      rest.dropWhile (fun c => c != ' ') := by
    intro rest
    rw [List.dropWhile_append_of_pos]
    intro c hc
    simpa using h c hc
  unfold splitFirstSpace modName
  by_cases h2 : md.2 = []
  · have a := ht []
    have b := hd []
    simp only [List.append_nil, List.takeWhile_nil, List.dropWhile_nil] at a b
    simp only [h2, if_true, a, b, List.drop_nil]
    exact Prod.ext rfl h2.symm
  · simp only [h2, if_false, ht, hd]
    simp [List.takeWhile_cons, List.dropWhile_cons]

/-! ## The names of parsed modules -/

theorem ne_space_of_not_isspace (c : Char) (h : isspace c = false) : c ≠ ' ' := by
  intro e
  rw [e] at h
  exact absurd h (by decide)

theorem M3Loader.appendArg_names (st : M3Loader.ParseState) (tok : List Char)
    (h : ∀ c ∈ tok, c ≠ '\x00' ∧ isspace c = false) (hst : M3Loader.NamesOk st) :
    M3Loader.NamesOk (M3Loader.appendArg st tok) := by
  unfold M3Loader.appendArg
  split
  · refine ⟨hst.1, ?_, hst.2.2⟩
    intro c hc
    simp only at hc
    rcases List.mem_append.mp hc with h1 | h1
    · split at h1
      · rcases List.mem_append.mp h1 with h2 | h2
        · exact hst.2.1 c h2
        · simp only [List.mem_singleton] at h2
          rw [h2]; decide
      · exact hst.2.1 c h1
    · exact (h c h1).1
  · exact hst

theorem M3Loader.push_names (st : M3Loader.ParseState) (hst : M3Loader.NamesOk st) :
    ∀ md ∈ st.mods ++ [(st.prog, st.argstr)], NameOk md := by
  intro md hmd
  rcases List.mem_append.mp hmd with h | h
  · exact hst.2.2 md h
  · simp only [List.mem_singleton] at h
    rw [h]
    exact ⟨hst.1, hst.2.1⟩

theorem M3Loader.parseToken_names (m : Nat) (buf tok : List Char) (st : M3Loader.ParseState)
    (h : ∀ c ∈ tok, c ≠ '\x00' ∧ isspace c = false) (hst : M3Loader.NamesOk st) :
    M3Loader.NamesOk (M3Loader.parseToken m buf tok st) := by
  have htok : ∀ c ∈ tok, c ≠ '\x00' ∧ c ≠ ' ' :=
    fun c hc => ⟨(h c hc).1, ne_space_of_not_isspace c (h c hc).2⟩
  unfold M3Loader.parseToken
  split_ifs
  · exact hst
  · exact hst
  · exact hst
  · exact ⟨by simp, by simp, M3Loader.push_names st hst⟩
  · exact ⟨htok, hst.2.1, hst.2.2⟩
  · exact M3Loader.appendArg_names st tok h hst
  · exact hst

theorem M3Loader.parseLast_names (argv : Nat) (tok : List Char) (st : M3Loader.ParseState)
    (h : ∀ c ∈ tok, c ≠ '\x00' ∧ isspace c = false) (hst : M3Loader.NamesOk st) :
    M3Loader.NamesOk (M3Loader.parseLast argv tok st) := by
  have htok : ∀ c ∈ tok, c ≠ '\x00' ∧ c ≠ ' ' :=
    fun c hc => ⟨(h c hc).1, ne_space_of_not_isspace c (h c hc).2⟩
  unfold M3Loader.parseLast
  by_cases h0 : tok = []
  · simp only [h0, ne_eq, not_true_eq_false, if_false]; exact hst
  · simp only [ne_eq, h0, not_false_eq_true, if_true]
    show M3Loader.NamesOk _
    by_cases hp : st.prog = []
    · simp only [hp, if_true]
      have h1 : M3Loader.NamesOk { st with prog := tok } := ⟨htok, hst.2.1, hst.2.2⟩
      exact ⟨htok, hst.2.1, M3Loader.push_names _ h1⟩
    · simp only [hp, if_false]
      have h1 := M3Loader.appendArg_names st tok h hst
      exact ⟨h1.1, h1.2.1, M3Loader.push_names _ h1⟩

theorem M3Loader.parseLoop_names (m argv : Nat) (cmd : List Char) :
    ∀ (tok : List Char) (st : M3Loader.ParseState), (∀ c ∈ cmd, c ≠ '\x00') →
      (∀ c ∈ tok, c ≠ '\x00' ∧ isspace c = false) → M3Loader.NamesOk st →
      M3Loader.NamesOk (M3Loader.parseLoop m argv cmd tok st).1 ∧
      (∀ c ∈ (M3Loader.parseLoop m argv cmd tok st).2, c ≠ '\x00' ∧ isspace c = false) := by
  induction cmd with
  | nil => intro tok st _ h hst; exact ⟨hst, h⟩
  | cons c cmd ih =>
    intro tok st hcmd h hst
    have hrest : ∀ d ∈ cmd, d ≠ '\x00' := fun d hd => hcmd d (List.mem_cons_of_mem _ hd)
    rw [M3Loader.parseLoop]
    by_cases hc : isspace c = true
    · simp only [hc, if_true]
      by_cases h0 : tok = []
      · simp only [h0, ne_eq, not_true_eq_false, if_false]
        exact ih [] st hrest (by simp) hst
      · simp only [ne_eq, h0, not_false_eq_true, if_true]
        exact ih [] _ hrest (by simp) (M3Loader.parseToken_names _ _ _ _ h hst)
    · simp only [hc, if_false, Bool.false_eq_true]
      apply ih (tok ++ [c]) st hrest _ hst
      intro d hd
      rcases List.mem_append.mp hd with hd | hd
      · exact h d hd
      · simp only [List.mem_singleton] at hd
        rw [hd]
        exact ⟨hcmd c (List.mem_cons_self _ _), by simpa using hc⟩

/-- Every module that `M3Loader` parses from a command line, and the module
`rctmux` it appends, has names that are C strings and a program without a
space: the modules handed to the packing loop meet what reading a record back
needs. -/
theorem M3Loader.moduleList_names (modOffset argv : Nat) (mem : Mem) (cmd : List Char) :
    ∀ md ∈ M3Loader.moduleList modOffset argv mem cmd, NameOk md := by
  intro md hmd
  have hc : ∀ c ∈ c_str cmd, c ≠ '\x00' := by
    intro c hc
    have := List.mem_takeWhile_imp hc
    simpa using this
  have h := M3Loader.parseLoop_names modOffset argv (c_str cmd) []
    { kernelPath := [], prog := [], argstr := [], mods := [], seen_dashes := false,
      i := 0, args := (argv + 8 * M3Loader.getArgc cmd) % WORD, mem := mem } hc (by simp)
    ⟨by simp, by simp, by simp⟩
  have h2 := M3Loader.parseLast_names argv _ _ h.2 h.1
  rcases List.mem_append.mp hmd with h3 | h3
  · exact h2.2.2 md h3
  · simp only [List.mem_singleton] at h3
    rw [h3]
    exact ⟨by decide, by simp⟩

/-! ## Claims C9 and C10: the packed modules -/

/-- C9: when the modules are packed without failure and no address wraps
around `2 ^ 64`, one record is written per module, every image
`[addr, addr + size)` ends before its record starts, every record
`[rec, rec + sizeof(BootModule))` ends before the final cursor, and the record
of a module ends before the image of every later module starts. -/
theorem modules_do_not_overlap (k : PackConsts) (fs : FileSystem) (path : List Char)
    (junk : Nat → Nat) (mods : List (List Char × List Char)) (base : Nat) (mem : Mem)
    (st' : PackState)
    (hpack : packLoop k fs path junk mods { mem := mem, addr := base, recs := [] } = some st')
    (hfit : base + packBound k fs path mods ≤ WORD) :
    st'.recs.length = mods.length ∧
    (∀ (i : Nat) (hi : i < st'.recs.length),
      base ≤ (st'.recs[i]).2.addr ∧
      (st'.recs[i]).2.addr + (st'.recs[i]).2.size ≤ (st'.recs[i]).1 ∧
      (st'.recs[i]).1 + k.sizeofBootModule ≤ st'.addr) ∧
    (∀ (i j : Nat) (hij : i < j) (hj : j < st'.recs.length),
      (st'.recs[i]).1 + k.sizeofBootModule ≤ (st'.recs[j]).2.addr) := by
  obtain ⟨new, q1, q2, _, _⟩ := packLoop_spec k fs path junk mods _ st' hpack hfit
  simp only [List.nil_append] at q1 q2
  subst q1
  exact ⟨Packed_length k fs path _ mods _ _ _ q2,
    Packed_layout k fs path _ mods _ _ _ q2,
    Packed_ordered k fs path _ mods _ _ _ q2⟩

/-- C9 at the modules `a` (3 bytes) and `rctmux` (5 bytes) packed from address
64: the images lie at 64 and 112, the records at 72 and 120. -/
theorem modules_do_not_overlap_witness :
    (packLoop exampleConsts exampleFs "bin".toList (fun _ => 255)
      [("a".toList, "x y".toList), ("rctmux".toList, [])]
      { mem := fun _ => 0, addr := 64, recs := [] }).map
        (fun s => s.recs.map (fun r => (r.2.addr, r.2.size, r.1))) =
      some [(64, 3, 72), (112, 5, 120)] ∧
    72 + exampleConsts.sizeofBootModule ≤ 112 := by
  have h := modules_do_not_overlap exampleConsts exampleFs "bin".toList (fun _ => 255)
    [("a".toList, "x y".toList), ("rctmux".toList, [])] 64 (fun _ => 0) _ rfl (by decide)
  exact ⟨by decide, h.2.2 0 1 (by decide) (by decide)⟩

theorem recordName_eq_modName (md : List Char × List Char)
    (h1 : ∀ c ∈ md.1, c ≠ '\x00') (h2 : ∀ c ∈ md.2, c ≠ '\x00') :
    recordName md = modName md := by
  unfold recordName modName
  rw [c_str_eq_self h1, c_str_eq_self h2]
  by_cases h : md.2 = []
  · simp [h]
  · simp [h]

/-- C10: when the modules are packed without failure and no address wraps,
the record of every module read back from the final memory holds, as a C
string in its name field, the program followed by a space and the arguments
when there are arguments (from which program and arguments are recovered by
splitting at the first space), in its `addr` and `size` fields the address and
length of the memory range that holds the module's file. Module names are C
strings and programs contain no space, as in every parsed module list. -/
theorem record_readback (k : PackConsts) (fs : FileSystem) (path : List Char)
    (junk : Nat → Nat) (mods : List (List Char × List Char)) (base : Nat) (mem : Mem)
    (st' : PackState)
    (hpack : packLoop k fs path junk mods { mem := mem, addr := base, recs := [] } = some st')
    (hfit : base + packBound k fs path mods ≤ WORD)
    (hnames : ∀ md ∈ mods, NameOk md) :
    st'.recs.length = mods.length ∧
    (∀ (i : Nat) (hi : i < st'.recs.length) (hm : i < mods.length),
      cstrOf (readBytes st'.mem (st'.recs[i]).1 k.MAX_MODNAME_LEN) =
        strBytes (modName mods[i]) ∧
      splitFirstSpace (modName mods[i]) = mods[i] ∧
      readU64 st'.mem ((st'.recs[i]).1 + k.MAX_MODNAME_LEN) = (st'.recs[i]).2.addr ∧
      readU64 st'.mem ((st'.recs[i]).1 + k.MAX_MODNAME_LEN + 8) = (st'.recs[i]).2.size ∧
      fs (path ++ "/".toList ++ (mods[i]).1) =
        some (readBytes st'.mem (st'.recs[i]).2.addr (st'.recs[i]).2.size)) := by
  obtain ⟨new, q1, q2, _, _⟩ := packLoop_spec k fs path junk mods _ st' hpack hfit
  simp only [List.nil_append] at q1 q2
  subst q1
  refine ⟨Packed_length k fs path _ mods _ _ _ q2, ?_⟩
  intro i hi hm
  obtain ⟨b1, b2, b3, b4, b5, b6⟩ := Packed_readback k fs path _ mods _ _ _ q2 i hi hm
  obtain ⟨c1, c2, c3⟩ := record_fields st'.mem (st'.recs[i]).1 k.MAX_MODNAME_LEN
    (st'.recs[i]).2 b5 b1 b2 b4
  have hmem := List.getElem_mem hm
  refine ⟨?_, splitFirstSpace_modName _ (fun c hc => ((hnames _ hmem).1 c hc).2), c2, c3, b3⟩
  rw [c1, b6, recordName_eq_modName _ (fun c hc => ((hnames _ hmem).1 c hc).1)
    (hnames _ hmem).2]

/-- C10 at the modules `a x y` and `rctmux` packed from address 64: the record
at 72 reads back as the name `a x y`, the address 64 and the size 3. -/
theorem record_readback_witness :
    (packLoop exampleConsts exampleFs "bin".toList (fun _ => 255)
      [("a".toList, "x y".toList), ("rctmux".toList, [])]
      { mem := fun _ => 0, addr := 64, recs := [] }).map
        (fun s => (cstrOf (readBytes s.mem 72 16), readU64 s.mem 88, readU64 s.mem 96)) =
      some (strBytes "a x y".toList, 64, 3) ∧
    splitFirstSpace (modName ("a".toList, "x y".toList)) = ("a".toList, "x y".toList) := by
  have h := record_readback exampleConsts exampleFs "bin".toList (fun _ => 255)
    [("a".toList, "x y".toList), ("rctmux".toList, [])] 64 (fun _ => 0) _ rfl (by decide)
    (by unfold NameOk; decide)
  exact ⟨by decide, (h.2 0 (by decide) (by decide)).2.1⟩

/-! ## Set entries are never overwritten -/

theorem memsetBlob_out (mem : PtMem) (addr size a : Nat) (h : ¬(addr ≤ a ∧ a < addr + size)) :
    memsetBlob mem addr size a = mem a := by
  unfold memsetBlob
  rw [if_neg h]

theorem memsetBlob_in (mem : PtMem) (addr size a : Nat) (h : addr ≤ a ∧ a < addr + size) :
    memsetBlob mem addr size a = { base := 0, ixwr := 0 } := by
  unfold memsetBlob
  rw [if_pos h]

theorem writeEntry_same (mem : PtMem) (addr : Nat) (e : PageTableEntry) :
    writeEntry mem addr e addr = e := by
  simp [writeEntry]

theorem writeEntry_other (mem : PtMem) (addr a : Nat) (e : PageTableEntry) (h : a ≠ addr) :
    writeEntry mem addr e a = mem a := by
  simp [writeEntry, h]

/-- The three ways an iteration of the `mapPage` loop ends: the `assert`
fails, the unset entry is filled, or the set entry is followed. -/
theorem M3X86System.mapPageLoop_succ (sys : M3X86System) (virt phys access i pt : Nat)
    (s : PtState) :
    sys.mapPageLoop virt phys access (i + 1) pt s =
      if ¬(i > 0 ∨ (s.mem (sys.pteAddr pt virt i)).ixwr = 0) then none
      else if (s.mem (sys.pteAddr pt virt i)).ixwr = 0 then
        sys.mapPageLoop virt phys access i
          ((sys.nocAddr (if i = 0 then (sys.memOffset + phys) % WORD
              else sys.memOffset + (s.nextFrame <<< sys.PAGE_BITS)) >>> sys.PAGE_BITS) <<<
            sys.PAGE_BITS)
          { mem := writeEntry
              (if i > 0 then memsetBlob s.mem
                (sys.nocAddr (if i = 0 then (sys.memOffset + phys) % WORD
                  else sys.memOffset + (s.nextFrame <<< sys.PAGE_BITS))) sys.PAGE_SIZE
                else s.mem)
              (sys.pteAddr pt virt i)
              { base := sys.nocAddr (if i = 0 then (sys.memOffset + phys) % WORD
                  else sys.memOffset + (s.nextFrame <<< sys.PAGE_BITS)) >>> sys.PAGE_BITS,
                ixwr := sys.toIxwr (if i = 0 then access else sys.RWX) },
            nextFrame := if i = 0 then s.nextFrame else s.nextFrame + 1 }
      else sys.mapPageLoop virt phys access i
        ((s.mem (sys.pteAddr pt virt i)).base <<< sys.PAGE_BITS) s := by
  rw [M3X86System.mapPageLoop]

theorem shiftRight_shiftLeft_of_aligned (x k : Nat) (h : x % 2 ^ k = 0) :
    (x >>> k) <<< k = x := by
  rw [Nat.shiftRight_eq_div_pow, Nat.shiftLeft_eq]
  have := Nat.div_add_mod x (2 ^ k)
  rw [h] at this
  rw [Nat.mul_comm]
  omega

theorem M3X86System.PAGE_SIZE_eq (sys : M3X86System) : sys.PAGE_SIZE = 2 ^ sys.PAGE_BITS := by
  simp [M3X86System.PAGE_SIZE, Nat.shiftLeft_eq]

theorem M3X86System.levelIdx_eq (sys : M3X86System) (v i : Nat) :
    sys.levelIdx v i = v / 2 ^ (sys.PAGE_BITS + i * sys.LEVEL_BITS) % 2 ^ sys.LEVEL_BITS := by
  simp only [M3X86System.levelIdx, M3X86System.LEVEL_MASK, Nat.shiftLeft_eq, Nat.one_mul,
    Nat.shiftRight_eq_div_pow, Nat.and_pow_two_sub_one_eq_mod]

theorem M3X86System.levelIdx_lt (sys : M3X86System) (v i : Nat) :
    sys.levelIdx v i < 2 ^ sys.LEVEL_BITS := by
  rw [sys.levelIdx_eq]
  exact Nat.mod_lt _ (Nat.pos_pow_of_pos _ (by omega))

theorem M3X86System.pteAddr_eq (sys : M3X86System) (t v i : Nat) :
    sys.pteAddr t v i = t + sys.levelIdx v i * 2 ^ sys.PTE_BITS := by
  simp only [M3X86System.pteAddr, M3X86System.levelIdx, Nat.shiftLeft_eq]

theorem M3X86System.slot_offset_lt (sys : M3X86System) (hg : sys.Geometry) (v i : Nat) :
    sys.levelIdx v i * 2 ^ sys.PTE_BITS < 2 ^ sys.PAGE_BITS := by
  have h1 := sys.levelIdx_lt v i
  have h2 : (2:Nat) ^ sys.LEVEL_BITS * 2 ^ sys.PTE_BITS ≤ 2 ^ sys.PAGE_BITS := by
    rw [← Nat.pow_add]
    exact Nat.pow_le_pow_right (by omega) hg.fits
  have h3 : 0 < (2:Nat) ^ sys.PTE_BITS := Nat.pos_pow_of_pos _ (by omega)
  calc sys.levelIdx v i * 2 ^ sys.PTE_BITS
      < 2 ^ sys.LEVEL_BITS * 2 ^ sys.PTE_BITS := Nat.mul_lt_mul_of_pos_right h1 h3
    _ ≤ 2 ^ sys.PAGE_BITS := h2

theorem aligned_add_div (t o p : Nat) (ht : t % p = 0) (ho : o < p) : (t + o) / p * p = t := by
  have hp : 0 < p := by omega
  obtain ⟨c, rfl⟩ := Nat.dvd_of_mod_eq_zero ht
  rw [Nat.mul_comm p c, Nat.add_comm, Nat.add_mul_div_right _ _ hp, Nat.div_eq_of_lt ho]
  simp

/-- Entries of page-aligned tables coincide only in the same table at the same
index. -/
theorem M3X86System.pteAddr_inj (sys : M3X86System) (hg : sys.Geometry) (t1 t2 v w i j : Nat)
    (h1 : t1 % 2 ^ sys.PAGE_BITS = 0) (h2 : t2 % 2 ^ sys.PAGE_BITS = 0)
    (h : sys.pteAddr t1 v i = sys.pteAddr t2 w j) :
    t1 = t2 ∧ sys.levelIdx v i = sys.levelIdx w j := by
  rw [sys.pteAddr_eq, sys.pteAddr_eq] at h
  have o1 := sys.slot_offset_lt hg v i
  have o2 := sys.slot_offset_lt hg w j
  have e1 := aligned_add_div _ _ _ h1 o1
  have e2 := aligned_add_div _ _ _ h2 o2
  rw [h, e2] at e1
  subst e1
  refine ⟨rfl, ?_⟩
  have h3 : 0 < (2:Nat) ^ sys.PTE_BITS := Nat.pos_pow_of_pos _ (by omega)
  have : sys.levelIdx v i * 2 ^ sys.PTE_BITS = sys.levelIdx w j * 2 ^ sys.PTE_BITS := by omega
  exact Nat.eq_of_mul_eq_mul_right h3 this

theorem M3X86System.pteAddr_range (sys : M3X86System) (hg : sys.Geometry) (t v i : Nat) :
    t ≤ sys.pteAddr t v i ∧ sys.pteAddr t v i < t + sys.PAGE_SIZE := by
  rw [sys.pteAddr_eq, sys.PAGE_SIZE_eq]
  have := sys.slot_offset_lt hg v i
  omega

theorem shiftLeft_mod (x k : Nat) : (x <<< k) % 2 ^ k = 0 := by
  rw [Nat.shiftLeft_eq]
  exact Nat.mul_mod_left _ _

/-! ## Walks -/

theorem M3X86System.tableAt_succ (sys : M3X86System) (mem : PtMem) (v k : Nat) :
    sys.tableAt mem v (k + 1) =
      match sys.tableAt mem v k with
      | none => none
      | some t =>
        if (mem (sys.pteAddr t v (sys.LEVEL_CNT - 1 - k))).ixwr = 0 then none
        else some ((mem (sys.pteAddr t v (sys.LEVEL_CNT - 1 - k))).base <<< sys.PAGE_BITS) :=
  rfl

theorem M3X86System.tableAt_aligned (sys : M3X86System) (hg : sys.Geometry) (mem : PtMem)
    (v k t : Nat) (h : sys.tableAt mem v k = some t) : t % 2 ^ sys.PAGE_BITS = 0 := by
  cases k with
  | zero =>
    simp only [M3X86System.tableAt, Option.some.injEq] at h
    rw [← h]; exact hg.rootAligned
  | succ k =>
    rw [sys.tableAt_succ] at h
    cases h1 : sys.tableAt mem v k with
    | none => rw [h1] at h; cases h
    | some t1 =>
      rw [h1] at h
      simp only at h
      split at h
      · cases h
      · simp only [Option.some.injEq] at h
        rw [← h]; exact shiftLeft_mod _ _

theorem M3X86System.tableAt_none_succ (sys : M3X86System) (mem : PtMem) (v k : Nat)
    (h : sys.tableAt mem v k = none) : sys.tableAt mem v (k + 1) = none := by
  rw [sys.tableAt_succ, h]

theorem M3X86System.tableAt_none_le (sys : M3X86System) (mem : PtMem) (v k j : Nat)
    (hkj : k ≤ j) (h : sys.tableAt mem v k = none) : sys.tableAt mem v j = none := by
  induction j with
  | zero =>
    have : k = 0 := by omega
    subst this; exact h
  | succ j ih =>
    by_cases hk : k = j + 1
    · subst hk; exact h
    · exact sys.tableAt_none_succ mem v j (ih (by omega))

theorem M3X86System.pteAddr_congr (sys : M3X86System) (t v w i : Nat)
    (h : sys.levelIdx v i = sys.levelIdx w i) : sys.pteAddr t v i = sys.pteAddr t w i := by
  rw [sys.pteAddr_eq, sys.pteAddr_eq, h]

/-- A walk depends on the indices of the address only. -/
theorem M3X86System.tableAt_congr (sys : M3X86System) (mem : PtMem) (v w : Nat) :
    ∀ k, sys.SamePrefix v w k → sys.tableAt mem v k = sys.tableAt mem w k := by
  intro k
  induction k with
  | zero => intro _; rfl
  | succ k ih =>
    intro h
    rw [sys.tableAt_succ, sys.tableAt_succ, ih (fun m hm => h m (by omega))]
    cases sys.tableAt mem w k with
    | none => rfl
    | some t =>
      simp only
      rw [sys.pteAddr_congr t v w _ (h k (by omega))]

theorem M3X86System.SamePrefix_symm (sys : M3X86System) (v w k : Nat)
    (h : sys.SamePrefix v w k) : sys.SamePrefix w v k :=
  fun m hm => (h m hm).symm

theorem M3X86System.SamePrefix_trans (sys : M3X86System) (u v w k : Nat)
    (h1 : sys.SamePrefix u v k) (h2 : sys.SamePrefix v w k) : sys.SamePrefix u w k :=
  fun m hm => (h1 m hm).trans (h2 m hm)

theorem M3X86System.SamePrefix_mono (sys : M3X86System) (v w k j : Nat) (hjk : j ≤ k)
    (h : sys.SamePrefix v w k) : sys.SamePrefix v w j :=
  fun m hm => h m (by omega)

/-- The tables of a well-formed address space lie outside the frames still to
be handed out. -/
theorem M3X86System.WF.table_not_fresh {sys : M3X86System} {s : PtState} (hwf : sys.WF s)
    (hg : sys.Geometry) (v k t f : Nat) (hv : sys.Regular v) (hk : k < sys.LEVEL_CNT)
    (ht : sys.tableAt s.mem v k = some t) (hf : s.nextFrame ≤ f) : t ≠ sys.frameAddr f := by
  intro e
  cases k with
  | zero =>
    simp only [M3X86System.tableAt, Option.some.injEq] at ht
    exact hwf.rootFresh f hf (by rw [← e, ← ht])
  | succ k =>
    obtain ⟨g, hg1, hg2⟩ := hwf.alloc v (k + 1) t hv (by omega) hk ht
    have := hg.frameInj f g (by rw [← e, hg2])
    omega

/-- An entry of one page-aligned table lies outside every other page-aligned
page. -/
theorem M3X86System.pteAddr_outside (sys : M3X86System) (hg : sys.Geometry) (t g v i : Nat)
    (ht : t % 2 ^ sys.PAGE_BITS = 0) (hgal : g % 2 ^ sys.PAGE_BITS = 0) (hne : t ≠ g) :
    ¬(g ≤ sys.pteAddr t v i ∧ sys.pteAddr t v i < g + sys.PAGE_SIZE) := by
  intro ⟨h1, h2⟩
  rw [sys.pteAddr_eq] at h1 h2
  rw [sys.PAGE_SIZE_eq] at h2
  have o := sys.slot_offset_lt hg v i
  have e1 := aligned_add_div _ _ _ ht o
  have hlt : t + sys.levelIdx v i * 2 ^ sys.PTE_BITS - g < 2 ^ sys.PAGE_BITS := by omega
  have e2 := aligned_add_div g (t + sys.levelIdx v i * 2 ^ sys.PTE_BITS - g) _ hgal hlt
  have e3 : g + (t + sys.levelIdx v i * 2 ^ sys.PTE_BITS - g) =
      t + sys.levelIdx v i * 2 ^ sys.PTE_BITS := by omega
  rw [e3, e1] at e2
  exact hne e2

/-! ## Filling an unset entry with a new table -/

theorem M3X86System.SamePrefix_succ (sys : M3X86System) (u v k : Nat)
    (h : sys.SamePrefix u v k)
    (hk : sys.levelIdx u (sys.LEVEL_CNT - 1 - k) = sys.levelIdx v (sys.LEVEL_CNT - 1 - k)) :
    sys.SamePrefix u v (k + 1) := by
  intro m hm
  by_cases e : m = k
  · subst e; exact hk
  · exact h m (by omega)

/-- Entries of existing tables other than the filled one keep their content. -/
theorem M3X86System.FreshLink.mem_eq {sys : M3X86System} {s : PtState} {v k t : Nat}
    (h : sys.FreshLink s v k t) (u j tj : Nat) (hu : sys.Regular u) (hj : j < sys.LEVEL_CNT)
    (htj : sys.tableAt s.mem u j = some tj) (hne : ¬sys.SamePrefix u v (k + 1) ∨ j ≠ k) :
    (sys.linkFresh s v k t).mem (sys.pteAddr tj u (sys.LEVEL_CNT - 1 - j)) =
      s.mem (sys.pteAddr tj u (sys.LEVEL_CNT - 1 - j)) := by
  have hta := sys.tableAt_aligned h.geom s.mem u j tj htj
  have hta' := sys.tableAt_aligned h.geom s.mem v k t h.table
  have hq : sys.pteAddr tj u (sys.LEVEL_CNT - 1 - j) ≠ sys.pteAddr t v (sys.LEVEL_CNT - 1 - k) := by
    intro e
    obtain ⟨e1, e2⟩ := sys.pteAddr_inj h.geom tj t u v _ _ hta hta' e
    subst e1
    obtain ⟨e3, e4⟩ := h.wf.inj u v j k tj hu h.reg hj (by have := h.depth; omega) htj h.table
    subst e3
    rcases hne with h1 | h1
    · exact h1 (sys.SamePrefix_succ u v j e4 e2)
    · exact h1 rfl
  simp only [M3X86System.linkFresh]
  rw [writeEntry_other _ _ _ _ hq]
  apply memsetBlob_out
  exact sys.pteAddr_outside h.geom tj _ u _ hta (h.geom.frameAligned _)
    (h.wf.table_not_fresh h.geom u j tj _ hu hj htj (le_refl _))

/-- Walks that leave the path of `v` before the filled entry, and all walks
down to its depth, are unchanged. -/
theorem M3X86System.FreshLink.tableAt_old {sys : M3X86System} {s : PtState} {v k t : Nat}
    (h : sys.FreshLink s v k t) (u : Nat) (hu : sys.Regular u) :
    ∀ j, j < sys.LEVEL_CNT → (¬sys.SamePrefix u v (k + 1) ∨ j ≤ k) →
      sys.tableAt (sys.linkFresh s v k t).mem u j = sys.tableAt s.mem u j := by
  intro j
  induction j with
  | zero => intro _ _; rfl
  | succ j ih =>
    intro hj hne
    rw [sys.tableAt_succ, sys.tableAt_succ,
      ih (by omega) (by rcases hne with h1 | h1; exact Or.inl h1; exact Or.inr (by omega))]
    cases htj : sys.tableAt s.mem u j with
    | none => rfl
    | some tj =>
      simp only
      rw [h.mem_eq u j tj hu (by omega) htj
        (by rcases hne with h1 | h1; exact Or.inl h1; exact Or.inr (by omega))]

/-- Walks along the path of `v` reach the new table right below the filled
entry and end there. -/
theorem M3X86System.FreshLink.tableAt_new {sys : M3X86System} {s : PtState} {v k t : Nat}
    (h : sys.FreshLink s v k t) (u : Nat) (hu : sys.Regular u)
    (hp : sys.SamePrefix u v (k + 1)) :
    sys.tableAt (sys.linkFresh s v k t).mem u (k + 1) = some (sys.frameAddr s.nextFrame) ∧
    (sys.linkFresh s v k t).mem
      (sys.pteAddr (sys.frameAddr s.nextFrame) u (sys.LEVEL_CNT - 1 - (k + 1))) =
        { base := 0, ixwr := 0 } ∧
    (∀ j, k + 1 < j → sys.tableAt (sys.linkFresh s v k t).mem u j = none) := by
  have hk : sys.tableAt (sys.linkFresh s v k t).mem u k = some t := by
    rw [h.tableAt_old u hu k (by have := h.depth; omega) (Or.inr (le_refl _)),
      sys.tableAt_congr s.mem u v k (sys.SamePrefix_mono u v _ _ (by omega) hp)]
    exact h.table
  have hslot : sys.pteAddr t u (sys.LEVEL_CNT - 1 - k) = sys.pteAddr t v (sys.LEVEL_CNT - 1 - k) :=
    sys.pteAddr_congr t u v _ (hp k (by omega))
  have h1 : sys.tableAt (sys.linkFresh s v k t).mem u (k + 1) =
      some (sys.frameAddr s.nextFrame) := by
    rw [sys.tableAt_succ, hk]
    simp only
    rw [hslot]
    simp only [M3X86System.linkFresh, writeEntry_same]
    rw [if_neg h.geom.rwx, shiftRight_shiftLeft_of_aligned _ _ (h.geom.frameAligned _)]
  have hta' := sys.tableAt_aligned h.geom s.mem v k t h.table
  have hne : t ≠ sys.frameAddr s.nextFrame :=
    h.wf.table_not_fresh h.geom v k t _ h.reg (by have := h.depth; omega) h.table (le_refl _)
  have h2 : (sys.linkFresh s v k t).mem
      (sys.pteAddr (sys.frameAddr s.nextFrame) u (sys.LEVEL_CNT - 1 - (k + 1))) =
        { base := 0, ixwr := 0 } := by
    simp only [M3X86System.linkFresh]
    rw [writeEntry_other]
    · exact memsetBlob_in _ _ _ _ (sys.pteAddr_range h.geom _ _ _)
    · intro e
      exact hne (sys.pteAddr_inj h.geom _ _ _ _ _ _ (h.geom.frameAligned _) hta' e).1.symm
  refine ⟨h1, h2, ?_⟩
  intro j hj
  apply sys.tableAt_none_le _ u (k + 2) j (by omega)
  rw [sys.tableAt_succ, h1]
  simp only
  rw [h2]
  simp

/-- A walk in the new state gives a table of the old state, or the new table
at the depth below the filled entry along the path of `v`. -/
theorem M3X86System.FreshLink.tableAt_cases {sys : M3X86System} {s : PtState} {v k t : Nat}
    (h : sys.FreshLink s v k t) (u j x : Nat) (hu : sys.Regular u) (hj : j < sys.LEVEL_CNT)
    (hx : sys.tableAt (sys.linkFresh s v k t).mem u j = some x) :
    sys.tableAt s.mem u j = some x ∨
    (x = sys.frameAddr s.nextFrame ∧ j = k + 1 ∧ sys.SamePrefix u v (k + 1)) := by
  by_cases hp : sys.SamePrefix u v (k + 1)
  · by_cases hjk : j ≤ k
    · left
      rw [← h.tableAt_old u hu j hj (Or.inr hjk)]; exact hx
    · right
      obtain ⟨n1, _, n3⟩ := h.tableAt_new u hu hp
      by_cases e : j = k + 1
      · subst e
        rw [n1] at hx
        simp only [Option.some.injEq] at hx
        exact ⟨hx.symm, rfl, hp⟩
      · rw [n3 j (by omega)] at hx; cases hx
  · left
    rw [← h.tableAt_old u hu j hj (Or.inl hp)]; exact hx

/-- Filling an unset entry with a new table keeps the address space
well-formed. -/
theorem M3X86System.FreshLink.wf_linkFresh {sys : M3X86System} {s : PtState} {v k t : Nat}
    (h : sys.FreshLink s v k t) : sys.WF (sys.linkFresh s v k t) := by
  have hnf : (sys.linkFresh s v k t).nextFrame = s.nextFrame + 1 := rfl
  refine ⟨?_, ?_, ?_⟩
  · intro f hf
    exact h.wf.rootFresh f (by rw [hnf] at hf; omega)
  · intro a b ka kb x ha hb hka hkb hxa hxb
    rcases h.tableAt_cases a ka x ha hka hxa with ca | ⟨ca1, ca2, ca3⟩
    · rcases h.tableAt_cases b kb x hb hkb hxb with cb | ⟨cb1, _, _⟩
      · exact h.wf.inj a b ka kb x ha hb hka hkb ca cb
      · exact absurd cb1 (h.wf.table_not_fresh h.geom a ka x _ ha hka ca (le_refl _))
    · rcases h.tableAt_cases b kb x hb hkb hxb with cb | ⟨_, cb2, cb3⟩
      · exact absurd ca1 (h.wf.table_not_fresh h.geom b kb x _ hb hkb cb (le_refl _))
      · subst ca2 cb2
        exact ⟨rfl, sys.SamePrefix_trans a v b _ ca3 (sys.SamePrefix_symm b v _ cb3)⟩
  · intro a ka x ha h1 hka hxa
    rcases h.tableAt_cases a ka x ha hka hxa with ca | ⟨ca1, _, _⟩
    · obtain ⟨f, hf1, hf2⟩ := h.wf.alloc a ka x ha h1 hka ca
      exact ⟨f, by rw [hnf]; omega, hf2⟩
    · exact ⟨s.nextFrame, by rw [hnf]; omega, ca1⟩

theorem M3X86System.translate_of_leafEntry_none (sys : M3X86System) (mem : PtMem) (u : Nat)
    (h : sys.leafEntry mem u = none) : sys.translate mem u = none := by
  simp [M3X86System.translate, h]

/-- Filling an unset entry with a new table maps no page and changes no
level-0 entry that a walk reached before. -/
theorem M3X86System.FreshLink.leaf_linkFresh {sys : M3X86System} {s : PtState} {v k t : Nat}
    (h : sys.FreshLink s v k t) (u : Nat) (hu : sys.Regular u) :
    sys.translate (sys.linkFresh s v k t).mem u = sys.translate s.mem u ∧
    (∀ e, sys.leafEntry s.mem u = some e →
      sys.leafEntry (sys.linkFresh s v k t).mem u = some e) := by
  have hL := h.depth
  by_cases hp : sys.SamePrefix u v (k + 1)
  · -- the walk for `u` ended at the unset entry
    have hold : sys.tableAt s.mem u (sys.LEVEL_CNT - 1) = none := by
      apply sys.tableAt_none_le _ u (k + 1) _ (by omega)
      rw [sys.tableAt_succ, sys.tableAt_congr s.mem u v k
        (sys.SamePrefix_mono u v _ _ (by omega) hp), h.table]
      simp only
      rw [sys.pteAddr_congr t u v _ (hp k (by omega)), if_pos h.unset]
    have hle : sys.leafEntry s.mem u = none := by
      simp [M3X86System.leafEntry, M3X86System.leafSlot, hold]
    rw [sys.translate_of_leafEntry_none _ u hle]
    refine ⟨?_, by intro e he; rw [hle] at he; cases he⟩
    obtain ⟨n1, n2, n3⟩ := h.tableAt_new u hu hp
    by_cases e : sys.LEVEL_CNT - 1 = k + 1
    · have e0 : sys.LEVEL_CNT - 1 - (k + 1) = 0 := by omega
      rw [e0] at n2
      simp [M3X86System.translate, M3X86System.leafEntry, M3X86System.leafSlot, e, n1, n2]
    · apply sys.translate_of_leafEntry_none
      simp [M3X86System.leafEntry, M3X86System.leafSlot, n3 (sys.LEVEL_CNT - 1) (by omega)]
  · have hsame := h.tableAt_old u hu (sys.LEVEL_CNT - 1) (by omega) (Or.inl hp)
    have hle : sys.leafEntry (sys.linkFresh s v k t).mem u = sys.leafEntry s.mem u := by
      simp only [M3X86System.leafEntry, M3X86System.leafSlot, hsame]
      cases htq : sys.tableAt s.mem u (sys.LEVEL_CNT - 1) with
      | none => rfl
      | some tq =>
        have hm := h.mem_eq u (sys.LEVEL_CNT - 1) tq hu (by omega) htq (Or.inl hp)
        have e0 : sys.LEVEL_CNT - 1 - (sys.LEVEL_CNT - 1) = 0 := by omega
        rw [e0] at hm
        simp [hm]
    exact ⟨by simp only [M3X86System.translate, hle], by intro e he; rw [hle]; exact he⟩

/-! ## Writing a level-0 entry -/

theorem M3X86System.LeafReady.tableAt_eq {sys : M3X86System} {s : PtState} {v t : Nat}
    (h : sys.LeafReady s v t) (e : PageTableEntry) (u : Nat) (hu : sys.Regular u) :
    ∀ j, j < sys.LEVEL_CNT →
      sys.tableAt (sys.leafWrite s v t e).mem u j = sys.tableAt s.mem u j := by
  intro j
  induction j with
  | zero => intro _; rfl
  | succ j ih =>
    intro hj
    rw [sys.tableAt_succ, sys.tableAt_succ, ih (by omega)]
    cases htj : sys.tableAt s.mem u j with
    | none => rfl
    | some tj =>
      simp only
      have hq : sys.pteAddr tj u (sys.LEVEL_CNT - 1 - j) ≠ sys.pteAddr t v 0 := by
        intro e1
        obtain ⟨e2, _⟩ := sys.pteAddr_inj h.geom tj t u v _ _
          (sys.tableAt_aligned h.geom s.mem u j tj htj)
          (sys.tableAt_aligned h.geom s.mem v _ t h.table) e1
        subst e2
        have := (h.wf.inj u v j (sys.LEVEL_CNT - 1) tj hu h.reg (by omega)
          (by have := h.geom.levels; omega) htj h.table).1
        omega
      simp only [M3X86System.leafWrite]
      rw [writeEntry_other _ _ _ _ hq]

/-- Writing a level-0 entry keeps the address space well-formed. -/
theorem M3X86System.LeafReady.wf_leafWrite {sys : M3X86System} {s : PtState} {v t : Nat}
    (h : sys.LeafReady s v t) (e : PageTableEntry) : sys.WF (sys.leafWrite s v t e) := by
  refine ⟨h.wf.rootFresh, ?_, ?_⟩
  · intro a b ka kb x ha hb hka hkb hxa hxb
    rw [h.tableAt_eq e a ha ka hka] at hxa
    rw [h.tableAt_eq e b hb kb hkb] at hxb
    exact h.wf.inj a b ka kb x ha hb hka hkb hxa hxb
  · intro a ka x ha h1 hka hxa
    rw [h.tableAt_eq e a ha ka hka] at hxa
    exact h.wf.alloc a ka x ha h1 hka hxa

theorem M3X86System.SamePage_of_prefix (sys : M3X86System) (u v : Nat)
    (hp : sys.SamePrefix u v (sys.LEVEL_CNT - 1)) (h0 : sys.levelIdx u 0 = sys.levelIdx v 0) :
    sys.SamePage u v := by
  intro i hi
  by_cases e : i = 0
  · subst e; exact h0
  · have := hp (sys.LEVEL_CNT - 1 - i) (by omega)
    have e1 : sys.LEVEL_CNT - 1 - (sys.LEVEL_CNT - 1 - i) = i := by omega
    rw [e1] at this
    exact this

theorem M3X86System.SamePage.samePrefix {sys : M3X86System} {u v : Nat}
    (h : sys.SamePage u v) (k : Nat) (hk : k ≤ sys.LEVEL_CNT) : sys.SamePrefix u v k :=
  fun m hm => h _ (by omega)

/-- Writing the level-0 entry of `v` sets that entry and changes the level-0
entry of no other page. -/
theorem M3X86System.LeafReady.leaf_leafWrite {sys : M3X86System} {s : PtState} {v t : Nat}
    (h : sys.LeafReady s v t) (e : PageTableEntry) :
    sys.leafEntry (sys.leafWrite s v t e).mem v = some e ∧
    (∀ u, sys.Regular u → ¬sys.SamePage u v →
      sys.leafEntry (sys.leafWrite s v t e).mem u = sys.leafEntry s.mem u) := by
  have hL := h.geom.levels
  constructor
  · have e1 := h.tableAt_eq e v h.reg (sys.LEVEL_CNT - 1) (by omega)
    simp only [M3X86System.leafEntry, M3X86System.leafSlot, e1, h.table, Option.map_some']
    simp [M3X86System.leafWrite, writeEntry_same]
  · intro u hu hne
    have e1 := h.tableAt_eq e u hu (sys.LEVEL_CNT - 1) (by omega)
    simp only [M3X86System.leafEntry, M3X86System.leafSlot, e1]
    cases htq : sys.tableAt s.mem u (sys.LEVEL_CNT - 1) with
    | none => rfl
    | some tq =>
      have hq : sys.pteAddr tq u 0 ≠ sys.pteAddr t v 0 := by
        intro e1
        obtain ⟨e2, e3⟩ := sys.pteAddr_inj h.geom tq t u v _ _
          (sys.tableAt_aligned h.geom s.mem u _ tq htq)
          (sys.tableAt_aligned h.geom s.mem v _ t h.table) e1
        subst e2
        have := (h.wf.inj u v _ _ tq hu h.reg (by omega) (by omega) htq h.table).2
        exact hne (sys.SamePage_of_prefix u v this e3)
      simp only [Option.map_some', M3X86System.leafWrite]
      rw [writeEntry_other _ _ _ _ hq]

/-! ## `mapPage` on a well-formed address space -/

theorem M3X86System.SamePrefix_refl (sys : M3X86System) (v k : Nat) : sys.SamePrefix v v k :=
  fun _ _ => rfl

/-- `mapPage` from depth `k` on, for an unmapped page outside the recursive
window of a well-formed address space: the loop completes, keeps the address
space well-formed, writes the level-0 entry of the page, leaves the other
pages as they are, and takes at most one frame per level above level 0. -/
theorem M3X86System.mapPageLoop_spec (sys : M3X86System) (hg : sys.Geometry)
    (v phys access : Nat) (hv : sys.Regular v) :
    ∀ (i k pt : Nat) (s : PtState), i + 1 + k = sys.LEVEL_CNT → sys.WF s →
      sys.tableAt s.mem v k = some pt → sys.translate s.mem v = none →
      ∃ s', sys.mapPageLoop v phys access (i + 1) pt s = some s' ∧ sys.WF s' ∧
        sys.leafEntry s'.mem v =
          some { base := sys.nocAddr ((sys.memOffset + phys) % WORD) >>> sys.PAGE_BITS,
                 ixwr := sys.toIxwr access } ∧
        (∀ u, sys.Regular u → ¬sys.SamePage u v →
          sys.translate s'.mem u = sys.translate s.mem u ∧
          (∀ e, sys.leafEntry s.mem u = some e → sys.leafEntry s'.mem u = some e)) ∧
        s.nextFrame ≤ s'.nextFrame ∧ s'.nextFrame ≤ s.nextFrame + i := by
  intro i
  induction i with
  | zero =>
    intro k pt s hk hwf ht hun
    have hk1 : sys.LEVEL_CNT - 1 = k := by omega
    have hready : sys.LeafReady s v pt := ⟨hg, hwf, hv, by rw [hk1]; exact ht⟩
    have hle : sys.leafEntry s.mem v = some (s.mem (sys.pteAddr pt v 0)) := by
      simp [M3X86System.leafEntry, M3X86System.leafSlot, hk1, ht]
    have hunset : (s.mem (sys.pteAddr pt v 0)).ixwr = 0 := by
      by_contra hne
      simp [M3X86System.translate, hle, hne] at hun
    obtain ⟨l1, l2⟩ := hready.leaf_leafWrite
      { base := sys.nocAddr ((sys.memOffset + phys) % WORD) >>> sys.PAGE_BITS,
        ixwr := sys.toIxwr access }
    refine ⟨sys.leafWrite s v pt
      { base := sys.nocAddr ((sys.memOffset + phys) % WORD) >>> sys.PAGE_BITS,
        ixwr := sys.toIxwr access }, ?_, hready.wf_leafWrite _, l1, ?_, le_refl _, le_refl _⟩
    · rw [sys.mapPageLoop_succ]
      simp only [hunset, or_true, not_true_eq_false, if_false, if_true, gt_iff_lt,
        Nat.lt_irrefl, M3X86System.mapPageLoop, M3X86System.leafWrite]
    · intro u hu hne
      have := l2 u hu hne
      exact ⟨by simp only [M3X86System.translate, this], by intro e he; rw [this]; exact he⟩
  | succ i ih =>
    intro k pt s hk hwf ht hun
    have hlev : sys.LEVEL_CNT - 1 - k = i + 1 := by omega
    rw [sys.mapPageLoop_succ]
    have hassert : ¬¬(i + 1 > 0 ∨ (s.mem (sys.pteAddr pt v (i + 1))).ixwr = 0) := by
      simp
    rw [if_neg hassert]
    by_cases hunset : (s.mem (sys.pteAddr pt v (i + 1))).ixwr = 0
    · rw [if_pos hunset]
      have hlink : sys.FreshLink s v k pt :=
        ⟨hg, hwf, hv, by omega, ht, by rw [hlev]; exact hunset⟩
      have hal := hg.frameAligned s.nextFrame
      simp only [M3X86System.frameAddr] at hal
      have hpt := shiftRight_shiftLeft_of_aligned _ _ hal
      obtain ⟨n1, _, _⟩ := hlink.tableAt_new v hv (sys.SamePrefix_refl v _)
      obtain ⟨s', r1, r2, r3, r4, r5, r6⟩ := ih (k + 1) (sys.frameAddr s.nextFrame)
        (sys.linkFresh s v k pt) (by omega) hlink.wf_linkFresh n1
        (by rw [(hlink.leaf_linkFresh v hv).1]; exact hun)
      refine ⟨s', ?_, r2, r3, ?_, ?_, ?_⟩
      · rw [← r1]
        simp only [M3X86System.linkFresh, M3X86System.frameAddr, hlev, Nat.succ_ne_zero,
          if_false, gt_iff_lt, Nat.zero_lt_succ, if_true, hpt]
      · intro u hu hne
        obtain ⟨a1, a2⟩ := r4 u hu hne
        obtain ⟨b1, b2⟩ := hlink.leaf_linkFresh u hu
        exact ⟨a1.trans b1, fun e he => a2 e (b2 e he)⟩
      · have : (sys.linkFresh s v k pt).nextFrame = s.nextFrame + 1 := rfl
        omega
      · have : (sys.linkFresh s v k pt).nextFrame = s.nextFrame + 1 := rfl
        omega
    · rw [if_neg hunset]
      have hnext : sys.tableAt s.mem v (k + 1) =
          some ((s.mem (sys.pteAddr pt v (i + 1))).base <<< sys.PAGE_BITS) := by
        rw [sys.tableAt_succ, ht]
        simp only [hlev]
        rw [if_neg hunset]
      obtain ⟨s', r1, r2, r3, r4, r5, r6⟩ := ih (k + 1) _ s (by omega) hwf hnext hun
      exact ⟨s', r1, r2, r3, r4, r5, by omega⟩

/-- `mapPage` for an unmapped page outside the recursive window of a
well-formed address space. -/
theorem M3X86System.mapPage_spec (sys : M3X86System) (hg : sys.Geometry)
    (v phys access : Nat) (hv : sys.Regular v) (s : PtState) (hwf : sys.WF s)
    (hun : sys.translate s.mem v = none) :
    ∃ s', sys.mapPage v phys access s = some s' ∧ sys.WF s' ∧
      sys.leafEntry s'.mem v =
        some { base := sys.nocAddr ((sys.memOffset + phys) % WORD) >>> sys.PAGE_BITS,
               ixwr := sys.toIxwr access } ∧
      (∀ u, sys.Regular u → ¬sys.SamePage u v →
        sys.translate s'.mem u = sys.translate s.mem u ∧
        (∀ e, sys.leafEntry s.mem u = some e → sys.leafEntry s'.mem u = some e)) ∧
      s.nextFrame ≤ s'.nextFrame ∧ s'.nextFrame + 1 ≤ s.nextFrame + sys.LEVEL_CNT := by
  have hL := hg.levels
  obtain ⟨s', r1, r2, r3, r4, r5, r6⟩ := sys.mapPageLoop_spec hg v phys access hv
    (sys.LEVEL_CNT - 1) 0 sys.rootPt s (by omega) hwf rfl hun
  have e : sys.LEVEL_CNT - 1 + 1 = sys.LEVEL_CNT := by omega
  rw [e] at r1
  exact ⟨s', r1, r2, r3, r4, r5, by omega⟩

/-- `mapPage` for a mapped page fails its `assert` at level 0. -/
theorem M3X86System.mapPageLoop_mapped (sys : M3X86System) (v phys access : Nat) (s : PtState)
    (e : PageTableEntry) (hm : sys.translate s.mem v = some e) :
    ∀ (i k pt : Nat), i + 1 + k = sys.LEVEL_CNT → sys.tableAt s.mem v k = some pt →
      sys.mapPageLoop v phys access (i + 1) pt s = none := by
  intro i
  induction i with
  | zero =>
    intro k pt hk ht
    have hk1 : sys.LEVEL_CNT - 1 = k := by omega
    have hle : sys.leafEntry s.mem v = some (s.mem (sys.pteAddr pt v 0)) := by
      simp [M3X86System.leafEntry, M3X86System.leafSlot, hk1, ht]
    have hset : (s.mem (sys.pteAddr pt v 0)).ixwr ≠ 0 := by
      intro h0
      simp [M3X86System.translate, hle, h0] at hm
    rw [sys.mapPageLoop_succ]
    simp [hset]
  | succ i ih =>
    intro k pt hk ht
    have hlev : sys.LEVEL_CNT - 1 - k = i + 1 := by omega
    have hset : (s.mem (sys.pteAddr pt v (i + 1))).ixwr ≠ 0 := by
      intro h0
      have hnone : sys.tableAt s.mem v (k + 1) = none := by
        rw [sys.tableAt_succ, ht]
        simp only [hlev]
        rw [if_pos h0]
      have := sys.tableAt_none_le s.mem v (k + 1) (sys.LEVEL_CNT - 1) (by omega) hnone
      simp [M3X86System.translate, M3X86System.leafEntry, M3X86System.leafSlot, this] at hm
    rw [sys.mapPageLoop_succ]
    have hassert : ¬¬(i + 1 > 0 ∨ (s.mem (sys.pteAddr pt v (i + 1))).ixwr = 0) := by
      simp
    rw [if_neg hassert, if_neg hset]
    apply ih (k + 1) _ (by omega)
    rw [sys.tableAt_succ, ht]
    simp only [hlev]
    rw [if_neg hset]

theorem M3X86System.mapPage_mapped (sys : M3X86System) (hL : 1 ≤ sys.LEVEL_CNT)
    (v phys access : Nat) (s : PtState) (e : PageTableEntry)
    (hm : sys.translate s.mem v = some e) : sys.mapPage v phys access s = none := by
  have := sys.mapPageLoop_mapped v phys access s e hm (sys.LEVEL_CNT - 1) 0 sys.rootPt
    (by omega) rfl
  have e1 : sys.LEVEL_CNT - 1 + 1 = sys.LEVEL_CNT := by omega
  rw [e1] at this
  exact this

/-! ## Pages and their indices -/

theorem digits_eq (B : Nat) (hB : 0 < B) :
    ∀ (n a b : Nat), a < B ^ n → b < B ^ n →
      (∀ i, i < n → a / B ^ i % B = b / B ^ i % B) → a = b := by
  intro n
  induction n with
  | zero => intro a b ha hb _; simp at ha hb; omega
  | succ n ih =>
    intro a b ha hb h
    have h0 := h 0 (by omega)
    simp only [Nat.pow_zero, Nat.div_one] at h0
    have hq : a / B = b / B := by
      apply ih
      · rw [Nat.div_lt_iff_lt_mul hB]; rw [Nat.pow_succ] at ha; exact ha
      · rw [Nat.div_lt_iff_lt_mul hB]; rw [Nat.pow_succ] at hb; exact hb
      · intro i hi
        have := h (i + 1) (by omega)
        rw [Nat.pow_succ, Nat.mul_comm, ← Nat.div_div_eq_div_mul,
          ← Nat.div_div_eq_div_mul] at this
        exact this
    have ea := Nat.div_add_mod a B
    have eb := Nat.div_add_mod b B
    rw [hq, h0] at ea
    omega

/-- Addresses within the translated range that use the same indices at every
level have the same page number. -/
theorem M3X86System.SamePage.div_eq {sys : M3X86System} {u v : Nat} (h : sys.SamePage u v)
    (hu : u < 2 ^ (sys.PAGE_BITS + sys.LEVEL_CNT * sys.LEVEL_BITS))
    (hv : v < 2 ^ (sys.PAGE_BITS + sys.LEVEL_CNT * sys.LEVEL_BITS)) :
    u / 2 ^ sys.PAGE_BITS = v / 2 ^ sys.PAGE_BITS := by
  have hP : 0 < (2:Nat) ^ sys.PAGE_BITS := Nat.pos_pow_of_pos _ (by omega)
  have hB : 0 < (2:Nat) ^ sys.LEVEL_BITS := Nat.pos_pow_of_pos _ (by omega)
  apply digits_eq (2 ^ sys.LEVEL_BITS) hB sys.LEVEL_CNT
  · rw [Nat.div_lt_iff_lt_mul hP, ← Nat.pow_mul, ← Nat.pow_add,
      Nat.mul_comm sys.LEVEL_BITS, Nat.add_comm]
    exact hu
  · rw [Nat.div_lt_iff_lt_mul hP, ← Nat.pow_mul, ← Nat.pow_add,
      Nat.mul_comm sys.LEVEL_BITS, Nat.add_comm]
    exact hv
  · intro i hi
    have := h i hi
    rw [sys.levelIdx_eq, sys.levelIdx_eq, Nat.pow_add, ← Nat.div_div_eq_div_mul,
      ← Nat.div_div_eq_div_mul, Nat.mul_comm i, Nat.pow_mul] at this
    exact this

/-- Two of the pages `start`, `start + PAGE_SIZE`, ... within the translated
range are different pages. -/
theorem M3X86System.pages_distinct (sys : M3X86System) (start j k : Nat) (hjk : j < k)
    (hk : start + k * sys.PAGE_SIZE < 2 ^ (sys.PAGE_BITS + sys.LEVEL_CNT * sys.LEVEL_BITS)) :
    ¬sys.SamePage (start + j * sys.PAGE_SIZE) (start + k * sys.PAGE_SIZE) := by
  intro h
  have hP : 0 < (2:Nat) ^ sys.PAGE_BITS := Nat.pos_pow_of_pos _ (by omega)
  have hle : start + j * sys.PAGE_SIZE ≤ start + k * sys.PAGE_SIZE :=
    Nat.add_le_add_left (Nat.mul_le_mul_right _ (by omega)) _
  have := h.div_eq (by omega) hk
  rw [sys.PAGE_SIZE_eq, Nat.add_mul_div_right _ _ hP, Nat.add_mul_div_right _ _ hP] at this
  omega

theorem M3X86System.SamePage_symm (sys : M3X86System) (u v : Nat) (h : sys.SamePage u v) :
    sys.SamePage v u :=
  fun i hi => (h i hi).symm

/-- Addresses of the same page have the same walk and the same level-0
entry. -/
theorem M3X86System.SamePage.translate_eq {sys : M3X86System} {u v : Nat}
    (h : sys.SamePage u v) (hL : 1 ≤ sys.LEVEL_CNT) (mem : PtMem) :
    sys.leafEntry mem u = sys.leafEntry mem v ∧ sys.translate mem u = sys.translate mem v := by
  have e1 := sys.tableAt_congr mem u v (sys.LEVEL_CNT - 1) (h.samePrefix _ (by omega))
  have e2 : sys.leafEntry mem u = sys.leafEntry mem v := by
    simp only [M3X86System.leafEntry, M3X86System.leafSlot, e1]
    cases sys.tableAt mem v (sys.LEVEL_CNT - 1) with
    | none => rfl
    | some t =>
      simp only [Option.map_some']
      rw [sys.pteAddr_congr t u v 0 (h 0 (by omega))]
  exact ⟨e2, by simp only [M3X86System.translate, e2]⟩

theorem divCeil_pred_lt (size p : Nat) (hp : 0 < p) (h : 0 < divCeil size p) :
    (divCeil size p - 1) * p < size := by
  unfold divCeil at h ⊢
  have h1 := Nat.div_add_mod (size + p - 1) p
  have h2 := Nat.mod_lt (size + p - 1) hp
  have h3 : ((size + p - 1) / p - 1) * p = p * ((size + p - 1) / p) - p := by
    rw [Nat.sub_mul, Nat.mul_comm]; simp
  have h4 : p ≤ p * ((size + p - 1) / p) := Nat.le_mul_of_pos_right _ h
  omega

/-! ## `mapSegment` on a well-formed address space -/

theorem M3X86System.mapSegmentLoop_spec (sys : M3X86System) (hg : sys.Geometry) (perm : Nat) :
    ∀ (n virt : Nat) (s : PtState), sys.WF s →
      (∀ k, k < n → sys.Regular (virt + k * sys.PAGE_SIZE)) →
      (∀ k, k < n → sys.translate s.mem (virt + k * sys.PAGE_SIZE) = none) →
      (n = 0 ∨ virt + (n - 1) * sys.PAGE_SIZE <
        2 ^ (sys.PAGE_BITS + sys.LEVEL_CNT * sys.LEVEL_BITS)) →
      ∃ s', sys.mapSegmentLoop perm n virt s = some s' ∧ sys.WF s' ∧
        (∀ k, k < n → sys.leafEntry s'.mem (virt + k * sys.PAGE_SIZE) =
          some { base := sys.nocAddr ((sys.memOffset + (virt + k * sys.PAGE_SIZE)) % WORD) >>>
                   sys.PAGE_BITS,
                 ixwr := sys.toIxwr perm }) ∧
        (∀ u, sys.Regular u → (∀ k, k < n → ¬sys.SamePage u (virt + k * sys.PAGE_SIZE)) →
          sys.translate s'.mem u = sys.translate s.mem u ∧
          (∀ e, sys.leafEntry s.mem u = some e → sys.leafEntry s'.mem u = some e)) ∧
        s.nextFrame ≤ s'.nextFrame ∧
        s'.nextFrame + n ≤ s.nextFrame + n * sys.LEVEL_CNT := by
  intro n
  induction n with
  | zero =>
    intro virt s hwf _ _ _
    exact ⟨s, rfl, hwf, by intro k hk; omega, fun u _ _ => ⟨rfl, fun e he => he⟩,
      le_refl _, by omega⟩
  | succ n ih =>
    intro virt s hwf hreg hun hrange
    have hP : 0 < sys.PAGE_SIZE := by
      rw [sys.PAGE_SIZE_eq]; exact Nat.pos_pow_of_pos _ (by omega)
    have hW : (2:Nat) ^ (sys.PAGE_BITS + sys.LEVEL_CNT * sys.LEVEL_BITS) ≤ WORD :=
      Nat.pow_le_pow_right (by omega) hg.vaBits
    have hlast : virt + n * sys.PAGE_SIZE <
        2 ^ (sys.PAGE_BITS + sys.LEVEL_CNT * sys.LEVEL_BITS) := by
      rcases hrange with h | h
      · omega
      · simpa using h
    have h0r := hreg 0 (by omega)
    have h0u := hun 0 (by omega)
    simp only [Nat.zero_mul, Nat.add_zero] at h0r h0u
    obtain ⟨s1, p1, p2, p3, p4, p5, p6⟩ := sys.mapPage_spec hg virt virt perm h0r s hwf h0u
    -- the addresses of the remaining pages
    have hnext : ∀ k, k < n →
        (virt + sys.PAGE_SIZE) % WORD + k * sys.PAGE_SIZE = virt + (k + 1) * sys.PAGE_SIZE := by
      intro k hk
      have h1 : 1 * sys.PAGE_SIZE ≤ n * sys.PAGE_SIZE := Nat.mul_le_mul_right _ (by omega)
      rw [Nat.mod_eq_of_lt (by omega), Nat.add_mul]
      omega
    have hdist : ∀ k, k < n →
        ¬sys.SamePage (virt + (k + 1) * sys.PAGE_SIZE) virt := by
      intro k hk h
      have hle : (k + 1) * sys.PAGE_SIZE ≤ n * sys.PAGE_SIZE :=
        Nat.mul_le_mul_right _ (by omega)
      have := sys.pages_distinct virt 0 (k + 1) (by omega) (by omega)
      simp only [Nat.zero_mul, Nat.add_zero] at this
      exact this (sys.SamePage_symm _ _ h)
    obtain ⟨s', q1, q2, q3, q4, q5, q6⟩ := ih ((virt + sys.PAGE_SIZE) % WORD) s1 p2
      (by intro k hk; rw [hnext k hk]; exact hreg (k + 1) (by omega))
      (by
        intro k hk
        rw [hnext k hk, (p4 _ (hreg (k + 1) (by omega)) (hdist k hk)).1]
        exact hun (k + 1) (by omega))
      (by
        by_cases hn : n = 0
        · exact Or.inl hn
        · right
          have := hnext (n - 1) (by omega)
          rw [this]
          have e : n - 1 + 1 = n := by omega
          rw [e]; exact hlast)
    refine ⟨s', ?_, q2, ?_, ?_, by omega, ?_⟩
    · rw [M3X86System.mapSegmentLoop, p1]; exact q1
    · intro k hk
      cases k with
      | zero =>
        simp only [Nat.zero_mul, Nat.add_zero]
        apply (q4 virt h0r ?_).2 _ p3
        intro k hk h
        rw [hnext k hk] at h
        exact hdist k hk (sys.SamePage_symm _ _ h)
      | succ k =>
        have := q3 k (by omega)
        rw [hnext k (by omega)] at this
        exact this
    · intro u hu hne
      have h0 := hne 0 (by omega)
      simp only [Nat.zero_mul, Nat.add_zero] at h0
      obtain ⟨a1, a2⟩ := p4 u hu h0
      obtain ⟨b1, b2⟩ := q4 u hu (by
        intro k hk
        rw [hnext k hk]
        exact hne (k + 1) (by omega))
      exact ⟨b1.trans a1, fun e he => b2 e (a2 e he)⟩
    · rw [Nat.add_mul]
      omega

/-! ## The address space after `initRootPt` -/

theorem M3X86System.tableAt_initRootPt (sys : M3X86System) (hg : sys.Geometry) (s : PtState)
    (v : Nat) (hv : sys.Regular v) (k : Nat) (hk : 1 ≤ k) :
    sys.tableAt (sys.initRootPt s).mem v k = none := by
  apply sys.tableAt_none_le _ v 1 k hk
  rw [sys.tableAt_succ]
  simp only [M3X86System.tableAt, Nat.sub_zero, M3X86System.initRootPt]
  rw [writeEntry_other _ _ _ _ hv, memsetBlob_in _ _ _ _ (sys.pteAddr_range hg _ _ _)]
  simp

/-- Clearing the root table and installing the recursive entry gives a
well-formed address space. -/
theorem M3X86System.wf_initRootPt (sys : M3X86System) (hg : sys.Geometry) (s : PtState)
    (hroot : ∀ f, s.nextFrame ≤ f → sys.frameAddr f ≠ sys.rootPt) :
    sys.WF (sys.initRootPt s) ∧
    (∀ v, sys.Regular v → sys.translate (sys.initRootPt s).mem v = none) := by
  have hL := hg.levels
  refine ⟨⟨hroot, ?_, ?_⟩, ?_⟩
  · intro v w k j t hv hw hk hj h1 h2
    cases k with
    | zero =>
      cases j with
      | zero => exact ⟨rfl, fun m hm => by omega⟩
      | succ j => rw [sys.tableAt_initRootPt hg s w hw (j + 1) (by omega)] at h2; cases h2
    | succ k => rw [sys.tableAt_initRootPt hg s v hv (k + 1) (by omega)] at h1; cases h1
  · intro v k t hv h1 hk h
    rw [sys.tableAt_initRootPt hg s v hv k h1] at h; cases h
  · intro v hv
    by_cases e : sys.LEVEL_CNT - 1 = 0
    · have hle : sys.leafEntry (sys.initRootPt s).mem v = some { base := 0, ixwr := 0 } := by
        have e1 : sys.pteAddr sys.rootPt v 0 ≠ sys.recSlot := by
          have := hv; unfold M3X86System.Regular at this; rw [e] at this; exact this
        simp only [M3X86System.leafEntry, M3X86System.leafSlot, e, M3X86System.tableAt,
          Option.map_some', M3X86System.initRootPt]
        rw [writeEntry_other _ _ _ _ e1, memsetBlob_in _ _ _ _ (sys.pteAddr_range hg _ _ _)]
      simp [M3X86System.translate, hle]
    · apply sys.translate_of_leafEntry_none
      simp [M3X86System.leafEntry, M3X86System.leafSlot,
        sys.tableAt_initRootPt hg s v hv (sys.LEVEL_CNT - 1) (by omega)]

theorem exampleSys_geometry : exampleSys.Geometry := by
  refine ⟨by decide, by decide, by decide, by decide, ?_, ?_, by decide⟩
  · intro f
    simp only [M3X86System.frameAddr, exampleSys, Nat.shiftLeft_eq]
    omega
  · intro f g h
    simp only [M3X86System.frameAddr, exampleSys, Nat.shiftLeft_eq] at h
    omega

theorem exampleSys_rootFresh (n : Nat) (hn : 1 ≤ n) :
    ∀ f, n ≤ f → exampleSys.frameAddr f ≠ exampleSys.rootPt := by
  intro f hf
  simp only [M3X86System.frameAddr, exampleSys, Nat.shiftLeft_eq]
  omega

/-! ## Claims C6 and C7 -/

/-- C6 (the code at the failing input): on the example system the page
`0x200000` is mapped with flags 5 and gets its level-0 entry with these flags,
which takes one frame for the level-0 table; mapping the page again with flags
3 does not complete, the `assert` of level 0 fails. -/
theorem remap_trips_assertion :
    (exampleSys.mapPage 0x200000 0x200000 5
      (exampleSys.initRootPt (exampleSys.initial (fun _ => { base := 0, ixwr := 0 })))).map
      (fun s => (exampleSys.translate s.mem 0x200000, s.nextFrame)) =
      some (some { base := 0x8000000000200, ixwr := 5 }, 17) ∧
    ((exampleSys.mapPage 0x200000 0x200000 5
      (exampleSys.initRootPt (exampleSys.initial (fun _ => { base := 0, ixwr := 0 })))).bind
        (exampleSys.mapPage 0x200000 0x200000 3)).isSome = false := by
  decide

/-- The second call in general: in a well-formed address space, for an unmapped
page outside the recursive window and flags `a1` that set the field `ixwr`,
`mapPage` completes and writes the level-0 entry with flags `a1`; after it
every further `mapPage` for an address of that page, with any flags, fails the
`assert` of level 0. -/
theorem remap_is_rejected (sys : M3X86System) (hg : sys.Geometry) (s : PtState)
    (hwf : sys.WF s) (v phys a1 : Nat) (hv : sys.Regular v)
    (hun : sys.translate s.mem v = none) (ha1 : sys.toIxwr a1 ≠ 0) :
    ∃ s1, sys.mapPage v phys a1 s = some s1 ∧
      sys.leafEntry s1.mem v =
        some { base := sys.nocAddr ((sys.memOffset + phys) % WORD) >>> sys.PAGE_BITS,
               ixwr := sys.toIxwr a1 } ∧
      (∀ w phys2 a2, sys.SamePage w v → sys.mapPage w phys2 a2 s1 = none) := by
  obtain ⟨s1, p1, _, p3, _, _, _⟩ := sys.mapPage_spec hg v phys a1 hv s hwf hun
  refine ⟨s1, p1, p3, ?_⟩
  intro w phys2 a2 hw
  have ht : sys.translate s1.mem v =
      some { base := sys.nocAddr ((sys.memOffset + phys) % WORD) >>> sys.PAGE_BITS,
             ixwr := sys.toIxwr a1 } := by
    simp [M3X86System.translate, p3, ha1]
  rw [← (hw.translate_eq hg.levels s1.mem).2] at ht
  exact sys.mapPage_mapped hg.levels w phys2 a2 s1 _ ht

/-- The second call on the example system, for the page `0x200000` and the
flags 5. -/
theorem remap_is_rejected_witness :
    ∃ s1, exampleSys.mapPage 0x200000 0x200000 5
        (exampleSys.initRootPt (exampleSys.initial (fun _ => { base := 0, ixwr := 0 }))) =
          some s1 ∧
      exampleSys.leafEntry s1.mem 0x200000 =
        some { base := exampleSys.nocAddr ((exampleSys.memOffset + 0x200000) % WORD) >>>
                 exampleSys.PAGE_BITS,
               ixwr := exampleSys.toIxwr 5 } ∧
      (∀ w phys2 a2, exampleSys.SamePage w 0x200000 →
        exampleSys.mapPage w phys2 a2 s1 = none) :=
  remap_is_rejected exampleSys exampleSys_geometry _
    (exampleSys.wf_initRootPt exampleSys_geometry _ (exampleSys_rootFresh _ (by decide))).1
    0x200000 0x200000 5 (by unfold M3X86System.Regular; decide)
    ((exampleSys.wf_initRootPt exampleSys_geometry _
      (exampleSys_rootFresh _ (by decide))).2 _ (by unfold M3X86System.Regular; decide))
    (by decide)

/-- In a build with `NDEBUG`, `mapPage` for a mapped page changes nothing: every
entry on the path is set, the one of level 0 included, and is skipped. -/
theorem M3X86System.mapPageLoopNdebug_mapped (sys : M3X86System) (v phys access : Nat)
    (s : PtState) (e : PageTableEntry) (hm : sys.translate s.mem v = some e) :
    ∀ (i k pt : Nat), i + 1 + k = sys.LEVEL_CNT → sys.tableAt s.mem v k = some pt →
      sys.mapPageLoopNdebug v phys access (i + 1) pt s = s := by
  intro i
  induction i with
  | zero =>
    intro k pt hk ht
    have hk1 : sys.LEVEL_CNT - 1 = k := by omega
    have hle : sys.leafEntry s.mem v = some (s.mem (sys.pteAddr pt v 0)) := by
      simp [M3X86System.leafEntry, M3X86System.leafSlot, hk1, ht]
    have hset : (s.mem (sys.pteAddr pt v 0)).ixwr ≠ 0 := by
      intro h0
      simp [M3X86System.translate, hle, h0] at hm
    rw [M3X86System.mapPageLoopNdebug]
    simp only [if_neg hset, M3X86System.mapPageLoopNdebug]
  | succ i ih =>
    intro k pt hk ht
    have hlev : sys.LEVEL_CNT - 1 - k = i + 1 := by omega
    have hset : (s.mem (sys.pteAddr pt v (i + 1))).ixwr ≠ 0 := by
      intro h0
      have hnone : sys.tableAt s.mem v (k + 1) = none := by
        rw [sys.tableAt_succ, ht]
        simp only [hlev]
        rw [if_pos h0]
      have := sys.tableAt_none_le s.mem v (k + 1) (sys.LEVEL_CNT - 1) (by omega) hnone
      simp [M3X86System.translate, M3X86System.leafEntry, M3X86System.leafSlot, this] at hm
    rw [M3X86System.mapPageLoopNdebug]
    simp only [if_neg hset]
    apply ih (k + 1) _ (by omega)
    rw [sys.tableAt_succ, ht]
    simp only [hlev]
    rw [if_neg hset]

/-- With the `assert` compiled out, mapping a mapped page again, with any
frame and any flags, leaves the page tables and the frame counter as they are. -/
theorem M3X86System.mapPageNdebug_mapped (sys : M3X86System) (hL : 1 ≤ sys.LEVEL_CNT)
    (v phys access : Nat) (s : PtState) (e : PageTableEntry)
    (hm : sys.translate s.mem v = some e) : sys.mapPageNdebug v phys access s = s := by
  have := sys.mapPageLoopNdebug_mapped v phys access s e hm (sys.LEVEL_CNT - 1) 0 sys.rootPt
    (by omega) rfl
  have e1 : sys.LEVEL_CNT - 1 + 1 = sys.LEVEL_CNT := by omega
  rw [e1] at this
  exact this

/-- Where the `assert` holds, the build with `NDEBUG` does what `mapPage` does. -/
theorem M3X86System.mapPageLoopNdebug_eq (sys : M3X86System) (v phys access : Nat) :
    ∀ (n pt : Nat) (s s' : PtState), sys.mapPageLoop v phys access n pt s = some s' →
      sys.mapPageLoopNdebug v phys access n pt s = s' := by
  intro n
  induction n with
  | zero =>
    intro pt s s' h
    simp only [M3X86System.mapPageLoop, Option.some.injEq] at h
    rw [M3X86System.mapPageLoopNdebug]
    exact h
  | succ i ih =>
    intro pt s s' h
    rw [M3X86System.mapPageLoop_succ] at h
    rw [M3X86System.mapPageLoopNdebug]
    by_cases hassert : ¬(i > 0 ∨ (s.mem (sys.pteAddr pt v i)).ixwr = 0)
    · rw [if_pos hassert] at h; cases h
    · rw [if_neg hassert] at h
      by_cases hunset : (s.mem (sys.pteAddr pt v i)).ixwr = 0
      · rw [if_pos hunset] at h
        simp only [if_pos hunset]
        exact ih _ _ s' h
      · rw [if_neg hunset] at h
        simp only [if_neg hunset]
        exact ih _ s s' h

/-- The application PE of the example: `mapMemory` maps the text at `0x2000`,
the data and the bss, and the pages `0` and `0x1000` of the memory can be
mapped behind them; the mapping of the whole memory `[0, 0x8000)` that ends
`mapMemory` for an application PE then comes to the page of the text, which is
mapped, and the `assert` of `mapPage` fails. -/
theorem mapMemory_remaps_text :
    exampleApp.modOffset = 0 ∧
    (runOps exampleApp
      [.segment 0x2000 0x1000 13, .segment 0x3000 0x10 11, .segment 0x4000 0x100 11,
       .segment 0 0x2000 15]
      (exampleApp.initRootPt (exampleApp.initial (fun _ => { base := 0, ixwr := 0 })))).map
      (fun s => (exampleApp.translate s.mem 0x2000, exampleApp.translate s.mem 0x1000)) =
      some (some { base := 0x8000000000002, ixwr := 13 },
        some { base := 0x8000000000001, ixwr := 15 }) ∧
    (exampleApp.mapMemory (exampleApp.initial (fun _ => { base := 0, ixwr := 0 }))).isSome =
      false := by
  decide

theorem strncmp_dashes (tok rest : List Char) (c : Char) (h0 : tok ≠ [])
    (hc : isspace c = true) :
    strncmpEq (tok ++ c :: rest) "--".toList 2 = startsDashes tok := by
  have hd : c ≠ '-' := by
    intro h; rw [h] at hc; exact absurd hc (by decide)
  cases tok with
  | nil => exact absurd rfl h0
  | cons a t =>
    cases t with
    | nil =>
      simp [strncmpEq, startsDashes, List.isPrefixOf, hd]
    | cons b t =>
      simp only [List.cons_append, strncmpEq, startsDashes, String.toList, List.isPrefixOf,
        Bool.and_true]
      have e1 : ('-' == a) = (a == '-') := BEq.comm
      have e2 : ('-' == b) = (b == '-') := BEq.comm
      rw [e1, e2]

theorem DashFree_nil : DashFree ([], []) := by
  unfold DashFree
  exact ⟨by decide, by simp [words_nil]⟩

theorem DashFree_append (p a tok : List Char) (h0 : tok ≠ [])
    (h : ∀ c ∈ tok, isspace c = false) (hd : startsDashes tok = false)
    (hst : DashFree (p, a)) :
    DashFree (p, (if a ≠ [] then a ++ [' '] else a) ++ tok) := by
  refine ⟨hst.1, ?_⟩
  intro w hw
  simp only at hw
  by_cases ha : a = []
  · simp only [ha, ne_eq, not_true_eq_false, if_false, List.nil_append] at hw
    rw [words_single tok h0 h] at hw
    simp only [List.mem_singleton] at hw
    rw [hw]; exact hd
  · simp only [ne_eq, ha, not_false_eq_true, if_true, List.append_assoc,
      List.singleton_append] at hw
    rw [words_append_sep, words_single tok h0 h, List.mem_append] at hw
    rcases hw with hw | hw
    · exact hst.2 w hw
    · simp only [List.mem_singleton] at hw
      rw [hw]; exact hd

theorem DashFree_push (mods : List (List Char × List Char)) (p a : List Char)
    (h1 : DashFree (p, a)) (h2 : ∀ md ∈ mods, DashFree md) :
    ∀ md ∈ mods ++ [(p, a)], DashFree md := by
  intro md hmd
  rcases List.mem_append.mp hmd with h | h
  · exact h2 md h
  · simp only [List.mem_singleton] at h
    rw [h]; exact h1

theorem M3Loader.appendArg_nodashes (st : M3Loader.ParseState) (tok : List Char)
    (h0 : tok ≠ []) (h : ∀ c ∈ tok, isspace c = false) (hd : startsDashes tok = false)
    (hst : M3Loader.NoDashes st) : M3Loader.NoDashes (M3Loader.appendArg st tok) := by
  unfold M3Loader.appendArg
  by_cases hk : M3Loader.isKernelArg tok = true
  · simp only [hk, Bool.not_true, Bool.false_eq_true, if_false]
    exact hst
  · have hk' : M3Loader.isKernelArg tok = false := by simpa using hk
    simp only [hk', Bool.not_false, if_true]
    exact ⟨DashFree_append st.prog st.argstr tok h0 h hd hst.1, hst.2⟩

theorem M3Loader.parseToken_nodashes (m : Nat) (tok rest : List Char) (c : Char)
    (st : M3Loader.ParseState) (h0 : tok ≠ []) (h : ∀ x ∈ tok, isspace x = false)
    (hc : isspace c = true) (hst : M3Loader.NoDashes st) :
    M3Loader.NoDashes (M3Loader.parseToken m (tok ++ c :: rest) tok st) := by
  unfold M3Loader.parseToken
  rw [strncmp_dashes tok rest c h0 hc]
  split_ifs with h1 h2 h3 h4 h5 h6
  · exact hst
  · exact hst
  · exact hst
  · exact ⟨DashFree_nil, DashFree_push st.mods st.prog st.argstr hst.1 hst.2⟩
  · exact ⟨⟨by simpa using h5, hst.1.2⟩, hst.2⟩
  · exact M3Loader.appendArg_nodashes st tok h0 h (by simpa using h5) hst
  · exact hst

theorem M3Loader.parseLast_nodashes (argv : Nat) (tok : List Char) (st : M3Loader.ParseState)
    (h : ∀ c ∈ tok, isspace c = false) (hd : startsDashes tok = false)
    (hst : M3Loader.NoDashes st) : M3Loader.NoDashes (M3Loader.parseLast argv tok st) := by
  unfold M3Loader.parseLast
  by_cases h0 : tok = []
  · simp only [h0, ne_eq, not_true_eq_false, if_false]; exact hst
  · simp only [ne_eq, h0, not_false_eq_true, if_true]
    show M3Loader.NoDashes _
    by_cases hp : st.prog = []
    · simp only [hp, if_true]
      have h1 : DashFree (tok, st.argstr) := ⟨hd, hst.1.2⟩
      exact ⟨h1, DashFree_push st.mods tok st.argstr h1 hst.2⟩
    · simp only [hp, if_false]
      have := M3Loader.appendArg_nodashes st tok h0 h hd hst
      exact ⟨this.1, DashFree_push _ _ _ this.1 this.2⟩

theorem M3Loader.parseLoop_nodashes (m argv : Nat) (cmd : List Char) :
    ∀ (tok : List Char) (st : M3Loader.ParseState), (∀ c ∈ tok, isspace c = false) →
      M3Loader.NoDashes st →
      M3Loader.NoDashes (M3Loader.parseLoop m argv cmd tok st).1 ∧
      (∀ c ∈ (M3Loader.parseLoop m argv cmd tok st).2, isspace c = false) := by
  induction cmd with
  | nil => intro tok st h hst; exact ⟨hst, h⟩
  | cons c cmd ih =>
    intro tok st h hst
    rw [M3Loader.parseLoop]
    by_cases hc : isspace c = true
    · simp only [hc, if_true]
      by_cases h0 : tok = []
      · simp only [h0, ne_eq, not_true_eq_false, if_false]
        exact ih [] st (by simp) hst
      · simp only [ne_eq, h0, not_false_eq_true, if_true]
        exact ih [] _ (by simp) (M3Loader.parseToken_nodashes m tok cmd c st h0 h hc hst)
    · simp only [hc, if_false, Bool.false_eq_true]
      apply ih (tok ++ [c]) st _ hst
      intro d hd
      rcases List.mem_append.mp hd with hd | hd
      · exact h d hd
      · simp only [List.mem_singleton] at hd
        rw [hd]; simpa using hc

theorem M3X86System.parseToken_nodashes86 (m : Nat) (tok rest : List Char) (c : Char)
    (st : M3X86System.ParseState) (h0 : tok ≠ []) (h : ∀ x ∈ tok, isspace x = false)
    (hc : isspace c = true) (hst : M3X86System.NoDashes st) :
    M3X86System.NoDashes (M3X86System.parseToken m (tok ++ c :: rest) tok st) := by
  unfold M3X86System.parseToken
  rw [strncmp_dashes tok rest c h0 hc]
  split_ifs with h1 h2 h3 h4
  · exact hst
  · exact ⟨DashFree_nil, DashFree_push st.mods st.prog st.argstr hst.1 hst.2⟩
  · exact ⟨⟨by simpa using h3, hst.1.2⟩, hst.2⟩
  · exact ⟨DashFree_append st.prog st.argstr tok h0 h (by simpa using h3) hst.1, hst.2⟩
  · exact hst

theorem M3X86System.parseLast_nodashes86 (argv : Nat) (tok : List Char)
    (st : M3X86System.ParseState) (h : ∀ c ∈ tok, isspace c = false)
    (hd : startsDashes tok = false) (hst : M3X86System.NoDashes st) :
    M3X86System.NoDashes (M3X86System.parseLast argv tok st) := by
  unfold M3X86System.parseLast
  by_cases h0 : tok = []
  · simp only [h0, ne_eq, not_true_eq_false, if_false]; exact hst
  · simp only [ne_eq, h0, not_false_eq_true, if_true]
    show M3X86System.NoDashes _
    by_cases hp : st.prog = []
    · simp only [hp, if_true]
      have h1 : DashFree (tok, st.argstr) := ⟨hd, hst.1.2⟩
      exact ⟨h1, DashFree_push st.mods tok st.argstr h1 hst.2⟩
    · simp only [hp, if_false]
      have h1 := DashFree_append st.prog st.argstr tok h0 h hd hst.1
      exact ⟨h1, DashFree_push _ _ _ h1 hst.2⟩

theorem M3X86System.parseLoop_nodashes86 (m argv : Nat) (cmd : List Char) :
    ∀ (tok : List Char) (st : M3X86System.ParseState), (∀ c ∈ tok, isspace c = false) →
      M3X86System.NoDashes st →
      M3X86System.NoDashes (M3X86System.parseLoop m argv cmd tok st).1 ∧
      (∀ c ∈ (M3X86System.parseLoop m argv cmd tok st).2, isspace c = false) := by
  induction cmd with
  | nil => intro tok st h hst; exact ⟨hst, h⟩
  | cons c cmd ih =>
    intro tok st h hst
    rw [M3X86System.parseLoop]
    by_cases hc : isspace c = true
    · simp only [hc, if_true]
      by_cases h0 : tok = []
      · simp only [h0, ne_eq, not_true_eq_false, if_false]
        exact ih [] st (by simp) hst
      · simp only [ne_eq, h0, not_false_eq_true, if_true]
        exact ih [] _ (by simp) (M3X86System.parseToken_nodashes86 m tok cmd c st h0 h hc hst)
    · simp only [hc, if_false, Bool.false_eq_true]
      apply ih (tok ++ [c]) st _ hst
      intro d hd
      rcases List.mem_append.mp hd with hd | hd
      · exact h d hd
      · simp only [List.mem_singleton] at hd
        rw [hd]; simpa using hc

theorem M3Loader.parseToken_delimits (m : Nat) (tok rest : List Char) (c : Char)
    (st : M3Loader.ParseState) (hm : m ≠ 0) (hi : st.i ≠ 0) (h0 : tok ≠ [])
    (hc : isspace c = true) :
    ((M3Loader.parseToken m (tok ++ c :: rest) tok st).mods ≠ st.mods ∨
      (M3Loader.parseToken m (tok ++ c :: rest) tok st).seen_dashes ≠ st.seen_dashes) ↔
    startsDashes tok = true := by
  unfold M3Loader.parseToken
  rw [strncmp_dashes tok rest c h0 hc]
  unfold M3Loader.appendArg
  by_cases hs : st.seen_dashes = true <;> by_cases hd : startsDashes tok = true <;>
    by_cases hp : st.prog = [] <;> by_cases hk : M3Loader.isKernelArg tok = true <;>
    simp [hm, hi, hs, hd, hp, hk]

theorem M3X86System.parseToken_delimits86 (m : Nat) (tok rest : List Char) (c : Char)
    (st : M3X86System.ParseState) (hm : m ≠ 0) (hi : st.i ≠ 0) (h0 : tok ≠ [])
    (hc : isspace c = true) :
    (M3X86System.parseToken m (tok ++ c :: rest) tok st).mods ≠ st.mods ↔
    startsDashes tok = true := by
  unfold M3X86System.parseToken
  rw [strncmp_dashes tok rest c h0 hc]
  unfold M3X86System.appendArg
  by_cases hd : startsDashes tok = true <;> by_cases hp : st.prog = [] <;>
    simp [hm, hi, hd, hp]

theorem M3Loader.parseLoop_pending (m argv : Nat) (cmd : List Char) :
    ∀ (tok : List Char) (st : M3Loader.ParseState),
      (M3Loader.parseLoop m argv cmd tok st).2 = pending tok cmd := by
  induction cmd with
  | nil => intro tok st; rfl
  | cons c cmd ih =>
    intro tok st
    rw [M3Loader.parseLoop, pending]
    by_cases hc : isspace c = true
    · simp only [hc, if_true]
      by_cases h0 : tok = []
      · simp only [h0, ne_eq, not_true_eq_false, if_false]
        exact ih [] st
      · simp only [ne_eq, h0, not_false_eq_true, if_true]
        exact ih [] _
    · simp only [hc, if_false, Bool.false_eq_true]
      exact ih (tok ++ [c]) st

theorem M3X86System.parseLoop_pending86 (m argv : Nat) (cmd : List Char) :
    ∀ (tok : List Char) (st : M3X86System.ParseState),
      (M3X86System.parseLoop m argv cmd tok st).2 = pending tok cmd := by
  induction cmd with
  | nil => intro tok st; rfl
  | cons c cmd ih =>
    intro tok st
    rw [M3X86System.parseLoop, pending]
    by_cases hc : isspace c = true
    · simp only [hc, if_true]
      by_cases h0 : tok = []
      · simp only [h0, ne_eq, not_true_eq_false, if_false]
        exact ih [] st
      · simp only [ne_eq, h0, not_false_eq_true, if_true]
        exact ih [] _
    · simp only [hc, if_false, Bool.false_eq_true]
      exact ih (tok ++ [c]) st

theorem M3Loader.moduleList_dashfree (modOffset argv : Nat) (mem : Mem) (cmd : List Char)
    (hlast : startsDashes (pending [] (c_str cmd)) = false) :
    ∀ md ∈ M3Loader.moduleList modOffset argv mem cmd, DashFree md := by
  intro md hmd
  have h := M3Loader.parseLoop_nodashes modOffset argv (c_str cmd) []
    { kernelPath := [], prog := [], argstr := [], mods := [], seen_dashes := false,
      i := 0, args := (argv + 8 * M3Loader.getArgc cmd) % WORD, mem := mem } (by simp)
    ⟨DashFree_nil, by simp⟩
  rw [← M3Loader.parseLoop_pending modOffset argv (c_str cmd) []
    { kernelPath := [], prog := [], argstr := [], mods := [], seen_dashes := false,
      i := 0, args := (argv + 8 * M3Loader.getArgc cmd) % WORD, mem := mem }] at hlast
  have h2 := M3Loader.parseLast_nodashes argv _ _ h.2 hlast h.1
  rcases List.mem_append.mp hmd with h3 | h3
  · exact h2.2 md h3
  · simp only [List.mem_singleton] at h3
    rw [h3]
    exact ⟨by decide, by simp [words_nil]⟩

theorem M3X86System.moduleList_dashfree86 (modOffset argv : Nat) (mem : Mem) (cmd : List Char)
    (hlast : startsDashes (pending [] (c_str cmd)) = false) :
    ∀ l, M3X86System.moduleList modOffset argv mem cmd = some l → ∀ md ∈ l, DashFree md := by
  intro l hl md hmd
  have h := M3X86System.parseLoop_nodashes86 modOffset argv (c_str cmd) []
    { kernelPath := [], prog := [], argstr := [], mods := [],
      i := 0, args := (argv + 8 * M3X86System.getArgc cmd) % WORD, mem := mem } (by simp)
    ⟨DashFree_nil, by simp⟩
  rw [← M3X86System.parseLoop_pending86 modOffset argv (c_str cmd) []
    { kernelPath := [], prog := [], argstr := [], mods := [],
      i := 0, args := (argv + 8 * M3X86System.getArgc cmd) % WORD, mem := mem }] at hlast
  have h2 := M3X86System.parseLast_nodashes86 argv _ _ h.2 hlast h.1
  unfold M3X86System.moduleList at hl
  split_ifs at hl
  simp only [Option.some.injEq] at hl
  rw [← hl] at hmd
  rcases List.mem_append.mp hmd with h3 | h3
  · exact h2.2 md h3
  · simp only [List.mem_singleton] at h3
    rw [h3]
    exact ⟨by decide, by simp [words_nil]⟩

/-- C15 (as stated, refuted): with `modOffset` set, the token `--x` closes the
group of `a` in both parsers and is no argument of `a`; and a token `--` that
ends the command line becomes an argument of `a`. -/
theorem dashed_token_counterexample :
    M3Loader.moduleList 1 0 (fun _ => 0) "k -- a --x b".toList =
      [("a".toList, []), ("b".toList, []), ("rctmux".toList, [])] ∧
    M3Loader.moduleList 1 0 (fun _ => 0) "k -- a --x b".toList ≠
      [("a".toList, "--x b".toList), ("rctmux".toList, [])] ∧
    M3X86System.moduleList 1 0 (fun _ => 0) "k a --x b".toList =
      some [("a".toList, []), ("b".toList, []), ("idle".toList, [])] ∧
    M3Loader.moduleList 1 0 (fun _ => 0) "k -- a --".toList =
      [("a".toList, "--".toList), ("rctmux".toList, [])] ∧
    M3X86System.moduleList 1 0 (fun _ => 0) "k a --".toList =
      some [("a".toList, "--".toList), ("idle".toList, [])] := by
  decide

/-- C15 (amended): with `modOffset` set, a token after the first that is
followed by a whitespace character changes the grouping if and only if it
begins with `--`: in `M3Loader` it records the group under construction or, the
first time, switches grouping on; in `M3X86System` it records the group under
construction. No such token becomes a program or a word of an argument string:
when the loop ends, neither the group under construction nor a recorded module
holds a token that begins with `--`, and for every command line whose text
behind the last whitespace character does not begin with `--` the same holds
for the parsed module list. -/
theorem dashes_delimit (modOffset argv : Nat) (hm : modOffset ≠ 0) :
    (∀ (st : M3Loader.ParseState) (tok rest : List Char) (c : Char),
      st.i ≠ 0 → tok ≠ [] → isspace c = true →
      (((M3Loader.parseToken modOffset (tok ++ c :: rest) tok st).mods ≠ st.mods ∨
        (M3Loader.parseToken modOffset (tok ++ c :: rest) tok st).seen_dashes ≠
          st.seen_dashes) ↔ startsDashes tok = true)) ∧
    (∀ (st : M3X86System.ParseState) (tok rest : List Char) (c : Char),
      st.i ≠ 0 → tok ≠ [] → isspace c = true →
      ((M3X86System.parseToken modOffset (tok ++ c :: rest) tok st).mods ≠ st.mods ↔
        startsDashes tok = true)) ∧
    (∀ (args : Nat) (mem : Mem) (cmd : List Char),
      M3Loader.NoDashes (M3Loader.parseLoop modOffset argv (c_str cmd) []
        { kernelPath := [], prog := [], argstr := [], mods := [], seen_dashes := false,
          i := 0, args := args, mem := mem }).1 ∧
      M3X86System.NoDashes (M3X86System.parseLoop modOffset argv (c_str cmd) []
        { kernelPath := [], prog := [], argstr := [], mods := [],
          i := 0, args := args, mem := mem }).1) ∧
    (∀ (mem : Mem) (cmd : List Char), startsDashes (pending [] (c_str cmd)) = false →
      (∀ md ∈ M3Loader.moduleList modOffset argv mem cmd, DashFree md) ∧
      (∀ l, M3X86System.moduleList modOffset argv mem cmd = some l → ∀ md ∈ l, DashFree md)) :=
  ⟨fun st tok rest c hi h0 hc => M3Loader.parseToken_delimits modOffset tok rest c st hm hi h0 hc,
   fun st tok rest c hi h0 hc =>
     M3X86System.parseToken_delimits86 modOffset tok rest c st hm hi h0 hc,
   fun args mem cmd =>
     ⟨(M3Loader.parseLoop_nodashes modOffset argv (c_str cmd) [] _ (by simp)
        ⟨DashFree_nil, by simp⟩).1,
      (M3X86System.parseLoop_nodashes86 modOffset argv (c_str cmd) [] _ (by simp)
        ⟨DashFree_nil, by simp⟩).1⟩,
   fun mem cmd hl => ⟨M3Loader.moduleList_dashfree modOffset argv mem cmd hl,
     M3X86System.moduleList_dashfree86 modOffset argv mem cmd hl⟩⟩

/-- C15 (amended) at `modOffset = 4096`: on `k -- a --x b c` the parsed modules
`a`, `b c` and `rctmux` hold no token that begins with `--`. -/
theorem dashes_delimit_witness :
    startsDashes (pending [] (c_str "k -- a --x b c".toList)) = false ∧
    M3Loader.moduleList 4096 0 (fun _ => 0) "k -- a --x b c".toList =
      [("a".toList, []), ("b".toList, "c".toList), ("rctmux".toList, [])] ∧
    ∀ md ∈ M3Loader.moduleList 4096 0 (fun _ => 0) "k -- a --x b c".toList, DashFree md :=
  ⟨by decide, by decide,
   ((dashes_delimit 4096 0 (by decide)).2.2.2 (fun _ => 0) "k -- a --x b c".toList
     (by decide)).1⟩

/-- C20 (the code at the failing input): with `modOffset` set, `k -- a b` parses
to the modules `a b` and `rctmux`, but `k -- a b` followed by one space parses to
`rctmux` alone; in `M3X86System`, `k a b` gives the modules `a b` and `idle`,
and `k a b` followed by one space gives no module list at all. -/
theorem trailing_space_loses_group :
    M3Loader.moduleList 1 0 (fun _ => 0) "k -- a b".toList =
      [("a".toList, "b".toList), ("rctmux".toList, [])] ∧
    M3Loader.moduleList 1 0 (fun _ => 0) "k -- a b ".toList = [("rctmux".toList, [])] ∧
    M3X86System.moduleList 1 0 (fun _ => 0) "k a b".toList =
      some [("a".toList, "b".toList), ("idle".toList, [])] ∧
    M3X86System.moduleList 1 0 (fun _ => 0) "k a b ".toList = none := by
  decide
/-! ## The stages of `M3Loader::initState` -/

theorem M3Loader.initState_done (ld : M3Loader) (kernel : KernelImage) (dtumem : DTUMemory)
    (fs : FileSystem) (junk : Nat → Nat) (m : Machine) (d : InitDone)
    (h : ld.initState kernel dtumem fs junk m = .done d) :
    ¬(ld.commandLine.length + 1 > ld.spaceLeft) ∧ ¬(ld.pes.length > ld.MAX_PES) ∧
    ∃ pt1, (if ld.peDesc &&& 0x7 = 1 then ld.mapMemory kernel dtumem m.pt else some m.pt) =
        some pt1 ∧
      (ld.modOffset = 0 →
        d = { env := ld.env0, kenv := none, recs := [], cursor := 0,
              m := { phys := writeBlob
                       (M3Loader.cmdlinePass ld.modOffset ld.argvAddr m.phys ld.commandLine).mem
                       ld.RT_START (ld.envBytes ld.env0),
                     remote := m.remote, pt := pt1 } }) ∧
      (ld.modOffset ≠ 0 → ∃ ps,
        (M3Loader.moduleList ld.modOffset ld.argvAddr m.phys ld.commandLine).length ≤
          ld.consts.MAX_MODS ∧
        packLoop ld.consts fs
          (M3Loader.cmdlinePass ld.modOffset ld.argvAddr m.phys ld.commandLine).kernelPath junk
          (M3Loader.moduleList ld.modOffset ld.argvAddr m.phys ld.commandLine)
          { mem := m.remote, addr := dtumem.nocAddr ld.modOffset, recs := [] } = some ps ∧
        (ps.addr + ld.sizeofKernelEnv) % WORD ≤
          dtumem.nocAddr ((ld.modOffset + ld.modSize) % WORD) ∧
        d = { env := { ld.env0 with pe := ld.kenvPes.getD ld.coreId 0, kenv := ps.addr },
              kenv := some (ld.kenvOf junk ps.recs), recs := ps.recs,
              cursor := (ps.addr + ld.sizeofKernelEnv) % WORD,
              m := { phys := writeBlob
                       (M3Loader.cmdlinePass ld.modOffset ld.argvAddr m.phys ld.commandLine).mem
                       ld.RT_START
                       (ld.envBytes
                         { ld.env0 with pe := ld.kenvPes.getD ld.coreId 0, kenv := ps.addr }),
                     remote := writeBlob ps.mem ps.addr (ld.kenvBytes (ld.kenvOf junk ps.recs)),
                     pt := pt1 } }) := by
  unfold M3Loader.initState at h
  split at h
  · cases h
  · rename_i pt1 hpt
    simp only at h
    split_ifs at h with h1 h2 h3 h4
    · refine ⟨h1, h2, pt1, hpt, fun h0 => absurd h0 h3, fun _ => ?_⟩
      split at h
      · cases h
      · rename_i ps hps
        split_ifs at h with h5
        simp only [InitResult.done.injEq] at h
        exact ⟨ps, Nat.le_of_not_gt h4, hps, Nat.le_of_not_gt h5, h.symm⟩
    · simp only [InitResult.done.injEq] at h
      refine ⟨h1, h2, pt1, hpt, fun _ => h.symm, fun h0 => absurd h0 h3⟩

theorem packLoop_recs (k : PackConsts) (fs : FileSystem) (path : List Char) (junk : Nat → Nat)
    (mods : List (List Char × List Char)) :
    ∀ (st st' : PackState), packLoop k fs path junk mods st = some st' →
      ∃ new, st'.recs = st.recs ++ new ∧
        List.Forall₂ (fun md r => cstrOf r.2.name = strBytes (recordName md)) mods new := by
  induction mods with
  | nil =>
    intro st st' h
    simp only [packLoop, Option.some.injEq] at h
    subst h
    exact ⟨[], by simp, List.Forall₂.nil⟩
  | cons md mods ih =>
    intro st st' h
    obtain ⟨data, _, hlen, hrest⟩ := packLoop_cons k fs path junk md mods st st' h
    obtain ⟨new, h1, h2⟩ := ih _ _ hrest
    simp only [List.append_assoc, List.singleton_append] at h1
    exact ⟨_, h1, List.Forall₂.cons (recordName_built k.MAX_MODNAME_LEN junk md hlen).2 h2⟩

theorem M3Loader.initState_tooMany (ld : M3Loader) (kernel : KernelImage) (dtumem : DTUMemory)
    (fs : FileSystem) (junk : Nat → Nat) (m : Machine) (pt1 : PtState)
    (hpt : (if ld.peDesc &&& 0x7 = 1 then ld.mapMemory kernel dtumem m.pt else some m.pt) =
      some pt1)
    (hfit : ¬(ld.commandLine.length + 1 > ld.spaceLeft)) (hpes : ¬(ld.pes.length > ld.MAX_PES))
    (hmod : ld.modOffset ≠ 0) :
    (∃ m', ld.initState kernel dtumem fs junk m = .panic .tooManyModules m') ↔
      (M3Loader.moduleList ld.modOffset ld.argvAddr m.phys ld.commandLine).length >
        ld.consts.MAX_MODS := by
  unfold M3Loader.initState
  rw [hpt]
  simp only [if_neg hfit, if_neg hpes, if_pos hmod]
  by_cases hmax : (M3Loader.moduleList ld.modOffset ld.argvAddr m.phys ld.commandLine).length >
      ld.consts.MAX_MODS
  · simp only [hmax, iff_true]
    unfold M3Loader.moduleList at hmax
    rw [if_pos hmax]
    exact ⟨_, rfl⟩
  · simp only [hmax, iff_false]
    unfold M3Loader.moduleList at hmax
    rw [if_neg hmax]
    rintro ⟨m', h⟩
    split at h
    · cases h
    · split_ifs at h
      cases h

theorem M3X86System.initState_modules (sys : M3X86System) (b : M3X86System.Boot)
    (fs : FileSystem) (junk : Nat → Nat) (mem : Mem) (pt pt1 : PtState)
    (l : List (List Char × List Char))
    (hpt : sys.mapMemory pt = some pt1)
    (hfit : ¬(b.commandLine.length + 1 > sys.spaceLeft b))
    (hl : M3X86System.moduleList sys.modOffset (sys.argvAddr b) mem b.commandLine = some l) :
    (sys.initState b fs junk mem pt = .panic .tooManyModules ↔ l.length > b.MAX_MODS) ∧
    (∀ env recs mem1 pt2, sys.initState b fs junk mem pt = .done env recs mem1 pt2 →
      List.Forall₂ (fun md r => cstrOf r.2.name = strBytes (recordName md)) l recs) := by
  unfold M3X86System.moduleList at hl
  split_ifs at hl with hc
  simp only [Option.some.injEq] at hl
  unfold M3X86System.initState
  rw [hpt]
  simp only [if_neg hfit, if_pos hc]
  rw [hl]
  by_cases hmax : l.length > b.MAX_MODS
  · rw [if_pos hmax]
    exact ⟨⟨fun _ => hmax, fun _ => rfl⟩, fun env recs mem1 pt2 h => by cases h⟩
  · rw [if_neg hmax]
    refine ⟨⟨fun h => ?_, fun h => absurd h hmax⟩, ?_⟩
    · split at h <;> cases h
    · intro env recs mem1 pt2 h
      split at h
      · cases h
      · rename_i ps hps
        simp only [M3X86System.Result.done.injEq] at h
        obtain ⟨new, h1, h2⟩ := packLoop_recs _ fs _ junk l _ ps hps
        simp only [List.nil_append] at h1
        rw [← h.2.1, h1]
        exact h2

theorem M3X86System.initState_nomodules (sys : M3X86System) (b : M3X86System.Boot)
    (fs : FileSystem) (junk : Nat → Nat) (mem : Mem) (pt pt1 : PtState)
    (hpt : sys.mapMemory pt = some pt1)
    (hfit : ¬(b.commandLine.length + 1 > sys.spaceLeft b))
    (hl : M3X86System.moduleList sys.modOffset (sys.argvAddr b) mem b.commandLine = none) :
    ∃ env mem1, sys.initState b fs junk mem pt = .done env [] mem1 pt1 ∧ env.mods = [] := by
  unfold M3X86System.moduleList at hl
  split_ifs at hl with hc
  unfold M3X86System.initState
  rw [hpt]
  simp only [if_neg hfit, if_neg hc]
  exact ⟨_, _, rfl, rfl⟩
/-! ## Claims C11 and C12: the budgets of modules and PEs -/

/-- C11: when the module list with the helper `rctmux` is longer than `MAX_MODS`
(for a set `modOffset`), or `pes` is longer than `MAX_PES`, `initState` aborts,
and not in or behind the module loop; at the abort the memory behind the NoC
port, which takes the module images, the module records and the `KernelEnv`
with the module pointers and the PE table, is as it was before the call, and
the memory behind `physProxy` is unchanged or holds the argv table and the
argument text only (unchanged when `pes` is too long). -/
theorem over_budget_aborts (ld : M3Loader) (kernel : KernelImage) (dtumem : DTUMemory)
    (fs : FileSystem) (junk : Nat → Nat) (m : Machine)
    (h : (ld.modOffset ≠ 0 ∧
        (M3Loader.moduleList ld.modOffset ld.argvAddr m.phys ld.commandLine).length >
          ld.consts.MAX_MODS) ∨ ld.pes.length > ld.MAX_PES) :
    ∃ p m', ld.initState kernel dtumem fs junk m = .panic p m' ∧
      (p = .assertion ∨ p = .cmdlineTooLong ∨ p = .tooManyPEs ∨ p = .tooManyModules) ∧
      m'.remote = m.remote ∧
      (m'.phys = m.phys ∨
        m'.phys = (M3Loader.cmdlinePass ld.modOffset ld.argvAddr m.phys ld.commandLine).mem) ∧
      (ld.pes.length > ld.MAX_PES → m'.phys = m.phys) := by
  unfold M3Loader.initState
  split
  · exact ⟨_, _, rfl, Or.inl rfl, rfl, Or.inl rfl, fun _ => rfl⟩
  · rename_i pt1 hpt
    by_cases h1 : ld.commandLine.length + 1 > ld.spaceLeft
    · simp only [if_pos h1]
      exact ⟨_, _, rfl, Or.inr (Or.inl rfl), rfl, Or.inl rfl, fun _ => rfl⟩
    · by_cases h2 : ld.pes.length > ld.MAX_PES
      · simp only [if_neg h1, if_pos h2]
        exact ⟨_, _, rfl, Or.inr (Or.inr (Or.inl rfl)), rfl, Or.inl rfl, fun _ => rfl⟩
      · rcases h with ⟨h3, h4⟩ | h
        · unfold M3Loader.moduleList at h4
          simp only [if_neg h1, if_neg h2, if_pos h3, if_pos h4]
          exact ⟨_, _, rfl, Or.inr (Or.inr (Or.inr rfl)), rfl, Or.inr rfl,
            fun h5 => absurd h5 h2⟩
        · exact absurd h h2

/-- C11 at the example loader: five PEs where four are allowed, and three
groups with the helper where three modules are allowed. -/
theorem over_budget_aborts_witness :
    (∃ p m', (exampleLoader [1, 2, 2, 2, 2] 0 0x1000 "bin/k -- a".toList).initState
        exampleSys.kernel exampleDtu exampleFs (fun _ => 255) exampleMachine = .panic p m' ∧
      (p = .assertion ∨ p = .cmdlineTooLong ∨ p = .tooManyPEs ∨ p = .tooManyModules) ∧
      m'.remote = exampleMachine.remote ∧
      (m'.phys = exampleMachine.phys ∨
        m'.phys = (M3Loader.cmdlinePass 0x1000
          (exampleLoader [1, 2, 2, 2, 2] 0 0x1000 "bin/k -- a".toList).argvAddr
          exampleMachine.phys "bin/k -- a".toList).mem) ∧
      ((exampleLoader [1, 2, 2, 2, 2] 0 0x1000 "bin/k -- a".toList).pes.length >
        (exampleLoader [1, 2, 2, 2, 2] 0 0x1000 "bin/k -- a".toList).MAX_PES →
        m'.phys = exampleMachine.phys)) ∧
    (exampleInit [1, 2, 2, 2, 2] 0 0x1000 "bin/k -- a".toList).panic? = some .tooManyPEs ∧
    (exampleInit [1, 2] 0 0x1000 "bin/k -- a -- a -- a".toList).panic? = some .tooManyModules :=
  ⟨over_budget_aborts (exampleLoader [1, 2, 2, 2, 2] 0 0x1000 "bin/k -- a".toList)
     exampleSys.kernel exampleDtu exampleFs (fun _ => 255) exampleMachine (Or.inr (by decide)),
   by decide, by decide⟩

/-- C12 (as stated, refuted): with `modOffset` set, `M3X86System` parses no
group from the command line `k` followed by one space, and then hands no list
to the packing at all: the helper `idle` is not appended. -/
theorem helper_not_appended_counterexample :
    (M3X86System.cmdlinePass 1 0 (fun _ => 0) "k ".toList).mods = [] ∧
    M3X86System.moduleList 1 0 (fun _ => 0) "k ".toList = none ∧
    M3X86System.moduleList 1 0 (fun _ => 0) "k ".toList ≠ some [("idle".toList, [])] := by
  decide

/-- C12 (amended): when `M3Loader::initState` gets to parse the command line with
`modOffset` set, the list it packs is the parsed groups followed by `rctmux`
with an empty argument string; it aborts with "Too many modules" if and only
if that list is longer than `MAX_MODS`; and when it returns, the records it
wrote name the modules of that list, in order. `M3X86System::initState` does
the same with `idle` when a group was parsed; when none was parsed it appends
no helper, packs nothing and returns. -/
theorem helper_module_last (ld : M3Loader) (kernel : KernelImage) (dtumem : DTUMemory)
    (fs : FileSystem) (junk : Nat → Nat) (m : Machine) (pt1 : PtState)
    (hpt : (if ld.peDesc &&& 0x7 = 1 then ld.mapMemory kernel dtumem m.pt else some m.pt) =
      some pt1)
    (hfit : ¬(ld.commandLine.length + 1 > ld.spaceLeft)) (hpes : ¬(ld.pes.length > ld.MAX_PES))
    (hmod : ld.modOffset ≠ 0) :
    (M3Loader.moduleList ld.modOffset ld.argvAddr m.phys ld.commandLine =
      (M3Loader.cmdlinePass ld.modOffset ld.argvAddr m.phys ld.commandLine).mods ++
        [("rctmux".toList, [])]) ∧
    ((∃ m', ld.initState kernel dtumem fs junk m = .panic .tooManyModules m') ↔
      (M3Loader.moduleList ld.modOffset ld.argvAddr m.phys ld.commandLine).length >
        ld.consts.MAX_MODS) ∧
    (∀ d, ld.initState kernel dtumem fs junk m = .done d →
      List.Forall₂ (fun md r => cstrOf r.2.name = strBytes (recordName md))
        (M3Loader.moduleList ld.modOffset ld.argvAddr m.phys ld.commandLine) d.recs) ∧
    (∀ (sys : M3X86System) (b : M3X86System.Boot) (mem : Mem) (pt pt2 : PtState),
      sys.mapMemory pt = some pt2 → ¬(b.commandLine.length + 1 > sys.spaceLeft b) →
      sys.modOffset ≠ 0 →
      ((M3X86System.cmdlinePass sys.modOffset (sys.argvAddr b) mem b.commandLine).mods ≠ [] →
        M3X86System.moduleList sys.modOffset (sys.argvAddr b) mem b.commandLine =
          some ((M3X86System.cmdlinePass sys.modOffset (sys.argvAddr b) mem b.commandLine).mods
            ++ [("idle".toList, [])]) ∧
        (sys.initState b fs junk mem pt = .panic .tooManyModules ↔
          ((M3X86System.cmdlinePass sys.modOffset (sys.argvAddr b) mem b.commandLine).mods
            ++ [("idle".toList, [])]).length > b.MAX_MODS) ∧
        (∀ env recs mem1 pt3, sys.initState b fs junk mem pt = .done env recs mem1 pt3 →
          List.Forall₂ (fun md r => cstrOf r.2.name = strBytes (recordName md))
            ((M3X86System.cmdlinePass sys.modOffset (sys.argvAddr b) mem b.commandLine).mods
              ++ [("idle".toList, [])]) recs)) ∧
      ((M3X86System.cmdlinePass sys.modOffset (sys.argvAddr b) mem b.commandLine).mods = [] →
        M3X86System.moduleList sys.modOffset (sys.argvAddr b) mem b.commandLine = none ∧
        ∃ env mem1, sys.initState b fs junk mem pt = .done env [] mem1 pt2 ∧ env.mods = [])) := by
  refine ⟨rfl, M3Loader.initState_tooMany ld kernel dtumem fs junk m pt1 hpt hfit hpes hmod,
    ?_, ?_⟩
  · intro d hd
    obtain ⟨_, _, _, _, _, h2⟩ := M3Loader.initState_done ld kernel dtumem fs junk m d hd
    obtain ⟨ps, _, hps, _, hdd⟩ := h2 hmod
    obtain ⟨new, h3, h4⟩ := packLoop_recs _ fs _ junk _ _ ps hps
    simp only [List.nil_append] at h3
    rw [hdd]
    simp only
    rw [h3]
    exact h4
  · intro sys b mem pt pt2 hp hf hm
    constructor
    · intro hne
      have hl : M3X86System.moduleList sys.modOffset (sys.argvAddr b) mem b.commandLine =
          some ((M3X86System.cmdlinePass sys.modOffset (sys.argvAddr b) mem b.commandLine).mods
            ++ [("idle".toList, [])]) := by
        unfold M3X86System.moduleList
        rw [if_pos ⟨hm, List.length_pos.mpr hne⟩]
      exact ⟨hl, M3X86System.initState_modules sys b fs junk mem pt pt2 _ hp hf hl⟩
    · intro he
      have hl : M3X86System.moduleList sys.modOffset (sys.argvAddr b) mem b.commandLine =
          none := by
        unfold M3X86System.moduleList
        rw [if_neg]
        rw [he]
        simp
      exact ⟨hl, M3X86System.initState_nomodules sys b fs junk mem pt pt2 hp hf hl⟩

/-- C12 (amended) at the example loader with the command line `bin/k -- a`:
the list packed is `a`, `rctmux`, which is within the budget of three modules. -/
theorem helper_module_last_witness :
    M3Loader.moduleList 0x1000 (exampleLoader [1, 2] 0 0x1000 "bin/k -- a".toList).argvAddr
        exampleMachine.phys "bin/k -- a".toList =
      [("a".toList, []), ("rctmux".toList, [])] ∧
    ((∃ m', (exampleLoader [1, 2] 0 0x1000 "bin/k -- a".toList).initState exampleSys.kernel
        exampleDtu exampleFs (fun _ => 255) exampleMachine = .panic .tooManyModules m') ↔
      (M3Loader.moduleList 0x1000 (exampleLoader [1, 2] 0 0x1000 "bin/k -- a".toList).argvAddr
        exampleMachine.phys "bin/k -- a".toList).length > 3) :=
  ⟨by decide,
   (helper_module_last (exampleLoader [1, 2] 0 0x1000 "bin/k -- a".toList) exampleSys.kernel
     exampleDtu exampleFs (fun _ => 255) exampleMachine exampleMachine.pt rfl (by decide)
     (by decide) (by decide)).2.1⟩
/-! ## Claims C13 and C17: the check of the runtime region, the fields of the environment -/

theorem M3Loader.spaceLeft_wraps (ld : M3Loader)
    (h : (ld.RT_START + ld.RT_SIZE) % WORD < ld.argsAddr) :
    ld.spaceLeft = WORD - (ld.argsAddr - (ld.RT_START + ld.RT_SIZE) % WORD) := by
  unfold M3Loader.spaceLeft
  have h1 : ld.argsAddr < WORD := by
    unfold M3Loader.argsAddr
    exact Nat.mod_lt _ (by unfold WORD; omega)
  have h2 : (ld.RT_START + ld.RT_SIZE) % WORD + WORD - ld.argsAddr =
      WORD - (ld.argsAddr - (ld.RT_START + ld.RT_SIZE) % WORD) := by omega
  rw [h2]
  exact Nat.mod_eq_of_lt (by omega)

/-- When the argv table alone ends behind the runtime region, the check of
line 207 compares the length of the command line with a value just below
`2 ^ 64` and lets every command line pass that a host can hold. -/
theorem M3Loader.check_passes_behind_region (ld : M3Loader)
    (h : (ld.RT_START + ld.RT_SIZE) % WORD < ld.argsAddr)
    (hlen : ld.commandLine.length + 1 + ld.argsAddr ≤ WORD) :
    ¬(ld.commandLine.length + 1 > ld.spaceLeft) := by
  rw [M3Loader.spaceLeft_wraps ld h]
  omega

/-- C13 (the code at the failing input): the example loader has a runtime region
of 256 bytes at `0x6000` and a `StartEnv` of 48 bytes, so that the argv table
of a command line of 27 tokens ends at `0x6108`, behind the region. The check
passes (`RT_START + RT_SIZE - args` wraps to `2 ^ 64 - 8`), `initState` returns,
and the last argv entry, written at `0x6100`, and the argument text, written
from `0x6108` on, lie behind the region. -/
theorem argv_table_overruns_region :
    (exampleLoader [2] 0 0 "k a a a a a a a a a a a a a a a a a a a a a a a a a a".toList).argsAddr
      = 0x6108 ∧
    (exampleLoader [2] 0 0
      "k a a a a a a a a a a a a a a a a a a a a a a a a a a".toList).spaceLeft = 2 ^ 64 - 8 ∧
    (exampleInit [2] 0 0 "k a a a a a a a a a a a a a a a a a a a a a a a a a a".toList).panic?
      = none ∧
    (exampleInit [2] 0 0 "k a a a a a a a a a a a a a a a a a a a a a a a a a a".toList).done?.map
      (fun d => (d.env.argc, readU64 d.m.phys 0x6100, readBytes d.m.phys 0x6108 4)) =
      some (27, 0x613c, [107, 0, 97, 0]) := by
  decide

theorem getD_append_zeros (pes : List Nat) (n i : Nat) :
    (pes ++ List.replicate n 0).getD i 0 = pes.getD i 0 := by
  by_cases h : i < pes.length
  · simp [List.getD_eq_getElem?_getD, List.getElem?_append_left h]
  · have h1 : pes.length ≤ i := by omega
    rw [List.getD_eq_getElem?_getD, List.getD_eq_getElem?_getD,
      List.getElem?_append_right h1, List.getElem?_eq_none h1]
    by_cases h2 : i - pes.length < n
    · simp [List.getElem?_replicate, h2]
    · simp [List.getElem?_replicate, h2]

/-- C17 (as stated, refuted): for PE 1 of the PEs `[1, 2]`, a core without
`modOffset`, the `StartEnv` written has `pe = 0` while `pes[coreId]` is 2. -/
theorem pe_field_counterexample :
    (exampleInit [1, 2] 1 0 "bin/k -- a".toList).done?.map
      (fun d => (d.env.coreid, d.env.argc, d.env.pe)) = some (1, 3, 0) ∧
    (exampleLoader [1, 2] 1 0 "bin/k -- a".toList).peDesc = 2 := by
  decide

/-- C17 (amended): the `StartEnv` that `initState` writes at `RT_START` has
`coreid = coreId` and `argc = getArgc()` for every core; its field `pe` is
`pes[coreId]` when `modOffset` is set, and for every other core it is zero,
no `KernelEnv` and no module record is written, and the memory behind the NoC
port is left as it was. -/
theorem env_fields_written (ld : M3Loader) (kernel : KernelImage) (dtumem : DTUMemory)
    (fs : FileSystem) (junk : Nat → Nat) (m : Machine) (d : InitDone)
    (h : ld.initState kernel dtumem fs junk m = .done d) :
    d.env.coreid = ld.coreId ∧ d.env.argc = M3Loader.getArgc ld.commandLine ∧
    readBytes d.m.phys ld.RT_START (ld.envBytes d.env).length = ld.envBytes d.env ∧
    (ld.modOffset ≠ 0 → d.env.pe = ld.peDesc ∧ d.kenv = some (ld.kenvOf junk d.recs)) ∧
    (ld.modOffset = 0 → d.env.pe = 0 ∧ d.kenv = none ∧ d.recs = [] ∧
      d.m.remote = m.remote) := by
  obtain ⟨_, _, pt1, _, h1, h2⟩ := M3Loader.initState_done ld kernel dtumem fs junk m d h
  by_cases hm : ld.modOffset = 0
  · have hd := h1 hm
    subst hd
    exact ⟨rfl, rfl, readBytes_writeBlob _ _ _, fun h0 => absurd hm h0,
      fun _ => ⟨rfl, rfl, rfl, rfl⟩⟩
  · obtain ⟨ps, _, _, _, hd⟩ := h2 hm
    subst hd
    refine ⟨rfl, rfl, readBytes_writeBlob _ _ _, fun _ => ⟨?_, rfl⟩, fun h0 => absurd h0 hm⟩
    exact getD_append_zeros ld.pes _ ld.coreId

/-- C17 (amended) at the example loader, for the bootstrap core 0 of the PEs
`[1, 2]`: `initState` returns, and the fields are `coreid = 0`, `argc = 3` and
`pe = pes[0] = 1`. -/
theorem env_fields_written_witness :
    ∃ d, exampleInit [1, 2] 0 0x1000 "bin/k -- a".toList = .done d ∧
      d.env.coreid = 0 ∧ d.env.argc = 3 ∧ d.env.pe = 1 :=
  ⟨_, rfl,
   (env_fields_written (exampleLoader [1, 2] 0 0x1000 "bin/k -- a".toList) exampleSys.kernel
     exampleDtu exampleFs (fun _ => 255) exampleMachine _ rfl).1,
   (env_fields_written (exampleLoader [1, 2] 0 0x1000 "bin/k -- a".toList) exampleSys.kernel
     exampleDtu exampleFs (fun _ => 255) exampleMachine _ rfl).2.1,
   ((env_fields_written (exampleLoader [1, 2] 0 0x1000 "bin/k -- a".toList) exampleSys.kernel
     exampleDtu exampleFs (fun _ => 255) exampleMachine _ rfl).2.2.2.1 (by decide)).1⟩
/-! ## Claims C14 and C16: the module region and the kernel environment -/

/-- The packing loop writes nothing at or behind its final cursor. -/
theorem packLoop_above (k : PackConsts) (fs : FileSystem) (path : List Char) (junk : Nat → Nat)
    (mods : List (List Char × List Char)) :
    ∀ (st st' : PackState), packLoop k fs path junk mods st = some st' →
      st.addr + packBound k fs path mods ≤ WORD →
      ∀ x, st'.addr ≤ x → st'.mem x = st.mem x := by
  induction mods with
  | nil =>
    intro st st' h _ x _
    simp only [packLoop, Option.some.injEq] at h
    subst h
    rfl
  | cons md mods ih =>
    intro st st' h hfit x hx
    obtain ⟨data, hfs, hlen, hrest⟩ := packLoop_cons k fs path junk md mods st st' h
    rw [packBound_cons] at hfit
    have hsz : imageSize fs path md = data.length := by
      unfold imageSize; rw [hfs]
    rw [hsz] at hfit
    have hps := k.pageSize_pow
    have hpos : 0 < (2:Nat) ^ k.PAGE_BITS := Nat.pos_pow_of_pos _ (by omega)
    have hbits : k.PAGE_BITS ≤ 64 := by
      by_contra hcon
      have : (2:Nat) ^ 64 ≤ 2 ^ k.PAGE_BITS := Nat.pow_le_pow_right (by omega) (by omega)
      unfold WORD at hfit
      omega
    have e0 : (st.addr + data.length) % WORD = st.addr + data.length :=
      Nat.mod_eq_of_lt (by omega)
    obtain ⟨r1, r2, _⟩ := roundUp_8 (st.addr + data.length) (by omega)
    rw [e0] at hrest
    generalize hrec : roundUp (st.addr + data.length) 8 = rec_i at hrest r1 r2
    have e1 : (rec_i + k.sizeofBootModule) % WORD = rec_i + k.sizeofBootModule :=
      Nat.mod_eq_of_lt (by omega)
    rw [e1, hps] at hrest
    obtain ⟨p1, p2, _⟩ := alignUp_spec (rec_i + k.sizeofBootModule) k.PAGE_BITS hbits
      (by omega)
    generalize hnext : ((rec_i + k.sizeofBootModule + (2 ^ k.PAGE_BITS - 1)) % WORD) &&&
      notAddr (2 ^ k.PAGE_BITS - 1) = next at hrest p1 p2
    obtain ⟨n1, n2⟩ := recordName_built k.MAX_MODNAME_LEN junk md hlen
    generalize hname : (if md.2 ≠ [] then
        strcat (strcat (strcpy ((List.range k.MAX_MODNAME_LEN).map junk) md.1) " ".toList) md.2
      else strcpy ((List.range k.MAX_MODNAME_LEN).map junk) md.1) = name at hrest n1 n2
    obtain ⟨new, _, q2, _, _⟩ := packLoop_spec k fs path junk mods _ st' hrest
      (by simp only; omega)
    have hle := Packed_le k fs path _ mods _ _ _ q2
    simp only at hle
    have hblen : (BootModule.bytes { name := name, addr := st.addr, size := data.length }).length
        = k.sizeofBootModule := by
      rw [BootModule.bytes_length]; simp only [n1, PackConsts.sizeofBootModule]
    have q5 := ih _ st' hrest (by simp only; omega) x hx
    simp only at q5
    rw [q5, writeBlob_out _ _ _ _ (Or.inr (by rw [hblen]; omega)),
      writeBlob_out _ _ _ _ (Or.inr (by omega))]

/-- C14: for a set `modOffset`, with `NocAddr` additive on the module region and
no address wrapping: when `initState` returns, the final cursor is at most
`base + modSize`, every image `[addr, addr + size)`, every record and the
`KernelEnv` lie between `base` and the final cursor, and (for a `KernelEnv` of at
most `sizeof(KernelEnv)` bytes) the memory behind the NoC port is unchanged
outside `[base, cursor)`; and when the cursor behind the `KernelEnv` exceeds
`base + modSize`, `initState` aborts. -/
theorem modules_fit_region (ld : M3Loader) (kernel : KernelImage) (dtumem : DTUMemory)
    (fs : FileSystem) (junk : Nat → Nat) (m : Machine)
    (hmod : ld.modOffset ≠ 0)
    (hnoc : dtumem.nocAddr ((ld.modOffset + ld.modSize) % WORD) =
      dtumem.nocAddr ld.modOffset + ld.modSize)
    (hwrap : dtumem.nocAddr ld.modOffset + packBound ld.consts fs
        (M3Loader.cmdlinePass ld.modOffset ld.argvAddr m.phys ld.commandLine).kernelPath
        (M3Loader.moduleList ld.modOffset ld.argvAddr m.phys ld.commandLine) +
      ld.sizeofKernelEnv < WORD) :
    (∀ d, ld.initState kernel dtumem fs junk m = .done d →
      d.cursor ≤ dtumem.nocAddr ld.modOffset + ld.modSize ∧
      dtumem.nocAddr ld.modOffset ≤ d.env.kenv ∧
      d.env.kenv + ld.sizeofKernelEnv = d.cursor ∧
      (∀ (i : Nat) (hi : i < d.recs.length),
        dtumem.nocAddr ld.modOffset ≤ (d.recs[i]).2.addr ∧
        (d.recs[i]).2.addr + (d.recs[i]).2.size ≤ (d.recs[i]).1 ∧
        (d.recs[i]).1 + ld.consts.sizeofBootModule ≤ d.env.kenv) ∧
      ((ld.kenvBytes (ld.kenvOf junk d.recs)).length ≤ ld.sizeofKernelEnv →
        ∀ x, (x < dtumem.nocAddr ld.modOffset ∨ d.cursor ≤ x) → d.m.remote x = m.remote x)) ∧
    (∀ ps, packLoop ld.consts fs
        (M3Loader.cmdlinePass ld.modOffset ld.argvAddr m.phys ld.commandLine).kernelPath junk
        (M3Loader.moduleList ld.modOffset ld.argvAddr m.phys ld.commandLine)
        { mem := m.remote, addr := dtumem.nocAddr ld.modOffset, recs := [] } = some ps →
      ps.addr + ld.sizeofKernelEnv > dtumem.nocAddr ld.modOffset + ld.modSize →
      ∃ p m', ld.initState kernel dtumem fs junk m = .panic p m') := by
  have key : ∀ d, ld.initState kernel dtumem fs junk m = .done d →
      ∃ ps, packLoop ld.consts fs
        (M3Loader.cmdlinePass ld.modOffset ld.argvAddr m.phys ld.commandLine).kernelPath junk
        (M3Loader.moduleList ld.modOffset ld.argvAddr m.phys ld.commandLine)
        { mem := m.remote, addr := dtumem.nocAddr ld.modOffset, recs := [] } = some ps ∧
      ps.addr + ld.sizeofKernelEnv ≤ dtumem.nocAddr ld.modOffset + ld.modSize ∧
      ps.addr + ld.sizeofKernelEnv < WORD ∧
      d.cursor = ps.addr + ld.sizeofKernelEnv ∧ d.env.kenv = ps.addr ∧ d.recs = ps.recs ∧
      d.m.remote = writeBlob ps.mem ps.addr (ld.kenvBytes (ld.kenvOf junk ps.recs)) := by
    intro d hd
    obtain ⟨_, _, pt1, _, _, h2⟩ := M3Loader.initState_done ld kernel dtumem fs junk m d hd
    obtain ⟨ps, _, hps, hle, hdd⟩ := h2 hmod
    obtain ⟨new, _, _, q3, _⟩ := packLoop_spec _ fs _ junk _ _ ps hps (by simp only; omega)
    simp only at q3
    have e : (ps.addr + ld.sizeofKernelEnv) % WORD = ps.addr + ld.sizeofKernelEnv :=
      Nat.mod_eq_of_lt (by omega)
    rw [e, hnoc] at hle
    refine ⟨ps, hps, hle, by omega, ?_, ?_, ?_, ?_⟩ <;> rw [hdd]
    exact e
  constructor
  · intro d hd
    obtain ⟨ps, hps, hle, hlt, c1, c2, c3, c4⟩ := key d hd
    obtain ⟨new, q1, q2, q3, q4⟩ := packLoop_spec _ fs _ junk _ _ ps hps (by simp only; omega)
    simp only [List.nil_append] at q1 q2 q3 q4
    have hbase := Packed_le _ fs _ _ _ _ _ _ q2
    refine ⟨by omega, by omega, by omega, ?_, ?_⟩
    · intro i hi
      have hi' : i < new.length := by rw [← q1, ← c3]; exact hi
      have hl := Packed_layout _ fs _ _ _ _ _ _ q2 i hi'
      have e : d.recs[i] = new[i] := by
        simp only [c3, q1]
      rw [e, c2]
      exact hl
    · intro hk x hx
      rw [c3] at hk
      rw [c4]
      rcases hx with hx | hx
      · rw [writeBlob_out _ _ _ _ (Or.inl (by omega))]
        exact q4 x hx
      · rw [writeBlob_out _ _ _ _ (Or.inr (by omega))]
        exact packLoop_above _ fs _ junk _ _ ps hps (by simp only; omega) x (by omega)
  · intro ps hps hgt
    cases hres : ld.initState kernel dtumem fs junk m with
    | panic p m' => exact ⟨p, m', rfl⟩
    | done d =>
      obtain ⟨ps', hps', hle, _, _⟩ := key d hres
      rw [hps] at hps'
      simp only [Option.some.injEq] at hps'
      rw [← hps'] at hle
      omega

/-- C14 at the example loader: the modules `a` and `rctmux` and the `KernelEnv`
are packed from `0x8000000000001000` on, and the final cursor `0x80000000000010a8`
is within the region of `0x100` bytes. -/
theorem modules_fit_region_witness :
    ∃ d, exampleInit [1, 2] 0 0x1000 "bin/k -- a".toList = .done d ∧
      d.cursor ≤ 0x8000000000001000 + 0x100 ∧ 0x8000000000001000 ≤ d.env.kenv ∧
      d.env.kenv + 72 = d.cursor :=
  ⟨_, rfl,
   ((modules_fit_region (exampleLoader [1, 2] 0 0x1000 "bin/k -- a".toList) exampleSys.kernel
     exampleDtu exampleFs (fun _ => 255) exampleMachine (by decide) (by decide)
     (by decide)).1 _ rfl).1,
   ((modules_fit_region (exampleLoader [1, 2] 0 0x1000 "bin/k -- a".toList) exampleSys.kernel
     exampleDtu exampleFs (fun _ => 255) exampleMachine (by decide) (by decide)
     (by decide)).1 _ rfl).2.1,
   ((modules_fit_region (exampleLoader [1, 2] 0 0x1000 "bin/k -- a".toList) exampleSys.kernel
     exampleDtu exampleFs (fun _ => 255) exampleMachine (by decide) (by decide)
     (by decide)).1 _ rfl).2.2.1⟩

/-- C16 (the code at the failing input): the example loader for the bootstrap
core reserves 72 bytes for the `KernelEnv` behind the `StartEnv`, so that the
argv table starts at `0x6078`, and leaves them as they were; it writes the
`KernelEnv` behind the NoC port at `0x8000000000001060`, the cursor behind the
record of `rctmux`, and `env.kenv` holds that address, which is outside the
runtime region `[0x6000, 0x6100)`. The bytes written are the three assigned
entries of `mods`, the content the local had before in the fourth one (here
`0xff`), `pe_count` and `pes`. -/
theorem kenv_lands_in_module_region :
    (exampleInit [1, 2] 0 0x1000 "bin/k -- a".toList).done?.map
      (fun d => (d.env.kenv, d.env.argv, readBytes d.m.remote 0x8000000000001060 72,
        readBytes d.m.phys 0x6030 72)) =
      some (0x8000000000001060, 0x6078,
        u64Bytes 0x8000000000001008 ++ u64Bytes 0x8000000000001038 ++ u64Bytes 0 ++
          List.replicate 8 255 ++ u64Bytes 2 ++
          u64Bytes 1 ++ u64Bytes 2 ++ u64Bytes 0 ++ u64Bytes 0,
        List.replicate 72 0) ∧
    ¬(0x6000 ≤ 0x8000000000001060 ∧ 0x8000000000001060 < 0x6000 + 0x100) := by
  decide

/-- The command-line pass writes nothing below the argv table. -/
theorem M3Loader.cmdlinePass_below (modOffset argv : Nat) (mem : Mem) (cmd : List Char)
    (hnul : ∀ c ∈ cmd, c ≠ '\x00')
    (hfit : argv + 8 * M3Loader.getArgc cmd + cmd.length + 1 < WORD) :
    ∀ a, a < argv → (M3Loader.cmdlinePass modOffset argv mem cmd).mem a = mem a := by
  intro a ha
  have hargc := M3Loader.getArgc_cstring cmd hnul
  have hlen := textLen_tokens cmd
  have hpass := M3Loader.cmdlinePass_fold modOffset argv mem cmd hnul hfit
  obtain ⟨_, _, _, r4⟩ := argFold_spec argv (tokens cmd) mem
    (argv + 8 * M3Loader.getArgc cmd) 0 (by omega) (by omega)
  have e : (M3Loader.cmdlinePass modOffset argv mem cmd).mem =
      (argFold argv (tokens cmd) (mem, argv + 8 * M3Loader.getArgc cmd, 0)).1 := by
    rw [← hpass]
  rw [e]
  exact r4 a (Or.inl (by omega))

/-- For a set `modOffset`, when `initState` returns, `env.kenv` is
the cursor the packing loop ends with, the `KernelEnv` is written behind the NoC
port at that address, behind the last module record, and the argv table starts
`sizeof(KernelEnv)` bytes behind the `StartEnv`; the bytes between the
`StartEnv` and the argv table are left as they were. -/
theorem kenv_at_module_cursor (ld : M3Loader) (kernel : KernelImage) (dtumem : DTUMemory)
    (fs : FileSystem) (junk : Nat → Nat) (m : Machine) (d : InitDone)
    (hmod : ld.modOffset ≠ 0) (h : ld.initState kernel dtumem fs junk m = .done d) :
    (∃ ps, packLoop ld.consts fs
        (M3Loader.cmdlinePass ld.modOffset ld.argvAddr m.phys ld.commandLine).kernelPath junk
        (M3Loader.moduleList ld.modOffset ld.argvAddr m.phys ld.commandLine)
        { mem := m.remote, addr := dtumem.nocAddr ld.modOffset, recs := [] } = some ps ∧
      d.env.kenv = ps.addr ∧ d.recs = ps.recs) ∧
    d.kenv = some (ld.kenvOf junk d.recs) ∧
    readBytes d.m.remote d.env.kenv (ld.kenvBytes (ld.kenvOf junk d.recs)).length =
      ld.kenvBytes (ld.kenvOf junk d.recs) ∧
    d.env.argv = ((ld.RT_START + ld.sizeofStartEnv) % WORD + ld.sizeofKernelEnv) % WORD ∧
    (dtumem.nocAddr ld.modOffset + packBound ld.consts fs
        (M3Loader.cmdlinePass ld.modOffset ld.argvAddr m.phys ld.commandLine).kernelPath
        (M3Loader.moduleList ld.modOffset ld.argvAddr m.phys ld.commandLine) ≤ WORD →
      dtumem.nocAddr ld.modOffset ≤ d.env.kenv ∧
      ∀ (i : Nat) (hi : i < d.recs.length),
        (d.recs[i]).1 + ld.consts.sizeofBootModule ≤ d.env.kenv) ∧
    ((∀ c ∈ ld.commandLine, c ≠ '\x00') →
      d.env.argv + 8 * M3Loader.getArgc ld.commandLine + ld.commandLine.length + 1 < WORD →
      (ld.envBytes d.env).length ≤ ld.sizeofStartEnv →
      ∀ a, ld.RT_START + ld.sizeofStartEnv ≤ a → a < d.env.argv → d.m.phys a = m.phys a) := by
  obtain ⟨_, _, pt1, _, _, h2⟩ := M3Loader.initState_done ld kernel dtumem fs junk m d h
  obtain ⟨ps, _, hps, _, hdd⟩ := h2 hmod
  have hargv : ld.argvAddr =
      ((ld.RT_START + ld.sizeofStartEnv) % WORD + ld.sizeofKernelEnv) % WORD := by
    unfold M3Loader.argvAddr
    rw [if_pos hmod]
  subst hdd
  refine ⟨⟨ps, hps, rfl, rfl⟩, rfl, readBytes_writeBlob _ _ _, hargv, ?_, ?_⟩
  · intro hfit
    obtain ⟨new, q1, q2, _, _⟩ := packLoop_spec _ fs _ junk _ _ ps hps hfit
    simp only [List.nil_append] at q1 q2
    refine ⟨Packed_le _ fs _ _ _ _ _ _ q2, ?_⟩
    intro i hi
    have hi' : i < new.length := by rw [← q1]; exact hi
    have hl := (Packed_layout _ fs _ _ _ _ _ _ q2 i hi').2.2
    have e : ps.recs[i] = new[i] := by simp only [q1]
    show (ps.recs[i]).1 + ld.consts.sizeofBootModule ≤ ps.addr
    rw [e]
    exact hl
  · intro hnul hfit hlen a ha1 ha2
    have hfit' : ld.argvAddr + 8 * M3Loader.getArgc ld.commandLine + ld.commandLine.length + 1
        < WORD := hfit
    have ha2' : a < ld.argvAddr := ha2
    have hw := writeBlob_out
      (M3Loader.cmdlinePass ld.modOffset ld.argvAddr m.phys ld.commandLine).mem ld.RT_START
      (ld.envBytes _) a (Or.inr (Nat.le_trans (Nat.add_le_add_left hlen _) ha1))
    exact hw.trans
      (M3Loader.cmdlinePass_below ld.modOffset ld.argvAddr m.phys ld.commandLine hnul hfit'
        a ha2')

/-- The placement of the `KernelEnv` at the example loader: `env.kenv` is `0x8000000000001060`, the
cursor behind the record of `rctmux` at `0x8000000000001038`, and the argv
table starts at `0x6078`, 72 bytes behind the `StartEnv`. -/
theorem kenv_at_module_cursor_witness :
    ∃ d, exampleInit [1, 2] 0 0x1000 "bin/k -- a".toList = .done d ∧
      d.env.kenv = 0x8000000000001060 ∧ d.env.argv = 0x6078 ∧
      d.kenv = some ((exampleLoader [1, 2] 0 0x1000 "bin/k -- a".toList).kenvOf (fun _ => 255) d.recs) :=
  ⟨_, rfl, by decide, by decide,
   (kenv_at_module_cursor (exampleLoader [1, 2] 0 0x1000 "bin/k -- a".toList) exampleSys.kernel
     exampleDtu exampleFs (fun _ => 255) exampleMachine _ (by decide) rfl).2.1⟩
/-! ## The path of a page through `mapPage` -/

theorem c_str_token_append (tok rest : List Char) (c : Char)
    (hnul : ∀ x ∈ tok, x ≠ '\x00') (hc : isspace c = true) :
    c_str (tok ++ c :: rest) = tok ++ c :: c_str rest := by
  have hc0 : c ≠ '\x00' := by
    intro h; rw [h] at hc; exact absurd hc (by decide)
  unfold c_str
  induction tok with
  | nil => simp [List.takeWhile_cons, hc0]
  | cons a t ih =>
    have ha : a ≠ '\x00' := hnul a (List.mem_cons_self _ _)
    simp only [List.cons_append, List.takeWhile_cons, bne_iff_ne, ne_eq, ha, not_false_eq_true,
      if_true, decide_True]
    rw [ih (fun x hx => hnul x (List.mem_cons_of_mem _ hx))]

theorem M3Loader.parseLoop_scan (m argv : Nat) (tok : List Char)
    (h : ∀ x ∈ tok, isspace x = false) :
    ∀ (cmd acc : List Char) (st : M3Loader.ParseState),
      M3Loader.parseLoop m argv (tok ++ cmd) acc st = M3Loader.parseLoop m argv cmd (acc ++ tok) st := by
  induction tok with
  | nil => intro cmd acc st; simp
  | cons a t ih =>
    intro cmd acc st
    have ha : isspace a = false := h a (List.mem_cons_self _ _)
    rw [List.cons_append, M3Loader.parseLoop]
    simp only [ha, Bool.false_eq_true, if_false]
    rw [ih (fun x hx => h x (List.mem_cons_of_mem _ hx))]
    simp

theorem M3Loader.parseToken_keeps (m : Nat) (buf tok : List Char) (st : M3Loader.ParseState)
    (hi : st.i ≠ 0) :
    (M3Loader.parseToken m buf tok st).kernelPath = st.kernelPath ∧
    (M3Loader.parseToken m buf tok st).i = st.i := by
  unfold M3Loader.parseToken M3Loader.appendArg
  rw [if_neg hi]
  split_ifs <;> exact ⟨rfl, rfl⟩

/-- Once the first token is written (`i ≠ 0`), the rest of the command-line
pass leaves `kernelPath` as it is. -/
theorem M3Loader.parseLoop_keeps (m argv : Nat) (cmd : List Char) :
    ∀ (tok : List Char) (st : M3Loader.ParseState), st.i ≠ 0 →
      (M3Loader.parseLoop m argv cmd tok st).1.kernelPath = st.kernelPath ∧
      (M3Loader.parseLoop m argv cmd tok st).1.i ≠ 0 := by
  induction cmd with
  | nil => intro tok st hi; exact ⟨rfl, hi⟩
  | cons c cmd ih =>
    intro tok st hi
    rw [M3Loader.parseLoop]
    by_cases hc : isspace c = true
    · simp only [hc, if_true]
      by_cases h0 : tok = []
      · simp only [h0, ne_eq, not_true_eq_false, if_false]
        exact ih [] st hi
      · simp only [ne_eq, h0, not_false_eq_true, if_true]
        obtain ⟨k1, k2⟩ := M3Loader.parseToken_keeps m (tok ++ c :: cmd) tok st hi
        obtain ⟨r1, r2⟩ := ih []
          (M3Loader.doWriteArg argv tok (M3Loader.parseToken m (tok ++ c :: cmd) tok st))
          (by simp [M3Loader.doWriteArg, M3Loader.writeArg])
        exact ⟨r1.trans k1, r2⟩
    · simp only [hc, if_false, Bool.false_eq_true]
      exact ih (tok ++ [c]) st hi

theorem M3Loader.parseLast_kernelPath (argv : Nat) (tok : List Char) (st : M3Loader.ParseState) :
    (M3Loader.parseLast argv tok st).kernelPath = st.kernelPath := by
  unfold M3Loader.parseLast M3Loader.appendArg M3Loader.doWriteArg
  split_ifs <;> rfl

theorem M3Loader.parseToken_groups (m : Nat) (buf tok : List Char)
    (a b : M3Loader.ParseState) (h : M3Loader.SameGroups a b) :
    M3Loader.SameGroups (M3Loader.parseToken m buf tok a) (M3Loader.parseToken m buf tok b) := by
  obtain ⟨kp1, p1, as1, ms1, sd1, i1, ar1, me1⟩ := a
  obtain ⟨kp2, p2, as2, ms2, sd2, i2, ar2, me2⟩ := b
  obtain ⟨h1, h2, h3, h4, h5, h6⟩ := h
  simp only at h1 h2 h3 h4 h5 h6
  subst h1 h2 h3 h4
  unfold M3Loader.SameGroups M3Loader.parseToken M3Loader.appendArg
  simp only [if_neg h5, if_neg h6]
  split_ifs <;> exact ⟨rfl, rfl, rfl, rfl, h5, h6⟩

theorem M3Loader.doWriteArg_groups (argv1 argv2 : Nat) (tok : List Char)
    (a b : M3Loader.ParseState) (h : M3Loader.SameGroups a b) :
    M3Loader.SameGroups (M3Loader.doWriteArg argv1 tok a) (M3Loader.doWriteArg argv2 tok b) := by
  obtain ⟨h1, h2, h3, h4, _, _⟩ := h
  exact ⟨h1, h2, h3, h4, by simp [M3Loader.doWriteArg, M3Loader.writeArg],
    by simp [M3Loader.doWriteArg, M3Loader.writeArg]⟩

/-- States that agree on the groups still do after the rest of the loop. -/
theorem M3Loader.parseLoop_groups (m argv1 argv2 : Nat) (cmd : List Char) :
    ∀ (tok : List Char) (a b : M3Loader.ParseState), M3Loader.SameGroups a b →
      M3Loader.SameGroups (M3Loader.parseLoop m argv1 cmd tok a).1
        (M3Loader.parseLoop m argv2 cmd tok b).1 := by
  induction cmd with
  | nil => intro tok a b h; exact h
  | cons c cmd ih =>
    intro tok a b h
    rw [M3Loader.parseLoop, M3Loader.parseLoop]
    by_cases hc : isspace c = true
    · simp only [hc, if_true]
      by_cases h0 : tok = []
      · simp only [h0, ne_eq, not_true_eq_false, if_false]
        exact ih [] a b h
      · simp only [ne_eq, h0, not_false_eq_true, if_true]
        exact ih [] _ _ (M3Loader.doWriteArg_groups argv1 argv2 tok _ _
          (M3Loader.parseToken_groups m _ tok a b h))
    · simp only [hc, if_false, Bool.false_eq_true]
      exact ih (tok ++ [c]) a b h

theorem M3Loader.parseLast_groups (argv1 argv2 : Nat) (tok : List Char)
    (a b : M3Loader.ParseState) (h : M3Loader.SameGroups a b) :
    (M3Loader.parseLast argv1 tok a).mods = (M3Loader.parseLast argv2 tok b).mods := by
  obtain ⟨kp1, p1, as1, ms1, sd1, i1, ar1, me1⟩ := a
  obtain ⟨kp2, p2, as2, ms2, sd2, i2, ar2, me2⟩ := b
  obtain ⟨h1, h2, h3, _, _, _⟩ := h
  simp only at h1 h2 h3
  subst h1 h2 h3
  unfold M3Loader.parseLast M3Loader.appendArg M3Loader.doWriteArg
  split_ifs <;> rfl

theorem pending_token (t : List Char) (hs : ∀ x ∈ t, isspace x = false) :
    ∀ (cmd acc : List Char) (c : Char), isspace c = true →
      pending acc (t ++ c :: cmd) = pending [] cmd := by
  induction t with
  | nil =>
    intro cmd acc c hc
    simp [pending, hc]
  | cons a t ih =>
    intro cmd acc c hc
    have ha : isspace a = false := hs a (List.mem_cons_self _ _)
    rw [List.cons_append, pending]
    simp only [ha, Bool.false_eq_true, if_false]
    exact ih (fun x hx => hs x (List.mem_cons_of_mem _ hx)) cmd _ c hc

/-- The command-line pass behind a first token that is followed by a whitespace
character: the token gives `kernelPath` and is written, and the pass goes on
with the rest. -/
theorem M3Loader.parseCmdline_first (m argv args : Nat) (mem : Mem) (t rest : List Char)
    (c : Char) (h0 : t ≠ []) (hs : ∀ x ∈ t, isspace x = false) (hn : ∀ x ∈ t, x ≠ '\x00')
    (hc : isspace c = true) :
    M3Loader.parseCmdline m argv args mem (t ++ c :: rest) =
      M3Loader.parseLast argv (pending [] (c_str rest))
        (M3Loader.parseLoop m argv (c_str rest) []
          (M3Loader.doWriteArg argv t
            { kernelPath := dirname t, prog := [], argstr := [], mods := [],
              seen_dashes := false, i := 0, args := args, mem := mem })).1 := by
  unfold M3Loader.parseCmdline
  simp only
  rw [M3Loader.parseLoop_pending, c_str_token_append t rest c hn hc,
    M3Loader.parseLoop_scan m argv t hs, List.nil_append, M3Loader.parseLoop]
  simp only [hc, if_true, ne_eq, h0, not_false_eq_true]
  rw [pending_token t hs _ _ c hc]
  rfl

/-- When the first token is followed by a whitespace character, `kernelPath` is
the directory of that token and the parsed modules do not depend on it: any
other first token gives the same modules. -/
theorem M3Loader.first_token_spaced (m argv1 argv2 : Nat) (mem1 mem2 : Mem)
    (t1 t2 rest : List Char) (c : Char)
    (h1 : t1 ≠ []) (hs1 : ∀ x ∈ t1, isspace x = false) (hn1 : ∀ x ∈ t1, x ≠ '\x00')
    (h2 : t2 ≠ []) (hs2 : ∀ x ∈ t2, isspace x = false) (hn2 : ∀ x ∈ t2, x ≠ '\x00')
    (hc : isspace c = true) :
    (M3Loader.cmdlinePass m argv1 mem1 (t1 ++ c :: rest)).kernelPath = dirname t1 ∧
    (M3Loader.cmdlinePass m argv1 mem1 (t1 ++ c :: rest)).mods =
      (M3Loader.cmdlinePass m argv2 mem2 (t2 ++ c :: rest)).mods := by
  unfold M3Loader.cmdlinePass
  rw [M3Loader.parseCmdline_first m argv1 _ mem1 t1 rest c h1 hs1 hn1 hc,
    M3Loader.parseCmdline_first m argv2 _ mem2 t2 rest c h2 hs2 hn2 hc]
  constructor
  · rw [M3Loader.parseLast_kernelPath]
    exact (M3Loader.parseLoop_keeps m argv1 (c_str rest) [] _
      (by simp [M3Loader.doWriteArg, M3Loader.writeArg])).1
  · apply M3Loader.parseLast_groups
    apply M3Loader.parseLoop_groups
    exact ⟨rfl, rfl, rfl, rfl, by simp [M3Loader.doWriteArg, M3Loader.writeArg],
      by simp [M3Loader.doWriteArg, M3Loader.writeArg]⟩

theorem M3X86System.parseLoop_scan86 (m argv : Nat) (tok : List Char)
    (h : ∀ x ∈ tok, isspace x = false) :
    ∀ (cmd acc : List Char) (st : M3X86System.ParseState),
      M3X86System.parseLoop m argv (tok ++ cmd) acc st =
        M3X86System.parseLoop m argv cmd (acc ++ tok) st := by
  induction tok with
  | nil => intro cmd acc st; simp
  | cons a t ih =>
    intro cmd acc st
    have ha : isspace a = false := h a (List.mem_cons_self _ _)
    rw [List.cons_append, M3X86System.parseLoop]
    simp only [ha, Bool.false_eq_true, if_false]
    rw [ih (fun x hx => h x (List.mem_cons_of_mem _ hx))]
    simp

theorem M3X86System.parseToken_keeps86 (m : Nat) (buf tok : List Char)
    (st : M3X86System.ParseState) (hi : st.i ≠ 0) :
    (M3X86System.parseToken m buf tok st).kernelPath = st.kernelPath ∧
    (M3X86System.parseToken m buf tok st).i = st.i := by
  unfold M3X86System.parseToken M3X86System.appendArg
  rw [if_neg hi]
  split_ifs <;> exact ⟨rfl, rfl⟩

theorem M3X86System.parseLoop_keeps86 (m argv : Nat) (cmd : List Char) :
    ∀ (tok : List Char) (st : M3X86System.ParseState), st.i ≠ 0 →
      (M3X86System.parseLoop m argv cmd tok st).1.kernelPath = st.kernelPath ∧
      (M3X86System.parseLoop m argv cmd tok st).1.i ≠ 0 := by
  induction cmd with
  | nil => intro tok st hi; exact ⟨rfl, hi⟩
  | cons c cmd ih =>
    intro tok st hi
    rw [M3X86System.parseLoop]
    by_cases hc : isspace c = true
    · simp only [hc, if_true]
      by_cases h0 : tok = []
      · simp only [h0, ne_eq, not_true_eq_false, if_false]
        exact ih [] st hi
      · simp only [ne_eq, h0, not_false_eq_true, if_true]
        obtain ⟨k1, k2⟩ := M3X86System.parseToken_keeps86 m (tok ++ c :: cmd) tok st hi
        obtain ⟨r1, r2⟩ := ih []
          (M3X86System.doWriteArg argv tok (M3X86System.parseToken m (tok ++ c :: cmd) tok st))
          (by simp [M3X86System.doWriteArg, M3X86System.writeArg])
        exact ⟨r1.trans k1, r2⟩
    · simp only [hc, if_false, Bool.false_eq_true]
      exact ih (tok ++ [c]) st hi

theorem M3X86System.parseLast_kernelPath86 (argv : Nat) (tok : List Char)
    (st : M3X86System.ParseState) :
    (M3X86System.parseLast argv tok st).kernelPath = st.kernelPath := by
  unfold M3X86System.parseLast M3X86System.appendArg M3X86System.doWriteArg
  split_ifs <;> rfl

theorem M3X86System.parseToken_groups86 (m : Nat) (buf tok : List Char)
    (a b : M3X86System.ParseState) (h : M3X86System.SameGroups a b) :
    M3X86System.SameGroups (M3X86System.parseToken m buf tok a)
      (M3X86System.parseToken m buf tok b) := by
  obtain ⟨kp1, p1, as1, ms1, i1, ar1, me1⟩ := a
  obtain ⟨kp2, p2, as2, ms2, i2, ar2, me2⟩ := b
  obtain ⟨h1, h2, h3, h5, h6⟩ := h
  simp only at h1 h2 h3 h5 h6
  subst h1 h2 h3
  unfold M3X86System.SameGroups M3X86System.parseToken M3X86System.appendArg
  simp only [if_neg h5, if_neg h6]
  split_ifs <;> exact ⟨rfl, rfl, rfl, h5, h6⟩

theorem M3X86System.parseLoop_groups86 (m argv1 argv2 : Nat) (cmd : List Char) :
    ∀ (tok : List Char) (a b : M3X86System.ParseState), M3X86System.SameGroups a b →
      M3X86System.SameGroups (M3X86System.parseLoop m argv1 cmd tok a).1
        (M3X86System.parseLoop m argv2 cmd tok b).1 := by
  induction cmd with
  | nil => intro tok a b h; exact h
  | cons c cmd ih =>
    intro tok a b h
    rw [M3X86System.parseLoop, M3X86System.parseLoop]
    by_cases hc : isspace c = true
    · simp only [hc, if_true]
      by_cases h0 : tok = []
      · simp only [h0, ne_eq, not_true_eq_false, if_false]
        exact ih [] a b h
      · simp only [ne_eq, h0, not_false_eq_true, if_true]
        obtain ⟨g1, g2, g3, _, _⟩ := M3X86System.parseToken_groups86 m (tok ++ c :: cmd) tok a b h
        exact ih [] _ _ ⟨g1, g2, g3, by simp [M3X86System.doWriteArg, M3X86System.writeArg],
          by simp [M3X86System.doWriteArg, M3X86System.writeArg]⟩
    · simp only [hc, if_false, Bool.false_eq_true]
      exact ih (tok ++ [c]) a b h

theorem M3X86System.parseLast_groups86 (argv1 argv2 : Nat) (tok : List Char)
    (a b : M3X86System.ParseState) (h : M3X86System.SameGroups a b) :
    (M3X86System.parseLast argv1 tok a).mods = (M3X86System.parseLast argv2 tok b).mods := by
  obtain ⟨kp1, p1, as1, ms1, i1, ar1, me1⟩ := a
  obtain ⟨kp2, p2, as2, ms2, i2, ar2, me2⟩ := b
  obtain ⟨h1, h2, h3, _, _⟩ := h
  simp only at h1 h2 h3
  subst h1 h2 h3
  unfold M3X86System.parseLast M3X86System.appendArg M3X86System.doWriteArg
  split_ifs <;> rfl

theorem M3X86System.parseCmdline_first86 (m argv args : Nat) (mem : Mem) (t rest : List Char)
    (c : Char) (h0 : t ≠ []) (hs : ∀ x ∈ t, isspace x = false) (hn : ∀ x ∈ t, x ≠ '\x00')
    (hc : isspace c = true) :
    M3X86System.parseCmdline m argv args mem (t ++ c :: rest) =
      M3X86System.parseLast argv (pending [] (c_str rest))
        (M3X86System.parseLoop m argv (c_str rest) []
          (M3X86System.doWriteArg argv t
            { kernelPath := dirname t, prog := [], argstr := [], mods := [],
              i := 0, args := args, mem := mem })).1 := by
  unfold M3X86System.parseCmdline
  simp only
  rw [M3X86System.parseLoop_pending86, c_str_token_append t rest c hn hc,
    M3X86System.parseLoop_scan86 m argv t hs, List.nil_append, M3X86System.parseLoop]
  simp only [hc, if_true, ne_eq, h0, not_false_eq_true]
  rw [pending_token t hs _ _ c hc]
  rfl

/-- The same for `M3X86System`: behind a first token that is followed by a
whitespace character, `kernelPath` is the directory of that token and the
parsed modules do not depend on it. -/
theorem M3X86System.first_token_spaced86 (m argv1 argv2 : Nat) (mem1 mem2 : Mem)
    (t1 t2 rest : List Char) (c : Char)
    (h1 : t1 ≠ []) (hs1 : ∀ x ∈ t1, isspace x = false) (hn1 : ∀ x ∈ t1, x ≠ '\x00')
    (h2 : t2 ≠ []) (hs2 : ∀ x ∈ t2, isspace x = false) (hn2 : ∀ x ∈ t2, x ≠ '\x00')
    (hc : isspace c = true) :
    (M3X86System.cmdlinePass m argv1 mem1 (t1 ++ c :: rest)).kernelPath = dirname t1 ∧
    (M3X86System.cmdlinePass m argv1 mem1 (t1 ++ c :: rest)).mods =
      (M3X86System.cmdlinePass m argv2 mem2 (t2 ++ c :: rest)).mods := by
  unfold M3X86System.cmdlinePass
  rw [M3X86System.parseCmdline_first86 m argv1 _ mem1 t1 rest c h1 hs1 hn1 hc,
    M3X86System.parseCmdline_first86 m argv2 _ mem2 t2 rest c h2 hs2 hn2 hc]
  constructor
  · rw [M3X86System.parseLast_kernelPath86]
    exact (M3X86System.parseLoop_keeps86 m argv1 (c_str rest) [] _
      (by simp [M3X86System.doWriteArg, M3X86System.writeArg])).1
  · apply M3X86System.parseLast_groups86
    apply M3X86System.parseLoop_groups86
    exact ⟨rfl, rfl, rfl, by simp [M3X86System.doWriteArg, M3X86System.writeArg],
      by simp [M3X86System.doWriteArg, M3X86System.writeArg]⟩

/-- C21 (the code at the failing input): for the command line `bin/k`, one
token with nothing behind it, `kernelPath` stays empty and the token becomes
the program of a module, in both parsers; `M3Loader::initState` for the
bootstrap core then looks for the file `/bin/k` and aborts in the module loop.
With a space behind the token, `kernelPath` is `bin` and no module is parsed. -/
theorem single_token_becomes_module :
    (M3Loader.cmdlinePass 1 0 (fun _ => 0) "bin/k".toList).kernelPath = [] ∧
    M3Loader.moduleList 1 0 (fun _ => 0) "bin/k".toList =
      [("bin/k".toList, []), ("rctmux".toList, [])] ∧
    (M3X86System.cmdlinePass 1 0 (fun _ => 0) "bin/k".toList).kernelPath = [] ∧
    M3X86System.moduleList 1 0 (fun _ => 0) "bin/k".toList =
      some [("bin/k".toList, []), ("idle".toList, [])] ∧
    (M3Loader.cmdlinePass 1 0 (fun _ => 0) "bin/k ".toList).kernelPath = "bin".toList ∧
    (M3Loader.cmdlinePass 1 0 (fun _ => 0) "bin/k ".toList).mods = [] ∧
    (exampleInit [1, 2] 0 0x1000 "bin/k".toList).panic? = some .moduleLoad ∧
    (exampleInit [1, 2] 0 0x1000 "bin/k ".toList).panic? = none := by
  decide
/-! ## Claim C22: the pages of a segment -/

/-- Addresses with the same page number use the same indices at every level. -/
theorem M3X86System.samePage_of_div_eq (sys : M3X86System) (u v : Nat)
    (h : u / 2 ^ sys.PAGE_BITS = v / 2 ^ sys.PAGE_BITS) : sys.SamePage u v := by
  intro i _
  rw [sys.levelIdx_eq, sys.levelIdx_eq, Nat.pow_add, ← Nat.div_div_eq_div_mul,
    ← Nat.div_div_eq_div_mul, h]

/-- What `mapSegment` maps, whatever the alignment of `start`: the
`ceil(size / PAGE_SIZE)` pages that hold `start`, `start + PAGE_SIZE`, ...; an
address in any other page outside the recursive window keeps its mapping. -/
theorem M3X86System.mapSegment_pages (sys : M3X86System) (hg : sys.Geometry) (s : PtState)
    (hwf : sys.WF s) (start size perm : Nat)
    (hrange : start + size ≤ 2 ^ (sys.PAGE_BITS + sys.LEVEL_CNT * sys.LEVEL_BITS))
    (hreg : ∀ k, k < divCeil size sys.PAGE_SIZE → sys.Regular (start + k * sys.PAGE_SIZE))
    (hun : ∀ k, k < divCeil size sys.PAGE_SIZE →
      sys.translate s.mem (start + k * sys.PAGE_SIZE) = none) :
    ∃ s', sys.mapSegment start size perm s = some s' ∧
      (∀ a k, k < divCeil size sys.PAGE_SIZE →
        a / 2 ^ sys.PAGE_BITS = (start + k * sys.PAGE_SIZE) / 2 ^ sys.PAGE_BITS →
        sys.leafEntry s'.mem a =
          some { base := sys.nocAddr ((sys.memOffset + (start + k * sys.PAGE_SIZE)) % WORD) >>>
                   sys.PAGE_BITS,
                 ixwr := sys.toIxwr perm }) ∧
      (∀ a, sys.Regular a → a < 2 ^ (sys.PAGE_BITS + sys.LEVEL_CNT * sys.LEVEL_BITS) →
        (∀ k, k < divCeil size sys.PAGE_SIZE →
          a / 2 ^ sys.PAGE_BITS ≠ (start + k * sys.PAGE_SIZE) / 2 ^ sys.PAGE_BITS) →
        sys.translate s'.mem a = sys.translate s.mem a) := by
  have hP : 0 < sys.PAGE_SIZE := by
    rw [sys.PAGE_SIZE_eq]; exact Nat.pos_pow_of_pos _ (by omega)
  have hlast : divCeil size sys.PAGE_SIZE = 0 ∨
      start + (divCeil size sys.PAGE_SIZE - 1) * sys.PAGE_SIZE <
        2 ^ (sys.PAGE_BITS + sys.LEVEL_CNT * sys.LEVEL_BITS) := by
    by_cases h0 : divCeil size sys.PAGE_SIZE = 0
    · exact Or.inl h0
    · have := divCeil_pred_lt size sys.PAGE_SIZE hP (by omega)
      exact Or.inr (by omega)
  have hbound : ∀ k, k < divCeil size sys.PAGE_SIZE →
      start + k * sys.PAGE_SIZE < 2 ^ (sys.PAGE_BITS + sys.LEVEL_CNT * sys.LEVEL_BITS) := by
    intro k hk
    rcases hlast with h | h
    · omega
    · have : k * sys.PAGE_SIZE ≤ (divCeil size sys.PAGE_SIZE - 1) * sys.PAGE_SIZE :=
        Nat.mul_le_mul_right _ (by omega)
      omega
  obtain ⟨s', q1, _, q3, q4, _, _⟩ := sys.mapSegmentLoop_spec hg perm
    (divCeil size sys.PAGE_SIZE) start s hwf hreg hun hlast
  refine ⟨s', q1, ?_, ?_⟩
  · intro a k hk ha
    rw [((sys.samePage_of_div_eq a _ ha).translate_eq hg.levels s'.mem).1]
    exact q3 k hk
  · intro a hra hva hne
    refine (q4 a hra ?_).1
    intro k hk hsame
    exact hne k hk (hsame.div_eq hva (hbound k hk))

theorem div_lt_divCeil (x size p : Nat) (hp : 0 < p) (hx : x < size) :
    x / p < divCeil size p := by
  unfold divCeil
  rw [Nat.div_lt_iff_lt_mul hp]
  have := Nat.lt_div_mul_add (a := size + p - 1) hp
  omega

/-- For a page-aligned `start`, `mapSegment` gives every address of
`[start, start + size)` a level-0 entry with the flags `perm`. -/
theorem M3X86System.mapSegment_covers_aligned (sys : M3X86System) (hg : sys.Geometry)
    (s : PtState) (hwf : sys.WF s) (start size perm : Nat)
    (halign : start % 2 ^ sys.PAGE_BITS = 0) (hperm : sys.toIxwr perm ≠ 0)
    (hrange : start + size ≤ 2 ^ (sys.PAGE_BITS + sys.LEVEL_CNT * sys.LEVEL_BITS))
    (hreg : ∀ k, k < divCeil size sys.PAGE_SIZE → sys.Regular (start + k * sys.PAGE_SIZE))
    (hun : ∀ k, k < divCeil size sys.PAGE_SIZE →
      sys.translate s.mem (start + k * sys.PAGE_SIZE) = none) :
    ∃ s', sys.mapSegment start size perm s = some s' ∧
      ∀ a, start ≤ a → a < start + size →
        ∃ e, sys.translate s'.mem a = some e ∧ e.ixwr = sys.toIxwr perm := by
  have hP : 0 < (2:Nat) ^ sys.PAGE_BITS := Nat.pos_pow_of_pos _ (by omega)
  obtain ⟨s', q1, q2, _⟩ := sys.mapSegment_pages hg s hwf start size perm hrange hreg hun
  refine ⟨s', q1, ?_⟩
  intro a h1 h2
  have hk : (a - start) / sys.PAGE_SIZE < divCeil size sys.PAGE_SIZE :=
    div_lt_divCeil _ _ _ (by rw [sys.PAGE_SIZE_eq]; exact hP) (by omega)
  obtain ⟨c, hc⟩ := Nat.dvd_of_mod_eq_zero halign
  obtain ⟨x, hx⟩ : ∃ x, a = start + x := ⟨a - start, by omega⟩
  have hax : a - start = x := by omega
  rw [hax] at hk
  have hpage : a / 2 ^ sys.PAGE_BITS =
      (start + x / sys.PAGE_SIZE * sys.PAGE_SIZE) / 2 ^ sys.PAGE_BITS := by
    rw [hx, sys.PAGE_SIZE_eq, Nat.add_mul_div_right _ _ hP, hc, Nat.mul_add_div hP,
      Nat.mul_div_cancel_left _ hP]
  have hle := q2 a _ hk hpage
  refine ⟨{ base := sys.nocAddr
                ((sys.memOffset + (start + x / sys.PAGE_SIZE * sys.PAGE_SIZE)) % WORD) >>>
                  sys.PAGE_BITS,
            ixwr := sys.toIxwr perm }, ?_, rfl⟩
  simp [M3X86System.translate, hle, hperm]

/-- For a `start` that is not page-aligned, when the offset of `start` in its
page and `size` together exceed the pages `mapSegment` maps, the page with the
end of the range gets no mapping: its first address lies in
`[start, start + size)` and is as unmapped as before. -/
theorem M3X86System.mapSegment_misses_tail (sys : M3X86System) (hg : sys.Geometry)
    (s : PtState) (hwf : sys.WF s) (start size perm : Nat) (hsize : 0 < size)
    (htail : divCeil size sys.PAGE_SIZE * sys.PAGE_SIZE < start % sys.PAGE_SIZE + size)
    (hrange : start + size ≤ 2 ^ (sys.PAGE_BITS + sys.LEVEL_CNT * sys.LEVEL_BITS))
    (hreg : ∀ k, k < divCeil size sys.PAGE_SIZE → sys.Regular (start + k * sys.PAGE_SIZE))
    (hun : ∀ k, k < divCeil size sys.PAGE_SIZE →
      sys.translate s.mem (start + k * sys.PAGE_SIZE) = none)
    (hra : sys.Regular ((start / sys.PAGE_SIZE + divCeil size sys.PAGE_SIZE) * sys.PAGE_SIZE))
    (hua : sys.translate s.mem
      ((start / sys.PAGE_SIZE + divCeil size sys.PAGE_SIZE) * sys.PAGE_SIZE) = none) :
    ∃ s', sys.mapSegment start size perm s = some s' ∧
      start ≤ (start / sys.PAGE_SIZE + divCeil size sys.PAGE_SIZE) * sys.PAGE_SIZE ∧
      (start / sys.PAGE_SIZE + divCeil size sys.PAGE_SIZE) * sys.PAGE_SIZE < start + size ∧
      sys.translate s'.mem
        ((start / sys.PAGE_SIZE + divCeil size sys.PAGE_SIZE) * sys.PAGE_SIZE) = none := by
  have hP : 0 < (2:Nat) ^ sys.PAGE_BITS := Nat.pos_pow_of_pos _ (by omega)
  have hPS := sys.PAGE_SIZE_eq
  obtain ⟨s', q1, _, q3⟩ := sys.mapSegment_pages hg s hwf start size perm hrange hreg hun
  have hn : 0 < divCeil size sys.PAGE_SIZE := by
    have := div_lt_divCeil 0 size sys.PAGE_SIZE (by rw [hPS]; exact hP) hsize
    rw [Nat.zero_div] at this
    exact this
  have hdm := Nat.div_add_mod start sys.PAGE_SIZE
  have hml := Nat.mod_lt start (show 0 < sys.PAGE_SIZE by rw [hPS]; exact hP)
  have hmul : (start / sys.PAGE_SIZE + divCeil size sys.PAGE_SIZE) * sys.PAGE_SIZE =
      sys.PAGE_SIZE * (start / sys.PAGE_SIZE) + divCeil size sys.PAGE_SIZE * sys.PAGE_SIZE := by
    rw [Nat.add_mul, Nat.mul_comm]
  have hge : sys.PAGE_SIZE ≤ divCeil size sys.PAGE_SIZE * sys.PAGE_SIZE :=
    Nat.le_mul_of_pos_left _ hn
  have h1 : start ≤ (start / sys.PAGE_SIZE + divCeil size sys.PAGE_SIZE) * sys.PAGE_SIZE := by
    omega
  have h2 : (start / sys.PAGE_SIZE + divCeil size sys.PAGE_SIZE) * sys.PAGE_SIZE <
      start + size := by omega
  refine ⟨s', q1, h1, h2, ?_⟩
  rw [q3 _ hra (by omega) ?_]
  · exact hua
  · intro k hk
    rw [← hPS, Nat.mul_div_cancel _ (by omega), Nat.add_mul_div_right _ _ (by omega)]
    omega

/-- C22 (the code at the failing input): on the example system, with pages of
`0x1000` bytes, `mapSegment(0x200800, 0x1000, 5)` into the address space that
`initRootPt` leaves maps `ceil(0x1000 / 0x1000) = 1` page, the one that holds
`0x200800`; the addresses `0x201000` to `0x2017ff` of the range lie in the next
page, which has no level-0 entry. -/
theorem unaligned_segment_tail_unmapped :
    divCeil 0x1000 exampleSys.PAGE_SIZE = 1 ∧
    (exampleSys.mapSegment 0x200800 0x1000 5
      (exampleSys.initRootPt (exampleSys.initial (fun _ => { base := 0, ixwr := 0 })))).map
      (fun s => (exampleSys.translate s.mem 0x200800, exampleSys.translate s.mem 0x200fff,
        exampleSys.translate s.mem 0x201000, exampleSys.translate s.mem 0x2017ff)) =
      some (some { base := 0x8000000000200, ixwr := 5 },
        some { base := 0x8000000000200, ixwr := 5 }, none, none) := by
  decide
